import Mathlib

/-! Jellyfish: the sequence parsers, the quality-aware rolling k-mer loop, binary matrices.

A shallow embedding of `jellyfish/parse_quake.hpp` (`parse_quake::thread`) and
`jellyfish/sequence_parser.cc` (`new_parser`, `fasta_sequence_parser::parse`,
`fastq_sequence_parser::parse`), with the properties proved about them, and a model of the
part of `RectangularBinaryMatrix` that `unit_tests/test_rectangular_binary_matrix.cc` exercises.

Machine integers are natural numbers with explicit reduction modulo `2^64`.
-/

namespace Jellyfish
/-! ## `parse_quake::thread` -/

/-- Modelled from the spec: the typedef `uint_t` lives in `misc.hpp`, which is not among the
sources; it is taken as a 64-bit unsigned integer, so `CODE_RESET = (uint_t)-1` is `2^64 - 1`. -/
def CODE_RESET : Nat := 2 ^ 64 - 1

/-- Modelled from the spec: `circular_buffer.hpp` is not among the sources. "A circular buffer of
length k": `size` is the length the buffer was built with, `vals` the values it holds, the most
recently appended first. -/
structure circular_buffer (M : Type) where
  size : Nat
  vals : List M

/-- Modelled from the spec: `circular_buffer::append` (header not among the sources). Appending
keeps the `size` most recently appended values. -/
def circular_buffer.append {M : Type} (b : circular_buffer M) (v : M) : circular_buffer M :=
  { size := b.size, vals := (v :: b.vals).take b.size }

/-- Modelled from the spec: `circular_buffer::prod` (header not among the sources): "the
submitted weight is the product of the buffer". -/
def circular_buffer.prod {M : Type} [CommMonoid M] (b : circular_buffer M) : M :=
  b.vals.prod

/-- The fields of `parse_quake::thread` that `parse` reads or writes. Weights live in a
commutative monoid `M` rather than in `float`. -/
structure thread (M : Type) where
  mer_len : Nat
  lshift : Nat
  kmer : Nat
  rkmer : Nat
  masq : Nat
  cmlen : Nat
  canonical : Bool
  quals : circular_buffer M
  quality_start : Nat

/-- The constructor `thread(parse_quake *_parser, const char _qs)`; `mer_len` and `canonical`
are the two fields read from the parser. -/
def thread.new (M : Type) (mer_len : Nat) (canonical : Bool) (_qs : Nat) : thread M :=
  { mer_len := mer_len
    lshift := 2 * (mer_len - 1)
    kmer := 0
    rkmer := 0
    masq := ((1 <<< (2 * mer_len)) % 2 ^ 64 + 2 ^ 64 - 1) % 2 ^ 64
    cmlen := 0
    canonical := canonical
    quals := { size := mer_len, vals := [] }
    quality_start := _qs }

/-- The assignment `cmlen = kmer = rkmer = 0`. -/
def thread.clear {M : Type} (t : thread M) : thread M :=
  { t with cmlen := 0, kmer := 0, rkmer := 0 }

/-- The index `(uint_t)(q - quality_start)` into `one_minus_proba_codes`. -/
def qual_index (q quality_start : Nat) : Nat :=
  (((q : Int) - (quality_start : Int)) % (2 ^ 64 : Int)).toNat

/-- One iteration of the inner `while(start < end)` loop of `parse`: `b` is the base byte and
`q` the quality byte read from the buffer. `codes` and `one_minus_proba_codes` are the two static
tables, defined outside the sources, and `out` is the list of `counter->add(key, weight)` calls
made so far, in order. -/
def thread.step {M : Type} [CommMonoid M] (codes : Nat → Nat) (one_minus_proba_codes : Nat → M)
    (s : thread M × List (Nat × M)) (bq : Nat × Nat) : thread M × List (Nat × M) :=
  let t := s.1
  let c := codes bq.1
  let q := bq.2
  if c = CODE_RESET then
    (t.clear, s.2)
  else
    let kmer := (((t.kmer <<< 2) % 2 ^ 64) &&& t.masq) ||| c
    let rkmer := (t.rkmer >>> 2) ||| ((((3 + 2 ^ 64 - c) % 2 ^ 64) <<< t.lshift) % 2 ^ 64)
    let one_minus_p := one_minus_proba_codes (qual_index q t.quality_start)
    let quals := t.quals.append one_minus_p
    if t.cmlen + 1 ≥ t.mer_len then
      let t1 : thread M :=
        { t with kmer := kmer, rkmer := rkmer, quals := quals, cmlen := t.mer_len }
      if t.canonical then
        (t1, s.2 ++ [(if kmer < rkmer then kmer else rkmer, quals.prod)])
      else
        (t1, s.2 ++ [(kmer, quals.prod)])
    else
      ({ t with kmer := kmer, rkmer := rkmer, quals := quals, cmlen := t.cmlen + 1 }, s.2)

/-- The body of the outer loop of `parse` for one buffer handed out by `parser->next()`: the
inner loop over the buffer's (base, quality) pairs, then `cmlen = kmer = rkmer = 0`. -/
def thread.parse_buffer {M : Type} [CommMonoid M] (codes : Nat → Nat)
    (one_minus_proba_codes : Nat → M) (s : thread M × List (Nat × M))
    (buffer : List (Nat × Nat)) : thread M × List (Nat × M) :=
  let s1 := buffer.foldl (thread.step codes one_minus_proba_codes) s
  (s1.1.clear, s1.2)

/-- The method `parse_quake::thread::parse(counter)`: `buffers` are the buffers that
`parser->next()` returns until it returns null. The result is the thread after the call and the
calls `counter->add(key, weight)` it made, in order. -/
def thread.parse {M : Type} [CommMonoid M] (codes : Nat → Nat) (one_minus_proba_codes : Nat → M)
    (t : thread M) (buffers : List (List (Nat × Nat))) : thread M × List (Nat × M) :=
  buffers.foldl (thread.parse_buffer codes one_minus_proba_codes) (t.clear, [])

/-- The keys submitted by `parse`, in order. -/
def thread.keys {M : Type} [CommMonoid M] (codes : Nat → Nat) (one_minus_proba_codes : Nat → M)
    (t : thread M) (buffers : List (List (Nat × Nat))) : List Nat :=
  (thread.parse codes one_minus_proba_codes t buffers).2.map Prod.fst


/-! ### The reference scanner -/

/-- The integer of a window of bases, oldest first: two bits per base, the most recent base in
the two low bits. -/
def encode (w : List Nat) : Nat :=
  w.foldl (fun a b => 4 * a + b) 0

/-- The last `k` entries of the first `i + 1` entries of `l`. -/
def window_at {α : Type} (k : Nat) (l : List α) (i : Nat) : List α :=
  (l.take (i + 1)).drop (i + 1 - k)

/-- The reverse complement of a window: the window reversed, every base `b` replaced by
`3 - b`. -/
def rev_comp (w : List Nat) : List Nat :=
  (w.map fun b => 3 - b).reverse

/-- The lexicographically smaller of a window and its reverse complement. -/
def canonical_window (w : List Nat) : List Nat :=
  if rev_comp w < w then rev_comp w else w

/-- Reference scanner, non-canonical: one key for each position `i` whose last `k` codes exist
and are all bases, in input order. -/
def ref_keys (k : Nat) (cs : List Nat) : List Nat :=
  (List.range cs.length).filterMap fun i =>
    if k ≤ i + 1 ∧ ∀ c ∈ window_at k cs i, c < 4 then some (encode (window_at k cs i)) else none

/-- Reference scanner, canonical: as `ref_keys`, each key being the encoding of the
lexicographically smaller of the window and its reverse complement. -/
def ref_keys_canonical (k : Nat) (cs : List Nat) : List Nat :=
  (List.range cs.length).filterMap fun i =>
    if k ≤ i + 1 ∧ ∀ c ∈ window_at k cs i, c < 4 then
      some (encode (canonical_window (window_at k cs i)))
    else none

/-- Reference weights: for each position `i` whose last `k` codes exist and are all bases, the
product of `one_minus_proba_codes[q - quality_start]` over the window's quality bytes `q`. The
entries of `cqs` are pairs (base code, quality byte). -/
def ref_weights {M : Type} [CommMonoid M] (k : Nat) (one_minus_proba_codes : Nat → M)
    (quality_start : Nat) (cqs : List (Nat × Nat)) : List M :=
  (List.range cqs.length).filterMap fun i =>
    if k ≤ i + 1 ∧ ∀ p ∈ window_at k cqs i, p.1 < 4 then
      some ((window_at k cqs i).map fun p => one_minus_proba_codes (p.2 - quality_start)).prod
    else none

/-- A code table for examples: `A C G T` (and lower case) to `0 1 2 3`, everything else to
`CODE_RESET`. -/
def example_codes (b : Nat) : Nat :=
  if b = 65 ∨ b = 97 then 0
  else if b = 67 ∨ b = 99 then 1
  else if b = 71 ∨ b = 103 then 2
  else if b = 84 ∨ b = 116 then 3
  else CODE_RESET

/-! ### Auxiliary definitions for the proofs about the rolling loop -/

/-- The integer of a list of bases given most recent first. -/
def encLE : List Nat → Nat
  | [] => 0
  | b :: t => b + 4 * encLE t

/-- The complements of the bases of `h` (most recent first), padded with zeros to length `k`. -/
def padrc (k : Nat) (h : List Nat) : List Nat :=
  (h.map (fun b => 3 - b) ++ List.replicate k 0).take k

/-- The codes of the bases read since the last RESET, most recent first. -/
def hist (codes : Nat → Nat) (buffer : List (Nat × Nat)) : List Nat :=
  (buffer.reverse.map fun p => codes p.1).takeWhile (fun c => decide (c < 4))

/-- The values appended to the circular buffer while reading `buffer`, most recent first. -/
def apps {M : Type} (codes : Nat → Nat) (one_minus_proba_codes : Nat → M) (quality_start : Nat)
    (buffer : List (Nat × Nat)) : List M :=
  (buffer.reverse.filter fun p => decide (codes p.1 < 4)).map
    fun p => one_minus_proba_codes (qual_index p.2 quality_start)

/-- The key the loop submits for a window `w` of bases (oldest first). -/
def ref_key (canonical : Bool) (w : List Nat) : Nat :=
  if canonical then (if encode w < encode (rev_comp w) then encode w else encode (rev_comp w))
  else encode w

/-- The calls `counter->add(key, weight)` expected for one buffer of (base byte, quality byte)
pairs: one for each position whose last `k` codes exist and are all bases. -/
def ref_adds {M : Type} [CommMonoid M] (k : Nat) (canonical : Bool) (codes : Nat → Nat)
    (one_minus_proba_codes : Nat → M) (quality_start : Nat) (buffer : List (Nat × Nat)) :
    List (Nat × M) :=
  (List.range buffer.length).filterMap fun i =>
    if k ≤ i + 1 ∧ ∀ p ∈ window_at k buffer i, codes p.1 < 4 then
      some (ref_key canonical ((window_at k buffer i).map fun p => codes p.1),
        ((window_at k buffer i).map
          fun p => one_minus_proba_codes (qual_index p.2 quality_start)).prod)
    else none

/-- The constants a thread built by the constructor for mer length `k` carries, and the
capacity of its circular buffer. -/
structure thread.wf {M : Type} (k : Nat) (t : thread M) : Prop where
  mer_len : t.mer_len = k
  lshift : t.lshift = 2 * (k - 1)
  masq : t.masq = 4 ^ k - 1
  qsize : t.quals.size = k
  qlen : t.quals.vals.length ≤ k

/-- The state of the thread `t` in terms of the bases `h` read since the last RESET and the
values `a` held by the circular buffer (both most recent first). -/
structure thread.inv {M : Type} (k : Nat) (t0 t : thread M) (h : List Nat) (a : List M) :
    Prop where
  wf : thread.wf k t
  canonical : t.canonical = t0.canonical
  quality_start : t.quality_start = t0.quality_start
  bases : ∀ d ∈ h, d < 4
  cmlen : t.cmlen = min h.length k
  kmer : t.kmer = encLE (h.take k)
  rkmer : t.rkmer = encode (padrc k h)
  qvals : t.quals.vals = a.take k

/-- All windows of `k` consecutive entries of `s`, in input order. -/
def windows {α : Type} (k : Nat) (s : List α) : List (List α) :=
  (List.range (s.length + 1 - k)).map fun j => (s.drop j).take k

/-- Two threads agree on every field that a key depends on: all but the circular buffer and
`quality_start`. -/
def thread.key_eq {M : Type} (t u : thread M) : Prop :=
  t.mer_len = u.mer_len ∧ t.lshift = u.lshift ∧ t.kmer = u.kmer ∧ t.rkmer = u.rkmer ∧
    t.masq = u.masq ∧ t.cmlen = u.cmlen ∧ t.canonical = u.canonical

/-! ## `sequence_parser.cc` -/

/-- The value `EOF` returned by `sbumpc()` at the end of the input. -/
def EOF : Int := -1

/-- Modelled from the spec: the stream state of the base class of both parsers (its header,
`sequence_parser.hpp`, is not among the sources): `base` is the last value read (`base()`),
`pbase` the one read before it (`pbase()`), `data` the bytes of the input not read yet. Bytes are
taken as unsigned, so no byte equals `EOF`. -/
structure file_parser_state where
  base : Int
  pbase : Int
  data : List Nat
deriving DecidableEq

/-- Modelled from the spec: a parser opened on the input `data`, read from a line boundary: the
character before the first byte counts as a newline. -/
def file_parser_state.new (data : List Nat) : file_parser_state :=
  { base := 10, pbase := 10, data := data }

/-- Modelled from the spec: `sbumpc()` (its header is not among the sources) reads the next byte
of the stream: the old `base` becomes `pbase`, and `base` the byte read, or `EOF` when the input
is exhausted. The value it returns is the new `base`. -/
def file_parser_state.sbumpc (p : file_parser_state) : file_parser_state :=
  match p.data with
  | [] => { base := EOF, pbase := p.base, data := [] }
  | b :: rest => { base := (b : Int), pbase := p.base, data := rest }

/-- The loop `while(base() != EOF && base() != '\n') { sbumpc(); }`, at most `fuel`
iterations. -/
def file_parser_state.skip_line_loop : Nat → file_parser_state → file_parser_state
  | 0, p => p
  | fuel + 1, p =>
    if p.base ≠ EOF ∧ p.base ≠ 10 then skip_line_loop fuel p.sbumpc else p

/-- The loop `while(base() != EOF && base() != '\n') { sbumpc(); }`: every iteration reads one
byte or meets the end of input, so `data.length + 1` iterations are enough. -/
def file_parser_state.skip_line (p : file_parser_state) : file_parser_state :=
  file_parser_state.skip_line_loop (p.data.length + 1) p

/-- The `while(start < *end && base() != EOF)` loop of `fasta_sequence_parser::parse`, at most
`fuel` iterations: `cap` is `*end - start`, `out` the bytes written so far. -/
def fasta_sequence_parser_loop :
    Nat → Nat → file_parser_state → List Nat → file_parser_state × List Nat
  | 0, _, p, out => (p, out)
  | fuel + 1, cap, p, out =>
    if 0 < cap ∧ p.base ≠ EOF then
      let p1 := p.sbumpc
      if p1.base = EOF then
        fasta_sequence_parser_loop fuel cap p1 out
      else if p1.base = 62 then
        if p1.pbase = 10 then
          let p2 := p1.skip_line
          fasta_sequence_parser_loop fuel (cap - 1) p2 (out ++ [78])
        else
          fasta_sequence_parser_loop fuel (cap - 1) p1 (out ++ [p1.base.toNat])
      else if p1.base = 10 then
        fasta_sequence_parser_loop fuel cap p1 out
      else
        fasta_sequence_parser_loop fuel (cap - 1) p1 (out ++ [p1.base.toNat])
    else (p, out)

/-- What a call `parse(start, end)` leaves behind: the parser after the call, the bytes written
to `[start, *end)` in order (so the new `*end` is `start + out.length`), and the value
returned. -/
structure parse_result (σ : Type) where
  parser : σ
  out : List Nat
  more : Bool
deriving DecidableEq

/-- The method `fasta_sequence_parser::parse(start, end)` on a buffer of capacity
`cap = *end - start`. Every iteration of the loop reads at least one byte or meets the end of
input, so `data.length + 1` iterations are enough. -/
def fasta_sequence_parser_parse (p : file_parser_state) (cap : Nat) :
    parse_result file_parser_state :=
  let r := fasta_sequence_parser_loop (p.data.length + 1) cap p []
  { parser := r.1, out := r.2, more := decide (r.1.base ≠ EOF) }

/-- The state of a `fastq_sequence_parser`: the stream and the field `seq_len`. The field is
declared in a header that is not among the sources; it is taken as an unbounded counter. -/
structure fastq_sequence_parser_state where
  fp : file_parser_state
  seq_len : Nat
deriving DecidableEq

/-- Modelled from the spec: the constructor of `fastq_sequence_parser` (header not among the
sources) on the input `data`; `seq_len` starts at zero. -/
def fastq_sequence_parser_state.new (data : List Nat) : fastq_sequence_parser_state :=
  { fp := file_parser_state.new data, seq_len := 0 }

/-- The loop `while(base() != EOF && seq_len > 0) { if(base() != '\n') --seq_len; sbumpc(); }`,
at most `fuel` iterations. -/
def fastq_sequence_parser_skip_qual_loop :
    Nat → fastq_sequence_parser_state → fastq_sequence_parser_state
  | 0, s => s
  | fuel + 1, s =>
    if s.fp.base ≠ EOF ∧ s.seq_len > 0 then
      let n := if s.fp.base ≠ 10 then s.seq_len - 1 else s.seq_len
      fastq_sequence_parser_skip_qual_loop fuel { fp := s.fp.sbumpc, seq_len := n }
    else s

/-- The loop that skips the quality values; `data.length + 1` iterations are enough. -/
def fastq_sequence_parser_skip_qual (s : fastq_sequence_parser_state) :
    fastq_sequence_parser_state :=
  fastq_sequence_parser_skip_qual_loop (s.fp.data.length + 1) s

/-- The `while(start < *end && base() != EOF)` loop of `fastq_sequence_parser::parse`, at most
`fuel` iterations: `cap` is `*end - start`, `out` the bytes written so far. -/
def fastq_sequence_parser_loop :
    Nat → Nat → fastq_sequence_parser_state → List Nat → fastq_sequence_parser_state × List Nat
  | 0, _, s, out => (s, out)
  | fuel + 1, cap, s, out =>
    if 0 < cap ∧ s.fp.base ≠ EOF then
      let p1 := s.fp.sbumpc
      if p1.base = EOF then
        fastq_sequence_parser_loop fuel cap { fp := p1, seq_len := s.seq_len } out
      else if p1.base = 64 then
        if p1.pbase = 10 then
          fastq_sequence_parser_loop fuel (cap - 1) { fp := p1.skip_line, seq_len := 0 }
            (out ++ [78])
        else
          fastq_sequence_parser_loop fuel (cap - 1) { fp := p1, seq_len := s.seq_len }
            (out ++ [p1.base.toNat])
      else if p1.base = 43 then
        if p1.pbase = 10 then
          fastq_sequence_parser_loop fuel cap
            (fastq_sequence_parser_skip_qual { fp := p1.skip_line, seq_len := s.seq_len }) out
        else
          fastq_sequence_parser_loop fuel (cap - 1) { fp := p1, seq_len := s.seq_len }
            (out ++ [p1.base.toNat])
      else if p1.base = 10 then
        fastq_sequence_parser_loop fuel cap { fp := p1, seq_len := s.seq_len } out
      else
        fastq_sequence_parser_loop fuel (cap - 1) { fp := p1, seq_len := s.seq_len + 1 }
          (out ++ [p1.base.toNat])
    else (s, out)

/-- The method `fastq_sequence_parser::parse(start, end)` on a buffer of capacity
`cap = *end - start`; `data.length + 1` iterations of the loop are enough. -/
def fastq_sequence_parser_parse (s : fastq_sequence_parser_state) (cap : Nat) :
    parse_result fastq_sequence_parser_state :=
  let r := fastq_sequence_parser_loop (s.fp.data.length + 1) cap s []
  { parser := r.1, out := r.2, more := decide (r.1.fp.base ≠ EOF) }

/-- The kind of error raised by `eraise(FileParserError)`, with its message. -/
inductive parser_error where
  | FileParserError (message : String)
deriving DecidableEq

/-- The object `new_parser` returns: a `fasta_sequence_parser` or a `fastq_sequence_parser`,
each built on the file descriptor `fd`. -/
inductive sequence_parser_kind where
  | fasta (fd : Nat)
  | fastq (fd : Nat)
deriving DecidableEq

/-- The function `sequence_parser::new_parser(path)`. `file_peek(path, &peek)` is declared
outside the sources: the descriptor `fd` it returns and the byte `peek` it stores are parameters,
and so is the text `err_no` that the manipulator `err::no` appends to the message. -/
def new_parser_for_path (path : String) (fd : Nat) (peek : Nat) (err_no : String) :
    Except parser_error sequence_parser_kind :=
  if peek = 62 then .ok (sequence_parser_kind.fasta fd)
  else if peek = 64 then .ok (sequence_parser_kind.fastq fd)
  else .error (parser_error.FileParserError ("Invalid input file '" ++ path ++ "'" ++ err_no))

/-! ### Reference functions and auxiliary definitions for the parsers -/

/-- The output the FASTA format asks for: the input cut into lines at every newline byte, every
line that begins with `>` replaced by the single byte `N`, the lines joined without the
newlines. -/
def fasta_ref (data : List Nat) : List Nat :=
  ((data.splitOn 10).map fun line => if line.head? = some 62 then [78] else line).flatten

/-- A FASTQ record: the text after `@`, the sequence, the text after `+`, the quality values. -/
structure fastq_record where
  header : List Nat
  sequence : List Nat
  header2 : List Nat
  quality : List Nat

/-- The bytes of a record: `@` header newline sequence newline `+` header2 newline quality
newline. -/
def fastq_record.bytes (r : fastq_record) : List Nat :=
  64 :: r.header ++ 10 :: r.sequence ++ 10 :: 43 :: r.header2 ++ 10 :: r.quality ++ [10]

/-- A record is well formed when no line contains a newline, the sequence contains neither `@`
nor `+`, and the quality has as many bytes as the sequence. -/
def fastq_record.well_formed (r : fastq_record) : Prop :=
  10 ∉ r.header ∧ (∀ b ∈ r.sequence, b ≠ 10 ∧ b ≠ 64 ∧ b ≠ 43) ∧ 10 ∉ r.header2 ∧
    10 ∉ r.quality ∧ r.quality.length = r.sequence.length

/-- The output the FASTQ format asks for: for each record, `N` followed by its sequence. -/
def fastq_ref (rs : List fastq_record) : List Nat :=
  (rs.map fun r => 78 :: r.sequence).flatten

/-- The successive calls `parse(start, end)` on buffers of the capacities `caps`, made until one
returns false: the concatenation of the outputs, and `false` when the last call made returned
false (`true` when the capacities ran out first). -/
def parse_calls {σ : Type} (parse : σ → Nat → parse_result σ) : σ → List Nat → List Nat × Bool
  | _, [] => ([], true)
  | s, cap :: caps =>
    if (parse s cap).more then
      ((parse s cap).out ++ (parse_calls parse (parse s cap).parser caps).1,
        (parse_calls parse (parse s cap).parser caps).2)
    else ((parse s cap).out, false)

/-- One iteration of the loop of `fasta_sequence_parser::parse`: the parser after it and the
bytes it writes. -/
def fasta_iter (p : file_parser_state) : file_parser_state × List Nat :=
  let p1 := p.sbumpc
  if p1.base = EOF then (p1, [])
  else if p1.base = 62 then
    if p1.pbase = 10 then (p1.skip_line, [78]) else (p1, [p1.base.toNat])
  else if p1.base = 10 then (p1, [])
  else (p1, [p1.base.toNat])

/-- One iteration of the loop of `fastq_sequence_parser::parse`: the parser after it and the
bytes it writes. -/
def fastq_iter (s : fastq_sequence_parser_state) : fastq_sequence_parser_state × List Nat :=
  let p1 := s.fp.sbumpc
  if p1.base = EOF then ({ fp := p1, seq_len := s.seq_len }, [])
  else if p1.base = 64 then
    if p1.pbase = 10 then ({ fp := p1.skip_line, seq_len := 0 }, [78])
    else ({ fp := p1, seq_len := s.seq_len }, [p1.base.toNat])
  else if p1.base = 43 then
    if p1.pbase = 10 then
      (fastq_sequence_parser_skip_qual { fp := p1.skip_line, seq_len := s.seq_len }, [])
    else ({ fp := p1, seq_len := s.seq_len }, [p1.base.toNat])
  else if p1.base = 10 then ({ fp := p1, seq_len := s.seq_len }, [])
  else ({ fp := p1, seq_len := s.seq_len + 1 }, [p1.base.toNat])

/-- A loop `while(start < *end && !eof) { iter }` with at most `fuel` iterations. -/
def run_loop {σ : Type} (eof : σ → Bool) (iter : σ → σ × List Nat) :
    Nat → Nat → σ → List Nat → σ × List Nat
  | 0, _, s, out => (s, out)
  | fuel + 1, cap, s, out =>
    if 0 < cap ∧ eof s = false then
      run_loop eof iter fuel (cap - (iter s).2.length) (iter s).1 (out ++ (iter s).2)
    else (s, out)

/-- The bytes the iterations write when the buffer never fills, at most `fuel` iterations. -/
def run_out {σ : Type} (eof : σ → Bool) (iter : σ → σ × List Nat) : Nat → σ → List Nat
  | 0, _ => []
  | fuel + 1, s => if eof s then [] else (iter s).2 ++ run_out eof iter fuel (iter s).1

/-- A call `parse(start, end)` made of `run_loop` with `size s + 1` iterations. -/
def run_parse {σ : Type} (eof : σ → Bool) (iter : σ → σ × List Nat) (size : σ → Nat)
    (s : σ) (cap : Nat) : parse_result σ :=
  { parser := (run_loop eof iter (size s + 1) cap s []).1
    out := (run_loop eof iter (size s + 1) cap s []).2
    more := !eof (run_loop eof iter (size s + 1) cap s []).1 }

/-- What makes `size s + 1` iterations enough: an iteration writes at most one byte, and either
shortens the input or meets its end without writing. -/
structure loop_ok {σ : Type} (eof : σ → Bool) (iter : σ → σ × List Nat) (size : σ → Nat) :
    Prop where
  len : ∀ s, (iter s).2.length ≤ 1
  dec : ∀ s, eof s = false →
    ((iter s).2 = [] ∧ eof (iter s).1 = true ∧ size (iter s).1 ≤ size s) ∨
      size (iter s).1 < size s

/-- The end-of-input test `base() == EOF` of the FASTA parser. -/
def fasta_eof (p : file_parser_state) : Bool := decide (p.base = EOF)

/-- The end-of-input test `base() == EOF` of the FASTQ parser. -/
def fastq_eof (s : fastq_sequence_parser_state) : Bool := decide (s.fp.base = EOF)

/-- The number of input bytes the FASTQ parser has not read yet. -/
def fastq_size (s : fastq_sequence_parser_state) : Nat := s.fp.data.length

/-- The number of input bytes the FASTA parser has not read yet. -/
def fasta_size (p : file_parser_state) : Nat := p.data.length

/-- The bytes the FASTA parser writes from the state `p` on when the buffer never fills. -/
def fasta_out (p : file_parser_state) : List Nat :=
  run_out fasta_eof fasta_iter (fasta_size p + 1) p

/-- The bytes the FASTQ parser writes from the state `s` on when the buffer never fills. -/
def fastq_out (s : fastq_sequence_parser_state) : List Nat :=
  run_out fastq_eof fastq_iter (fastq_size s + 1) s

/-- Where the FASTA parser stands in a line: at its start, further in, or inside a header. -/
inductive fasta_mode where
  | line_start
  | mid_line
  | in_header

/-- The FASTA parser as an automaton that reads one byte at a time. -/
def fasta_auto : fasta_mode → List Nat → List Nat
  | _, [] => []
  | fasta_mode.line_start, b :: rest =>
    if b = 10 then fasta_auto fasta_mode.line_start rest
    else if b = 62 then 78 :: fasta_auto fasta_mode.in_header rest
    else b :: fasta_auto fasta_mode.mid_line rest
  | fasta_mode.mid_line, b :: rest =>
    if b = 10 then fasta_auto fasta_mode.line_start rest
    else b :: fasta_auto fasta_mode.mid_line rest
  | fasta_mode.in_header, b :: rest =>
    if b = 10 then fasta_auto fasta_mode.line_start rest
    else fasta_auto fasta_mode.in_header rest

/-- What the reference does to one line. -/
def fasta_line (line : List Nat) : List Nat :=
  if line.head? = some 62 then [78] else line

/-! ## `RectangularBinaryMatrix` -/

/-- Modelled from the spec: the two kinds of error of the matrix operations, `OutOfRange` and
`DomainError` (`std::out_of_range` and `std::domain_error` in the unit tests). -/
inductive matrix_error where
  | out_of_range
  | domain_error
deriving DecidableEq

/-- Modelled from the spec: `rectangular_binary_matrix.hpp` is not among the sources, only its
unit tests are. An `r × c` matrix over GF(2) in column-major storage: column `i` is the 64-bit
word `columns[i]`, whose low `r` bits are the column vector. -/
structure RectangularBinaryMatrix where
  r : Nat
  c : Nat
  columns : List Nat
deriving DecidableEq

/-- Modelled from the spec: the constructor `RectangularBinaryMatrix(r, c)` (not among the
sources): "zero matrix. Fails with `OutOfRange` if r=0, c=0, r>64, or c<r". -/
def RectangularBinaryMatrix.new (r c : Nat) : Except matrix_error RectangularBinaryMatrix :=
  if r = 0 ∨ c = 0 ∨ r > 64 ∨ c < r then .error matrix_error.out_of_range
  else .ok { r := r, c := c, columns := List.replicate c 0 }

/-- Modelled from the spec: `operator[]` (not among the sources), the word of column `i`. -/
def RectangularBinaryMatrix.get (m : RectangularBinaryMatrix) (i : Nat) : Nat :=
  m.columns.getD i 0

/-- Modelled from the spec: `is_zero()` (not among the sources): every column is zero. -/
def RectangularBinaryMatrix.is_zero (m : RectangularBinaryMatrix) : Bool :=
  m.columns.all fun w => decide (w = 0)

/-- The invariants of the data model: `1 ≤ r ≤ 64`, `r ≤ c`, `c` columns, and the bits above
`r` of each column word are zero. -/
def RectangularBinaryMatrix.valid (m : RectangularBinaryMatrix) : Prop :=
  1 ≤ m.r ∧ m.r ≤ 64 ∧ m.r ≤ m.c ∧ m.columns.length = m.c ∧ ∀ w ∈ m.columns, w < 2 ^ m.r

/-- Modelled from the spec: `init_low_identity()` (not among the sources): "column c−1−i gets
bit i set, for i<r; other columns zero". -/
def RectangularBinaryMatrix.init_low_identity (m : RectangularBinaryMatrix) :
    RectangularBinaryMatrix :=
  { m with
    columns := (List.range m.r).foldl (fun cols i => cols.set (m.c - 1 - i) (1 <<< i))
      (List.replicate m.c 0) }

/-- Modelled from the spec: `is_low_identity()` (not among the sources), the "exact structural
check" of the low identity form: "the last r columns equal to the r×r identity (rightmost
column = bit 0, shifted one bit left per column leftward) and the preceding c−r columns
zero". -/
def RectangularBinaryMatrix.is_low_identity (m : RectangularBinaryMatrix) : Bool :=
  (List.range m.c).all fun j =>
    decide (m.get j = if m.c - 1 - j < m.r then 1 <<< (m.c - 1 - j) else 0)

/-- Bit `j` of a vector given as 64-bit words: bit `j % 64` of word `j / 64`, the low bit of a
word first. -/
def vector_bit (v : List Nat) (j : Nat) : Bool :=
  (v.getD (j / 64) 0).testBit (j % 64)

/-- Modelled from the spec: `times_loop(v)` (not among the sources), the reference
matrix-vector product: the XOR of the columns selected by the bits of `v` that are set. The
unit test `EveryOtherOnes` fixes which column goes with which bit: bit `j` selects column
`c - 1 - j`, so that bit 0 goes with the rightmost column. -/
def RectangularBinaryMatrix.times_loop (m : RectangularBinaryMatrix) (v : List Nat) : Nat :=
  (List.range m.c).foldl
    (fun res j => if vector_bit v j then res ^^^ m.get (m.c - 1 - j) else res) 0

/-- The XOR of a list of words. -/
def xor_list (l : List Nat) : Nat :=
  l.foldl (fun a b => a ^^^ b) 0

/-- The product of a block of columns with a bit vector: the XOR of the columns `cols[j]` over
the bits `j` set in `x`. -/
def apply_cols : List Nat → Nat → Nat
  | [], _ => 0
  | w :: rest, x => (if x.testBit 0 then w else 0) ^^^ apply_cols rest (x / 2)

/-- The `r` "right" columns of the matrix, the rightmost first: entry `j` is column
`c - 1 - j`, the column that goes with bit `j` of a vector. -/
def RectangularBinaryMatrix.right_block (m : RectangularBinaryMatrix) : List Nat :=
  (m.columns.drop (m.c - m.r)).reverse

/-- The `c - r` "left" columns of the matrix. -/
def RectangularBinaryMatrix.left_block (m : RectangularBinaryMatrix) : List Nat :=
  m.columns.take (m.c - m.r)

/-- Modelled from the spec: `pseudo_multiplication(B)` (not among the sources): "defined only
when dimensions match. Interpreted as block-matrix multiplication treating each operand as
`[A_left | A_right]` where A_right is r×r. Fails `DomainError` on dimension mismatch": the
product is `[A_left + A_right B_left | A_right B_right]`, the lower rows of the product of the
two matrices completed to squares by the identity. -/
def RectangularBinaryMatrix.pseudo_multiplication (a b : RectangularBinaryMatrix) :
    Except matrix_error RectangularBinaryMatrix :=
  if a.r ≠ b.r ∨ a.c ≠ b.c then .error matrix_error.domain_error
  else .ok
    { r := a.r
      c := a.c
      columns :=
        List.zipWith (fun x y => x ^^^ apply_cols a.right_block y) a.left_block b.left_block ++
          (b.columns.drop (b.c - b.r)).map (apply_cols a.right_block) }

/-- The number of vectors that a block of columns spans over GF(2). -/
def span_card (cols : List Nat) : Nat :=
  ((Finset.range (2 ^ cols.length)).image (apply_cols cols)).card

/-- Modelled from the spec: `pseudo_rank()` (not among the sources): the rank over GF(2) of the
matrix completed to a `c × c` square by the identity, "value in [0,c]": `c - r` for the identity
part plus the rank of the right block, which is the base-2 logarithm of the number of vectors
its columns span, the largest `k` with `2^k` at most that number. -/
def RectangularBinaryMatrix.pseudo_rank (m : RectangularBinaryMatrix) : Nat :=
  (m.c - m.r) +
    Nat.findGreatest (fun k => 2 ^ k ≤ span_card m.right_block) m.right_block.length

/-- A row operation on a column word: the row `p` is added to the rows of `mask`. -/
def row_op (p mask w : Nat) : Nat :=
  if w.testBit p then w ^^^ mask else w

/-- A sequence of row operations, applied to a column word. -/
def run_ops (ops : List (Nat × Nat)) (w : Nat) : Nat :=
  ops.foldl (fun w op => row_op op.1 op.2 w) w

/-- The word `c` with bit `k` cleared. -/
def clear_bit (k c : Nat) : Nat :=
  if c.testBit k then c ^^^ 2 ^ k else c

/-- The first row `i` with `k ≤ i < r` in which the column `c` has a one. -/
def pivot (r k c : Nat) : Option Nat :=
  (List.range' k (r - k)).find? fun i => c.testBit i

/-- The row operations of stage `k` of the elimination, for the pivot row `i` of the column `c`:
row `i` is added to row `k` when `i ≠ k`, then row `k` is added to every other row in which the
column has a one. -/
def stage_ops (k i c : Nat) : List (Nat × Nat) :=
  (if i = k then [] else [(i, 2 ^ k)]) ++ [(k, clear_bit k c)]

/-- Gauss-Jordan elimination by rows on the block `R`: stage `k` brings column `k` to the unit
vector `2^k`. The result is the sequence of row operations, or `none` when a column has no
pivot. -/
def eliminate (R : List Nat) (r : Nat) : List Nat → List (Nat × Nat) → Option (List (Nat × Nat))
  | [], ops => some ops
  | k :: ks, ops =>
    match pivot r k (run_ops ops (R.getD k 0)) with
    | none => none
    | some i => eliminate R r ks (ops ++ stage_ops k i (run_ops ops (R.getD k 0)))

/-- The inverse of the `r × r` block `R`: the row operations of the elimination applied to the
identity; `none` when the block is singular. -/
def gauss_jordan (R : List Nat) (r : Nat) : Option (List Nat) :=
  (eliminate R r (List.range r) []).map fun ops => (List.range r).map fun j => run_ops ops (2 ^ j)

/-- Modelled from the spec: `pseudo_inverse()` (not among the sources): "returns B with
`B pseudomult A = low_identity`. Fails `DomainError` when `pseudo_rank < c`". The matrix `B` with
that property is `[A_right⁻¹ A_left | A_right⁻¹]`; the inverse of the right block is computed by
Gauss-Jordan elimination. -/
def RectangularBinaryMatrix.pseudo_inverse (m : RectangularBinaryMatrix) :
    Except matrix_error RectangularBinaryMatrix :=
  if m.pseudo_rank < m.c then .error matrix_error.domain_error
  else
    match gauss_jordan m.right_block m.r with
    | none => .error matrix_error.domain_error
    | some X =>
      .ok { r := m.r, c := m.c, columns := m.left_block.map (apply_cols X) ++ X.reverse }

/-- The row operations keep bit `p` out of their mask and stay within `r` bits. -/
def ops_ok (r : Nat) (ops : List (Nat × Nat)) : Prop :=
  ∀ op ∈ ops, op.2.testBit op.1 = false ∧ op.2 < 2 ^ r

/-! ## Theorems: the rolling loop of `parse_quake::thread::parse` -/

theorem masq_eq (k : Nat) (hk : k ≤ 31) :
    ((1 <<< (2 * k)) % 2 ^ 64 + 2 ^ 64 - 1) % 2 ^ 64 = 4 ^ k - 1 := by
  have h4 : (4 : Nat) ^ k = 2 ^ (2 * k) := by rw [pow_mul]; norm_num
  have hlt : (2 : Nat) ^ (2 * k) < 2 ^ 64 := Nat.pow_lt_pow_right (by norm_num) (by omega)
  have hpos : 0 < (2 : Nat) ^ (2 * k) := by positivity
  rw [Nat.shiftLeft_eq, one_mul, Nat.mod_eq_of_lt hlt, h4]
  omega

theorem kmer_update (k x c : Nat) (hk1 : 1 ≤ k) (hk : k ≤ 31) (hx : x < 4 ^ k) (hc : c < 4) :
    ((((x <<< 2) % 2 ^ 64) &&& (4 ^ k - 1)) ||| c) = c + 4 * (x % 4 ^ (k - 1)) := by
  have h4 : (4 : Nat) ^ k = 2 ^ (2 * k) := by rw [pow_mul]; norm_num
  have hle : (4 : Nat) ^ k ≤ 4 ^ 31 := Nat.pow_le_pow_right (by norm_num) hk
  have hx4 : x <<< 2 = 4 * x := by rw [Nat.shiftLeft_eq]; omega
  have hlt : 4 * x < 2 ^ 64 := by
    have h31 : (4 : Nat) ^ 31 = 4611686018427387904 := by norm_num
    have h64 : (2 : Nat) ^ 64 = 18446744073709551616 := by norm_num
    omega
  rw [hx4, Nat.mod_eq_of_lt hlt, h4, Nat.and_pow_two_sub_one_eq_mod, ← h4]
  have hk' : (4 : Nat) ^ k = 4 * 4 ^ (k - 1) := by
    rw [← pow_succ']; congr 1; omega
  rw [hk', Nat.mul_mod_mul_left]
  have := Nat.mul_add_lt_is_or (i := 2) (b := c) (by simpa using hc) (x % 4 ^ (k - 1))
  simp only [show (2:Nat)^2 = 4 by norm_num] at this
  rw [← this]; omega

theorem rkmer_update (k y c : Nat) (hk1 : 1 ≤ k) (hk : k ≤ 31) (hy : y < 4 ^ k) (hc : c < 4) :
    ((y >>> 2) ||| ((((3 + 2 ^ 64 - c) % 2 ^ 64) <<< (2 * (k - 1))) % 2 ^ 64))
      = (3 - c) * 4 ^ (k - 1) + y / 4 := by
  have h4 : (4 : Nat) ^ (k - 1) = 2 ^ (2 * (k - 1)) := by rw [pow_mul]; norm_num
  have hc3 : (3 + 2 ^ 64 - c) % 2 ^ 64 = 3 - c := by omega
  have hle : (4 : Nat) ^ (k - 1) ≤ 4 ^ 30 := Nat.pow_le_pow_right (by norm_num) (by omega)
  have hk' : (4 : Nat) ^ k = 4 * 4 ^ (k - 1) := by
    rw [← pow_succ']; congr 1; omega
  have hy4 : y / 4 < 2 ^ (2 * (k - 1)) := by rw [← h4]; omega
  rw [hc3, Nat.shiftLeft_eq, Nat.shiftRight_eq_div_pow, ← h4]
  have hlt : (3 - c) * 4 ^ (k - 1) < 2 ^ 64 := by
    have : (3 - c) * 4 ^ (k - 1) ≤ 3 * 4 ^ (k - 1) := Nat.mul_le_mul_right _ (by omega)
    have h30 : (4 : Nat) ^ 30 = 1152921504606846976 := by norm_num
    have h64 : (2 : Nat) ^ 64 = 18446744073709551616 := by norm_num
    omega
  rw [Nat.mod_eq_of_lt hlt, Nat.lor_comm]
  have := Nat.mul_add_lt_is_or hy4 (3 - c)
  rw [← h4] at this
  rw [show (2:Nat)^2 = 4 by norm_num, mul_comm, ← this]

theorem encode_append_singleton (l : List Nat) (x : Nat) : encode (l ++ [x]) = 4 * encode l + x := by
  simp [encode, List.foldl_append]

theorem encode_reverse (h : List Nat) : encode h.reverse = encLE h := by
  induction h with
  | nil => rfl
  | cons b t ih => rw [List.reverse_cons, encode_append_singleton, ih, encLE]; omega

theorem encode_eq_encLE (w : List Nat) : encode w = encLE w.reverse := by
  rw [← encode_reverse, List.reverse_reverse]

theorem encLE_append (l m : List Nat) : encLE (l ++ m) = encLE l + 4 ^ l.length * encLE m := by
  induction l with
  | nil => simp [encLE]
  | cons b t ih =>
    rw [List.cons_append, encLE, encLE, ih, List.length_cons, pow_succ]; ring

theorem encode_cons (d : Nat) (l : List Nat) : encode (d :: l) = d * 4 ^ l.length + encode l := by
  rw [encode_eq_encLE, List.reverse_cons, encLE_append, encode_eq_encLE]
  simp [encLE]; ring

theorem encLE_lt (l : List Nat) (hl : ∀ d ∈ l, d < 4) : encLE l < 4 ^ l.length := by
  induction l with
  | nil => simp [encLE]
  | cons b t ih =>
    have hb := hl b (List.mem_cons_self _ _)
    have := ih (fun d hd => hl d (List.mem_cons_of_mem _ hd))
    simp only [encLE, List.length_cons, pow_succ]
    omega

theorem encode_lt (l : List Nat) (hl : ∀ d ∈ l, d < 4) : encode l < 4 ^ l.length := by
  rw [encode_eq_encLE]
  have := encLE_lt l.reverse (fun d hd => hl d (List.mem_reverse.mp hd))
  simpa using this

theorem encLE_mod (l : List Nat) (hl : ∀ d ∈ l, d < 4) (m : Nat) :
    encLE l % 4 ^ m = encLE (l.take m) := by
  induction l generalizing m with
  | nil => simp [encLE]
  | cons b t ih =>
    have hb := hl b (List.mem_cons_self _ _)
    have ht := ih (fun d hd => hl d (List.mem_cons_of_mem _ hd))
    cases m with
    | zero => simp [encLE, Nat.mod_one]
    | succ n =>
      simp only [List.take_succ_cons, encLE, ← ht n, pow_succ]
      rw [Nat.mul_comm (4 ^ n) 4]
      have h1 : (b + 4 * encLE t) % (4 * 4 ^ n) = b + 4 * (encLE t % 4 ^ n) := by
        have hpos : 0 < 4 ^ n := by positivity
        have e1 : (b + 4 * encLE t) / 4 = encLE t := by omega
        have e2 : (b + 4 * encLE t) % 4 = b := by omega
        rw [Nat.mod_mul, e1, e2]
      exact h1

theorem padrc_length (k : Nat) (h : List Nat) : (padrc k h).length = k := by
  simp [padrc]

theorem padrc_lt (k : Nat) (h : List Nat) : ∀ d ∈ padrc k h, d < 4 := by
  intro d hd
  have := List.mem_of_mem_take hd
  rcases List.mem_append.mp this with h1 | h1
  · rcases List.mem_map.mp h1 with ⟨b, _, rfl⟩; omega
  · have := List.eq_of_mem_replicate h1; omega

theorem padrc_nil (k : Nat) : encode (padrc k []) = 0 := by
  have : ∀ n, encode (List.replicate n 0) = 0 := by
    intro n
    induction n with
    | zero => rfl
    | succ n ih => rw [List.replicate_succ, encode_cons, ih]; simp
  simp [padrc, this]

theorem padrc_cons (k c : Nat) (h : List Nat) (hk : 1 ≤ k) :
    encode (padrc k (c :: h)) = (3 - c) * 4 ^ (k - 1) + encode (padrc k h) / 4 := by
  obtain ⟨n, rfl⟩ : ∃ n, k = n + 1 := ⟨k - 1, by omega⟩
  set L := h.map (fun b => 3 - b) ++ List.replicate (n + 1) 0 with hL
  have hLlen : n < L.length := by simp [hL]; omega
  have h1 : padrc (n + 1) (c :: h) = (3 - c) :: L.take n := by
    simp [padrc, hL]
  have h2 : padrc (n + 1) h = L.take n ++ [L[n]] := by
    simp only [padrc, ← hL]
    rw [List.take_succ, List.getElem?_eq_getElem hLlen]; rfl
  have h3 : L[n] < 4 := by
    have := padrc_lt (n + 1) h
    rw [h2] at this
    exact this _ (List.mem_append_right _ (List.mem_singleton_self _))
  rw [h1, h2, encode_cons, encode_append_singleton]
  have : (L.take n).length = n := by simp; omega
  rw [this]
  simp only [Nat.add_sub_cancel]
  omega

theorem take_cons_take {α : Type} (k : Nat) (v : α) (l : List α) :
    (v :: l.take k).take k = (v :: l).take k := by
  cases k with
  | zero => rfl
  | succ n => simp [List.take_take]


theorem code_ne_reset {c : Nat} (hc : c < 4) : c ≠ CODE_RESET := by
  have h64 : (2 : Nat) ^ 64 = 18446744073709551616 := by norm_num
  unfold CODE_RESET
  omega

theorem thread.new_wf (M : Type) (k : Nat) (hk : k ≤ 31) (canonical : Bool) (qs : Nat) :
    thread.wf k (thread.new M k canonical qs) :=
  ⟨rfl, rfl, masq_eq k hk, rfl, Nat.zero_le _⟩

theorem thread.inv_clear {M : Type} (k : Nat) (t0 t : thread M) (h : List Nat) (a : List M)
    (hinv : thread.inv k t0 t h a) : thread.inv k t0 t.clear [] a where
  wf := ⟨hinv.wf.mer_len, hinv.wf.lshift, hinv.wf.masq, hinv.wf.qsize, hinv.wf.qlen⟩
  canonical := hinv.canonical
  quality_start := hinv.quality_start
  bases := by simp
  cmlen := by simp [thread.clear]
  kmer := by simp [thread.clear, encLE]
  rkmer := by simp [thread.clear, padrc_nil]
  qvals := hinv.qvals

theorem thread.step_reset {M : Type} [CommMonoid M] (codes : Nat → Nat) (omp : Nat → M)
    (t : thread M) (out : List (Nat × M)) (b q : Nat) (hc : codes b = CODE_RESET) :
    thread.step codes omp (t, out) (b, q) = (t.clear, out) := by
  simp [thread.step, hc]

theorem thread.step_base {M : Type} [CommMonoid M] (codes : Nat → Nat) (omp : Nat → M)
    (k : Nat) (hk1 : 1 ≤ k) (hk : k ≤ 31) (t0 t : thread M) (h : List Nat) (a : List M)
    (hinv : thread.inv k t0 t h a) (out : List (Nat × M)) (b q : Nat) (hc : codes b < 4) :
    thread.inv k t0 (thread.step codes omp (t, out) (b, q)).1 (codes b :: h)
        (omp (qual_index q t0.quality_start) :: a) ∧
      (thread.step codes omp (t, out) (b, q)).2 =
        out ++ (if k ≤ h.length + 1 then
          [(if t0.canonical then
              (if encLE ((codes b :: h).take k) < encode (padrc k (codes b :: h)) then
                encLE ((codes b :: h).take k) else encode (padrc k (codes b :: h)))
            else encLE ((codes b :: h).take k),
            ((omp (qual_index q t0.quality_start) :: a).take k).prod)]
          else []) := by
  obtain ⟨n, rfl⟩ : ∃ n, k = n + 1 := ⟨k - 1, by omega⟩
  have hne := code_ne_reset hc
  have hbases : ∀ d ∈ h.take (n + 1), d < 4 := fun d hd => hinv.bases d (List.mem_of_mem_take hd)
  have hxlt : encLE (h.take (n + 1)) < 4 ^ (n + 1) := by
    have h1 := encLE_lt _ hbases
    have h2 : (4 : Nat) ^ (h.take (n + 1)).length ≤ 4 ^ (n + 1) :=
      Nat.pow_le_pow_right (by norm_num) (by simp)
    omega
  have hK : ((((t.kmer <<< 2) % 2 ^ 64) &&& t.masq) ||| codes b)
      = encLE ((codes b :: h).take (n + 1)) := by
    rw [hinv.wf.masq, hinv.kmer, kmer_update (n + 1) _ _ hk1 hk hxlt hc, encLE_mod _ hbases]
    simp [encLE, List.take_take]
  have hylt : encode (padrc (n + 1) h) < 4 ^ (n + 1) := by
    have := encode_lt _ (padrc_lt (n + 1) h)
    rwa [padrc_length] at this
  have hR : ((t.rkmer >>> 2) ||| ((((3 + 2 ^ 64 - codes b) % 2 ^ 64) <<< t.lshift) % 2 ^ 64))
      = encode (padrc (n + 1) (codes b :: h)) := by
    rw [hinv.wf.lshift, hinv.rkmer, rkmer_update (n + 1) _ _ hk1 hk hylt hc,
      padrc_cons (n + 1) _ _ hk1]
  have hQ : (t.quals.append (omp (qual_index q t.quality_start))).vals
      = (omp (qual_index q t0.quality_start) :: a).take (n + 1) := by
    simp only [circular_buffer.append, hinv.wf.qsize, hinv.qvals, hinv.quality_start]
    exact take_cons_take _ _ _
  have hcm : (t.cmlen + 1 ≥ t.mer_len) ↔ n + 1 ≤ h.length + 1 := by
    rw [hinv.cmlen, hinv.wf.mer_len]; omega
  by_cases hfull : n + 1 ≤ h.length + 1
  · have hge : t.cmlen + 1 ≥ t.mer_len := hcm.mpr hfull
    constructor
    · cases hcan : t.canonical <;>
      · simp only [thread.step, if_neg hne, if_pos hge, hcan, if_true, Bool.false_eq_true,
          if_false]
        exact
          { wf := ⟨hinv.wf.mer_len, hinv.wf.lshift, hinv.wf.masq, by
              simpa [circular_buffer.append] using hinv.wf.qsize, by rw [hQ]; simp⟩
            canonical := by rw [← hinv.canonical, hcan]
            quality_start := hinv.quality_start
            bases := by
              intro d hd
              rcases List.mem_cons.mp hd with rfl | hd
              · exact hc
              · exact hinv.bases d hd
            cmlen := by simp [hinv.wf.mer_len]; omega
            kmer := hK
            rkmer := hR
            qvals := hQ }
    · rw [if_pos hfull, ← hinv.canonical]
      cases hcan : t.canonical <;>
        simp only [thread.step, if_neg hne, if_pos hge, hcan, hK, hR, circular_buffer.prod, hQ,
          if_true, Bool.false_eq_true, if_false]
  · have hge : ¬ (t.cmlen + 1 ≥ t.mer_len) := fun hh => hfull (hcm.mp hh)
    constructor
    · simp only [thread.step, if_neg hne, if_neg hge]
      exact
        { wf := ⟨hinv.wf.mer_len, hinv.wf.lshift, hinv.wf.masq, by
            simpa [circular_buffer.append] using hinv.wf.qsize, by rw [hQ]; simp⟩
          canonical := hinv.canonical
          quality_start := hinv.quality_start
          bases := by
            intro d hd
            rcases List.mem_cons.mp hd with rfl | hd
            · exact hc
            · exact hinv.bases d hd
          cmlen := by simp [hinv.cmlen]; omega
          kmer := hK
          rkmer := hR
          qvals := hQ }
    · rw [if_neg hfull]
      simp [thread.step, hne, hge]

theorem takeWhile_length_iff {α : Type} (f : α → Nat) (r : List α) (k : Nat) :
    k ≤ ((r.map f).takeWhile (fun c => decide (c < 4))).length ↔
      (k ≤ r.length ∧ ∀ y ∈ r.take k, f y < 4) := by
  induction r generalizing k with
  | nil => simp
  | cons x r ih =>
    cases k with
    | zero => simp
    | succ n =>
      by_cases hx : f x < 4
      · simp [List.takeWhile_cons, hx, ih n]
      · simp [List.takeWhile_cons, hx]

theorem take_takeWhile_map {α : Type} (f : α → Nat) (r : List α) (k : Nat)
    (hall : ∀ y ∈ r.take k, f y < 4) :
    ((r.map f).takeWhile (fun c => decide (c < 4))).take k = (r.take k).map f := by
  induction r generalizing k with
  | nil => simp
  | cons x r ih =>
    cases k with
    | zero => simp
    | succ n =>
      have hx : f x < 4 := hall x (by simp)
      have := ih n (fun y hy => hall y (by simp [hy]))
      simp [List.takeWhile_cons, hx, this]

theorem take_filter_map {α β : Type} (f : α → Nat) (g : α → β) (v : List β) (r : List α)
    (k : Nat) (hall : ∀ y ∈ r.take k, f y < 4) (hlen : k ≤ r.length) :
    ((r.filter fun p => decide (f p < 4)).map g ++ v).take k = (r.take k).map g := by
  induction r generalizing k with
  | nil =>
    have : k = 0 := by simpa using hlen
    subst this; simp
  | cons x r ih =>
    cases k with
    | zero => simp
    | succ n =>
      have hx : f x < 4 := hall x (by simp)
      have := ih n (fun y hy => hall y (by simp [hy])) (by simpa using hlen)
      simp [List.filter_cons, hx, this]

theorem window_at_of_lt {α : Type} (k : Nat) (l : List α) (x : α) (i : Nat) (hi : i < l.length) :
    window_at k (l ++ [x]) i = window_at k l i := by
  unfold window_at
  rw [List.take_append_of_le_length (by omega)]

theorem window_at_last {α : Type} (k : Nat) (l : List α) :
    window_at k l (l.length - 1) = ((l.reverse).take k).reverse := by
  unfold window_at
  rw [List.take_reverse, List.reverse_reverse]
  cases l with
  | nil => simp
  | cons a t =>
    simp only [List.length_cons, Nat.add_sub_cancel]
    rw [List.take_of_length_le (by simp)]

theorem hist_snoc (codes : Nat → Nat) (buf : List (Nat × Nat)) (x : Nat × Nat) :
    hist codes (buf ++ [x]) = if codes x.1 < 4 then codes x.1 :: hist codes buf else [] := by
  simp [hist, List.takeWhile_cons]

theorem apps_snoc {M : Type} (codes : Nat → Nat) (omp : Nat → M) (qs : Nat)
    (buf : List (Nat × Nat)) (x : Nat × Nat) :
    apps codes omp qs (buf ++ [x]) =
      if codes x.1 < 4 then omp (qual_index x.2 qs) :: apps codes omp qs buf
      else apps codes omp qs buf := by
  by_cases hx : codes x.1 < 4 <;> simp [apps, List.filter_cons, hx]

theorem ref_adds_snoc {M : Type} [CommMonoid M] (k : Nat) (can : Bool) (codes : Nat → Nat)
    (omp : Nat → M) (qs : Nat) (buf : List (Nat × Nat)) (x : Nat × Nat) :
    ref_adds k can codes omp qs (buf ++ [x]) =
      ref_adds k can codes omp qs buf ++
        (if k ≤ buf.length + 1 ∧ ∀ p ∈ window_at k (buf ++ [x]) buf.length, codes p.1 < 4 then
          [(ref_key can ((window_at k (buf ++ [x]) buf.length).map fun p => codes p.1),
            ((window_at k (buf ++ [x]) buf.length).map
              fun p => omp (qual_index p.2 qs)).prod)]
        else []) := by
  unfold ref_adds
  rw [List.length_append, List.length_singleton, List.range_succ, List.filterMap_append]
  congr 1
  · apply List.filterMap_congr
    intro i hi
    rw [window_at_of_lt k buf x i (List.mem_range.mp hi)]
  · simp only [List.filterMap_cons, List.filterMap_nil]
    split_ifs <;> rfl

theorem window_at_snoc {α : Type} (k : Nat) (buf : List α) (x : α) :
    window_at k (buf ++ [x]) buf.length = ((x :: buf.reverse).take k).reverse := by
  have := window_at_last k (buf ++ [x])
  simpa using this

theorem last_cond_iff (codes : Nat → Nat) (k : Nat) (buf : List (Nat × Nat)) (x : Nat × Nat) :
    (k ≤ buf.length + 1 ∧ ∀ p ∈ window_at k (buf ++ [x]) buf.length, codes p.1 < 4) ↔
      k ≤ (hist codes (buf ++ [x])).length := by
  rw [window_at_snoc, hist, takeWhile_length_iff (fun p : Nat × Nat => codes p.1)]
  simp

theorem last_add_eq {M : Type} [CommMonoid M] (codes : Nat → Nat) (omp : Nat → M) (k : Nat)
    (can : Bool) (qs : Nat) (v0 : List M) (buf : List (Nat × Nat)) (x : Nat × Nat)
    (hx : codes x.1 < 4) :
    (if k ≤ (hist codes buf).length + 1 then
      [(if can then
          (if encLE ((codes x.1 :: hist codes buf).take k)
              < encode (padrc k (codes x.1 :: hist codes buf)) then
            encLE ((codes x.1 :: hist codes buf).take k)
            else encode (padrc k (codes x.1 :: hist codes buf)))
        else encLE ((codes x.1 :: hist codes buf).take k),
        ((omp (qual_index x.2 qs) :: (apps codes omp qs buf ++ v0)).take k).prod)]
      else []) =
    (if k ≤ buf.length + 1 ∧ ∀ p ∈ window_at k (buf ++ [x]) buf.length, codes p.1 < 4 then
      [(ref_key can ((window_at k (buf ++ [x]) buf.length).map fun p => codes p.1),
        ((window_at k (buf ++ [x]) buf.length).map fun p => omp (qual_index p.2 qs)).prod)]
      else []) := by
  have hh : hist codes (buf ++ [x]) = codes x.1 :: hist codes buf := by
    rw [hist_snoc, if_pos hx]
  have ha : apps codes omp qs (buf ++ [x]) = omp (qual_index x.2 qs) :: apps codes omp qs buf := by
    rw [apps_snoc, if_pos hx]
  have hiff := last_cond_iff codes k buf x
  rw [hh] at hiff
  by_cases hfull : k ≤ (hist codes buf).length + 1
  · have hcond := hiff.mpr (by simpa using hfull)
    rw [if_pos hfull, if_pos hcond]
    have hall : ∀ y ∈ (x :: buf.reverse).take k, codes y.1 < 4 := by
      intro y hy
      apply hcond.2
      rw [window_at_snoc]
      exact List.mem_reverse.mpr hy
    have hlen : k ≤ (x :: buf.reverse).length := by simpa using hcond.1
    have hT : (codes x.1 :: hist codes buf).take k
        = ((x :: buf.reverse).take k).map fun p => codes p.1 := by
      rw [← hh, hist]
      have := take_takeWhile_map (fun p : Nat × Nat => codes p.1) (x :: buf.reverse) k hall
      simpa using this
    have hK : encLE ((codes x.1 :: hist codes buf).take k)
        = encode ((window_at k (buf ++ [x]) buf.length).map fun p => codes p.1) := by
      rw [hT, window_at_snoc, List.map_reverse, encode_reverse]
    have hR : encode (padrc k (codes x.1 :: hist codes buf))
        = encode (rev_comp ((window_at k (buf ++ [x]) buf.length).map fun p => codes p.1)) := by
      congr 1
      unfold padrc rev_comp
      rw [List.take_append_of_le_length (by simpa using hfull), ← List.map_take, hT,
        window_at_snoc, List.map_reverse, List.map_reverse, List.reverse_reverse]
    have hW : ((omp (qual_index x.2 qs) :: (apps codes omp qs buf ++ v0)).take k).prod
        = ((window_at k (buf ++ [x]) buf.length).map fun p => omp (qual_index p.2 qs)).prod := by
      rw [← List.cons_append, ← ha, apps]
      have := take_filter_map (fun p : Nat × Nat => codes p.1)
        (fun p : Nat × Nat => omp (qual_index p.2 qs)) v0 (x :: buf.reverse) k hall hlen
      rw [List.reverse_append, List.reverse_singleton, List.singleton_append, this,
        window_at_snoc, List.map_reverse]
      exact (List.reverse_perm _).prod_eq.symm
    rw [hK, hR, hW]
    cases can <;> simp [ref_key]
  · have hcond : ¬ (k ≤ buf.length + 1 ∧
        ∀ p ∈ window_at k (buf ++ [x]) buf.length, codes p.1 < 4) := by
      intro hc
      exact hfull (by simpa using hiff.mp hc)
    rw [if_neg hfull, if_neg hcond]

/-- The inner loop of `parse` over one buffer, started from a cleared thread: the state it ends
in and the calls it makes. -/
theorem thread.loop_spec {M : Type} [CommMonoid M] (codes : Nat → Nat) (omp : Nat → M)
    (k : Nat) (hk1 : 1 ≤ k) (hk : k ≤ 31) (t0 : thread M) (hwf : thread.wf k t0)
    (out0 : List (Nat × M)) (buf : List (Nat × Nat))
    (hcodes : ∀ p ∈ buf, codes p.1 < 4 ∨ codes p.1 = CODE_RESET) :
    thread.inv k t0 (buf.foldl (thread.step codes omp) (t0.clear, out0)).1 (hist codes buf)
        (apps codes omp t0.quality_start buf ++ t0.quals.vals) ∧
      (buf.foldl (thread.step codes omp) (t0.clear, out0)).2 =
        out0 ++ ref_adds k t0.canonical codes omp t0.quality_start buf := by
  induction buf using List.reverseRecOn with
  | nil =>
    refine ⟨?_, by simp [ref_adds]⟩
    exact
      { wf := ⟨hwf.mer_len, hwf.lshift, hwf.masq, hwf.qsize, hwf.qlen⟩
        canonical := rfl
        quality_start := rfl
        bases := by simp [hist]
        cmlen := by simp [thread.clear, hist]
        kmer := by simp [thread.clear, hist, encLE]
        rkmer := by simp [thread.clear, hist, padrc_nil]
        qvals := by
          simp only [List.foldl_nil, thread.clear, apps, List.reverse_nil, List.filter_nil,
            List.map_nil, List.nil_append]
          exact (List.take_of_length_le hwf.qlen).symm }
  | append_singleton buf x ih =>
    have ih' := ih (fun p hp => hcodes p (List.mem_append_left _ hp))
    obtain ⟨hinv, hout⟩ := ih'
    rw [List.foldl_append, List.foldl_cons, List.foldl_nil]
    set s := buf.foldl (thread.step codes omp) (t0.clear, out0) with hs
    have hsplit : s = (s.1, s.2) := rfl
    rcases hcodes x (by simp) with hx | hx
    · have hstep := thread.step_base codes omp k hk1 hk t0 s.1 _ _ hinv s.2 x.1 x.2 hx
      rw [hsplit]
      refine ⟨?_, ?_⟩
      · rw [hist_snoc, if_pos hx, apps_snoc, if_pos hx]
        exact hstep.1
      · rw [hstep.2, hout, ref_adds_snoc, ← List.append_assoc,
          ← last_add_eq codes omp k t0.canonical t0.quality_start t0.quals.vals buf x hx]
    · have hnb : ¬ codes x.1 < 4 := fun h => code_ne_reset h hx
      rw [hsplit, thread.step_reset codes omp s.1 s.2 x.1 x.2 hx]
      refine ⟨?_, ?_⟩
      · rw [hist_snoc, if_neg hnb, apps_snoc, if_neg hnb]
        exact thread.inv_clear k t0 s.1 _ _ hinv
      · have hcond : ¬ (k ≤ buf.length + 1 ∧
            ∀ p ∈ window_at k (buf ++ [x]) buf.length, codes p.1 < 4) := by
          intro hc
          apply hnb
          apply hc.2
          rw [window_at_snoc]
          obtain ⟨n, rfl⟩ : ∃ n, k = n + 1 := ⟨k - 1, by omega⟩
          simp
        simp only [hout]
        rw [ref_adds_snoc, if_neg hcond, List.append_nil]

theorem cons_lt_cons_iff_nat (x y : Nat) (a b : List Nat) :
    x :: a < y :: b ↔ x < y ∨ (x = y ∧ a < b) := by
  constructor
  · intro h
    cases h with
    | rel hxy => exact Or.inl hxy
    | cons h3 => exact Or.inr ⟨rfl, h3⟩
  · rintro (h | ⟨rfl, h⟩)
    · exact List.Lex.rel h
    · exact List.Lex.cons h

theorem encode_lt_iff (a b : List Nat) (hlen : a.length = b.length) (ha : ∀ d ∈ a, d < 4)
    (hb : ∀ d ∈ b, d < 4) : encode a < encode b ↔ a < b := by
  induction a generalizing b with
  | nil =>
    cases b with
    | nil =>
      constructor
      · intro h; exact absurd h (Nat.lt_irrefl _)
      · intro h; cases h
    | cons y b => simp at hlen
  | cons x a ih =>
    cases b with
    | nil => simp at hlen
    | cons y b =>
      have hl : a.length = b.length := by simpa using hlen
      have ha' : ∀ d ∈ a, d < 4 := fun d hd => ha d (List.mem_cons_of_mem _ hd)
      have hb' : ∀ d ∈ b, d < 4 := fun d hd => hb d (List.mem_cons_of_mem _ hd)
      have h1 := encode_lt a ha'
      have h2 := encode_lt b hb'
      rw [cons_lt_cons_iff_nat, ← ih b hl ha' hb', encode_cons, encode_cons, hl]
      rw [hl] at h1
      generalize (4 : Nat) ^ b.length = P at h1 h2
      constructor
      · intro h
        rcases Nat.lt_trichotomy x y with hxy | hxy | hxy
        · exact Or.inl hxy
        · subst hxy; exact Or.inr ⟨rfl, by omega⟩
        · exfalso
          have : (y + 1) * P ≤ x * P := Nat.mul_le_mul_right P hxy
          rw [Nat.add_mul, one_mul] at this
          omega
      · rintro (h | ⟨rfl, h⟩)
        · have : (x + 1) * P ≤ y * P := Nat.mul_le_mul_right P h
          rw [Nat.add_mul, one_mul] at this
          omega
        · omega

theorem rev_comp_length (w : List Nat) : (rev_comp w).length = w.length := by
  simp [rev_comp]

theorem rev_comp_lt (w : List Nat) : ∀ d ∈ rev_comp w, d < 4 := by
  intro d hd
  simp only [rev_comp, List.mem_reverse, List.mem_map] at hd
  obtain ⟨b, _, rfl⟩ := hd
  omega

/-- The smaller of the two integers is the encoding of the lexicographically smaller window. -/
theorem ref_key_canonical (w : List Nat) (hw : ∀ d ∈ w, d < 4) :
    ref_key true w = encode (canonical_window w) := by
  have h1 := encode_lt_iff (rev_comp w) w (rev_comp_length w) (rev_comp_lt w) hw
  simp only [ref_key, if_true, canonical_window]
  by_cases h : encode w < encode (rev_comp w)
  · rw [if_pos h]
    have : ¬ rev_comp w < w := fun hh => by have := h1.mpr hh; omega
    rw [if_neg this]
  · rw [if_neg h]
    by_cases h' : rev_comp w < w
    · rw [if_pos h']
    · rw [if_neg h']
      have : ¬ encode (rev_comp w) < encode w := fun hh => h' (h1.mp hh)
      omega

theorem window_at_map {α β : Type} (f : α → β) (k : Nat) (l : List α) (i : Nat) :
    window_at k (l.map f) i = (window_at k l i).map f := by
  simp [window_at]

theorem ref_adds_keys {M : Type} [CommMonoid M] (k : Nat) (codes : Nat → Nat) (omp : Nat → M)
    (qs : Nat) (buf : List (Nat × Nat)) :
    (ref_adds k false codes omp qs buf).map Prod.fst = ref_keys k (buf.map fun p => codes p.1) := by
  unfold ref_adds ref_keys
  rw [List.map_filterMap, List.length_map]
  apply List.filterMap_congr
  intro i _
  rw [window_at_map]
  by_cases h : k ≤ i + 1 ∧ ∀ p ∈ window_at k buf i, codes p.1 < 4
  · have h' : k ≤ i + 1 ∧ ∀ c ∈ (window_at k buf i).map (fun p => codes p.1), c < 4 :=
      ⟨h.1, List.forall_mem_map.mpr h.2⟩
    rw [if_pos h, if_pos h']
    simp [ref_key]
  · have h' : ¬ (k ≤ i + 1 ∧ ∀ c ∈ (window_at k buf i).map (fun p => codes p.1), c < 4) := by
      intro hh; exact h ⟨hh.1, List.forall_mem_map.mp hh.2⟩
    rw [if_neg h, if_neg h']
    rfl

theorem ref_adds_keys_canonical {M : Type} [CommMonoid M] (k : Nat) (codes : Nat → Nat)
    (omp : Nat → M) (qs : Nat) (buf : List (Nat × Nat)) :
    (ref_adds k true codes omp qs buf).map Prod.fst
      = ref_keys_canonical k (buf.map fun p => codes p.1) := by
  unfold ref_adds ref_keys_canonical
  rw [List.map_filterMap, List.length_map]
  apply List.filterMap_congr
  intro i _
  rw [window_at_map]
  by_cases h : k ≤ i + 1 ∧ ∀ p ∈ window_at k buf i, codes p.1 < 4
  · have h' : k ≤ i + 1 ∧ ∀ c ∈ (window_at k buf i).map (fun p => codes p.1), c < 4 :=
      ⟨h.1, List.forall_mem_map.mpr h.2⟩
    rw [if_pos h, if_pos h']
    simp only [Option.map_some']
    rw [ref_key_canonical _ h'.2]
  · have h' : ¬ (k ≤ i + 1 ∧ ∀ c ∈ (window_at k buf i).map (fun p => codes p.1), c < 4) := by
      intro hh; exact h ⟨hh.1, List.forall_mem_map.mp hh.2⟩
    rw [if_neg h, if_neg h']
    rfl

/-- The calls made by `parse` on a single buffer are those of the reference scanner. -/
theorem thread.parse_single {M : Type} [CommMonoid M] (codes : Nat → Nat) (omp : Nat → M)
    (k : Nat) (hk1 : 1 ≤ k) (hk : k ≤ 31) (t0 : thread M) (hwf : thread.wf k t0)
    (buf : List (Nat × Nat)) (hcodes : ∀ p ∈ buf, codes p.1 < 4 ∨ codes p.1 = CODE_RESET) :
    (thread.parse codes omp t0 [buf]).2 = ref_adds k t0.canonical codes omp t0.quality_start buf := by
  have := (thread.loop_spec codes omp k hk1 hk t0 hwf [] buf hcodes).2
  simpa [thread.parse, thread.parse_buffer] using this

/-- When the run of bases read since the last RESET has reached length `k`, `kmer` encodes the
last `k` codes read and `rkmer` their reverse complement. -/
theorem thread.full_window {M : Type} (codes : Nat → Nat) (k : Nat) (t0 t : thread M)
    (a : List M) (pre : List (Nat × Nat)) (hinv : thread.inv k t0 t (hist codes pre) a)
    (hfull : k ≤ t.cmlen) :
    (window_at k (pre.map fun p => codes p.1) (pre.length - 1)).length = k ∧
      (∀ d ∈ window_at k (pre.map fun p => codes p.1) (pre.length - 1), d < 4) ∧
      t.kmer = encode (window_at k (pre.map fun p => codes p.1) (pre.length - 1)) ∧
      t.rkmer = encode (rev_comp (window_at k (pre.map fun p => codes p.1) (pre.length - 1))) := by
  have hlen : k ≤ (hist codes pre).length := by
    have := hinv.cmlen
    omega
  have hw : window_at k (pre.map fun p => codes p.1) (pre.length - 1)
      = ((hist codes pre).take k).reverse := by
    have h1 := window_at_last k (pre.map fun p => codes p.1)
    rw [List.length_map] at h1
    rw [h1, ← List.map_reverse, ← List.map_take]
    have h2 := (takeWhile_length_iff (fun p : Nat × Nat => codes p.1) pre.reverse k).mp
      (by simpa [hist] using hlen)
    have h3 := take_takeWhile_map (fun p : Nat × Nat => codes p.1) pre.reverse k h2.2
    rw [hist, h3]
  rw [hw]
  refine ⟨by simpa using hlen, ?_, ?_, ?_⟩
  · intro d hd
    exact hinv.bases d (List.mem_of_mem_take (List.mem_reverse.mp hd))
  · rw [hinv.kmer, encode_reverse]
  · rw [hinv.rkmer]
    congr 1
    unfold padrc rev_comp
    rw [List.take_append_of_le_length (by simpa using hlen), List.map_reverse,
      List.reverse_reverse, List.map_take]

theorem qual_index_eq (q qs : Nat) (h1 : qs ≤ q) (h2 : q ≤ qs + 40) : qual_index q qs = q - qs := by
  unfold qual_index
  have h64 : ((2 : Int) ^ 64) = 18446744073709551616 := by norm_num
  rw [h64]
  omega

theorem mem_of_mem_window_at {α : Type} (k : Nat) (l : List α) (i : Nat) (x : α)
    (h : x ∈ window_at k l i) : x ∈ l :=
  List.mem_of_mem_take (List.mem_of_mem_drop h)

theorem ref_adds_weights {M : Type} [CommMonoid M] (k : Nat) (can : Bool) (codes : Nat → Nat)
    (omp : Nat → M) (qs : Nat) (buf : List (Nat × Nat))
    (hq : ∀ p ∈ buf, qs ≤ p.2 ∧ p.2 ≤ qs + 40) :
    (ref_adds k can codes omp qs buf).map Prod.snd
      = ref_weights k omp qs (buf.map fun p => (codes p.1, p.2)) := by
  unfold ref_adds ref_weights
  rw [List.map_filterMap, List.length_map]
  apply List.filterMap_congr
  intro i _
  rw [window_at_map]
  have hmap : ((window_at k buf i).map fun p => omp (qual_index p.2 qs))
      = (((window_at k buf i).map fun p => (codes p.1, p.2)).map fun p => omp (p.2 - qs)) := by
    rw [List.map_map]
    apply List.map_congr_left
    intro p hp
    have := hq p (mem_of_mem_window_at k buf i p hp)
    simp [qual_index_eq p.2 qs this.1 this.2]
  by_cases h : k ≤ i + 1 ∧ ∀ p ∈ window_at k buf i, codes p.1 < 4
  · have h' : k ≤ i + 1 ∧ ∀ p ∈ (window_at k buf i).map (fun p => (codes p.1, p.2)), p.1 < 4 :=
      ⟨h.1, List.forall_mem_map.mpr h.2⟩
    rw [if_pos h, if_pos h', hmap]
    rfl
  · have h' : ¬ (k ≤ i + 1 ∧
        ∀ p ∈ (window_at k buf i).map (fun p => (codes p.1, p.2)), p.1 < 4) := by
      intro hh; exact h ⟨hh.1, List.forall_mem_map.mp hh.2⟩
    rw [if_neg h, if_neg h']
    rfl

theorem range_filterMap_ge {β : Type} (n k : Nat) (hk : 1 ≤ k) (G : Nat → β) :
    (List.range n).filterMap (fun i => if k ≤ i + 1 then some (G i) else none)
      = (List.range (n + 1 - k)).map fun j => G (j + (k - 1)) := by
  induction n with
  | zero =>
    have : 0 + 1 - k = 0 := by omega
    simp [this]
  | succ n ih =>
    rw [List.range_succ, List.filterMap_append, ih]
    by_cases h : k ≤ n + 1
    · have e : n + 1 + 1 - k = (n + 1 - k) + 1 := by omega
      have e2 : n + 1 - k + (k - 1) = n := by omega
      rw [e, List.range_succ, List.map_append]
      simp [h, e2]
    · have e : n + 1 + 1 - k = n + 1 - k := by omega
      rw [e]
      simp [h]

theorem window_at_eq_take_drop {α : Type} (k : Nat) (hk : 1 ≤ k) (s : List α) (j : Nat) :
    window_at k s (j + (k - 1)) = (s.drop j).take k := by
  unfold window_at
  have e1 : j + (k - 1) + 1 = j + k := by omega
  have e2 : j + k - k = j := by omega
  rw [e1, e2, List.drop_take]
  congr 1
  omega

theorem ref_keys_canonical_windows (k : Nat) (hk : 1 ≤ k) (s : List Nat)
    (hs : ∀ c ∈ s, c < 4) :
    ref_keys_canonical k s = (windows k s).map fun w => encode (canonical_window w) := by
  have h1 := range_filterMap_ge s.length k hk
    (fun i => encode (canonical_window (window_at k s i)))
  have h2 : (List.range (s.length + 1 - k)).map
        (fun j => encode (canonical_window (window_at k s (j + (k - 1)))))
      = (windows k s).map fun w => encode (canonical_window w) := by
    unfold windows
    rw [List.map_map]
    apply List.map_congr_left
    intro j _
    simp only [Function.comp, window_at_eq_take_drop k hk s j]
  rw [← h2, ← h1]
  unfold ref_keys_canonical
  apply List.filterMap_congr
  intro i _
  have hall : ∀ c ∈ window_at k s i, c < 4 :=
    fun c hc => hs c (mem_of_mem_window_at k s i c hc)
  by_cases h : k ≤ i + 1
  · rw [if_pos ⟨h, hall⟩, if_pos h]
  · rw [if_neg (fun hh => h hh.1), if_neg h]

theorem rev_comp_rev_comp (w : List Nat) (hw : ∀ d ∈ w, d < 4) : rev_comp (rev_comp w) = w := by
  unfold rev_comp
  rw [List.map_reverse, List.reverse_reverse, List.map_map]
  conv_rhs => rw [← List.map_id w]
  apply List.map_congr_left
  intro d hd
  have := hw d hd
  simp only [Function.comp, id]
  omega

theorem canonical_rev_comp (w : List Nat) (hw : ∀ d ∈ w, d < 4) :
    encode (canonical_window (rev_comp w)) = encode (canonical_window w) := by
  rw [← ref_key_canonical _ hw, ← ref_key_canonical _ (rev_comp_lt w)]
  simp only [ref_key, if_true, rev_comp_rev_comp w hw]
  split_ifs <;> omega

theorem windows_length {α : Type} (k : Nat) (s : List α) :
    (windows k s).length = s.length + 1 - k := by
  simp [windows]

theorem mem_windows_lt (k : Nat) (s : List Nat) (hs : ∀ c ∈ s, c < 4) :
    ∀ w ∈ windows k s, ∀ d ∈ w, d < 4 := by
  intro w hw d hd
  simp only [windows, List.mem_map, List.mem_range] at hw
  obtain ⟨j, _, rfl⟩ := hw
  exact hs d (List.mem_of_mem_drop (List.mem_of_mem_take hd))

theorem windows_rev_comp (k : Nat) (hk : 1 ≤ k) (s : List Nat) :
    windows k (rev_comp s) = ((windows k s).map rev_comp).reverse := by
  apply List.ext_getElem
  · simp [windows_length, rev_comp_length]
  · intro j h1 h2
    have hj : j < s.length + 1 - k := by
      simpa [windows_length, rev_comp_length] using h1
    rw [List.getElem_reverse]
    simp only [windows, List.getElem_map, List.getElem_range, List.length_map, List.length_range,
      rev_comp_length]
    unfold rev_comp
    rw [List.drop_reverse, List.take_reverse, List.map_take, List.map_drop]
    congr 1
    simp only [List.length_take, List.length_map]
    have e1 : min (s.length - j) s.length = s.length - j := by omega
    rw [e1, List.drop_take]
    have e2 : s.length - j - (s.length - j - k) = k := by omega
    have e3 : s.length + 1 - k - 1 - j = s.length - j - k := by omega
    rw [e2, e3]

/-! ### Several buffers -/

theorem thread.step_key_eq {M : Type} [CommMonoid M] (codes : Nat → Nat) (omp : Nat → M)
    (t u : thread M) (out out' : List (Nat × M)) (bq : Nat × Nat) (h : thread.key_eq t u)
    (ho : out.map Prod.fst = out'.map Prod.fst) :
    thread.key_eq (thread.step codes omp (t, out) bq).1 (thread.step codes omp (u, out') bq).1 ∧
      (thread.step codes omp (t, out) bq).2.map Prod.fst =
        (thread.step codes omp (u, out') bq).2.map Prod.fst := by
  obtain ⟨h1, h2, h3, h4, h5, h6, h7⟩ := h
  simp only [thread.step, h1, h2, h3, h4, h5, h6, h7]
  split_ifs <;>
    simp [thread.key_eq, thread.clear, h1, h2, h3, h4, h5, h6, h7, ho]

theorem thread.foldl_key_eq {M : Type} [CommMonoid M] (codes : Nat → Nat) (omp : Nat → M)
    (buf : List (Nat × Nat)) (t u : thread M) (out out' : List (Nat × M))
    (h : thread.key_eq t u) (ho : out.map Prod.fst = out'.map Prod.fst) :
    thread.key_eq (buf.foldl (thread.step codes omp) (t, out)).1
        (buf.foldl (thread.step codes omp) (u, out')).1 ∧
      (buf.foldl (thread.step codes omp) (t, out)).2.map Prod.fst =
        (buf.foldl (thread.step codes omp) (u, out')).2.map Prod.fst := by
  induction buf generalizing t u out out' with
  | nil => exact ⟨h, ho⟩
  | cons bq rest ih =>
    have hs := thread.step_key_eq codes omp t u out out' bq h ho
    simp only [List.foldl_cons]
    exact ih _ _ _ _ hs.1 hs.2

/-- The fields fixed by the constructor are not changed by a step. -/
theorem thread.step_consts {M : Type} [CommMonoid M] (codes : Nat → Nat) (omp : Nat → M)
    (s : thread M × List (Nat × M)) (bq : Nat × Nat) :
    (thread.step codes omp s bq).1.mer_len = s.1.mer_len ∧
      (thread.step codes omp s bq).1.lshift = s.1.lshift ∧
      (thread.step codes omp s bq).1.masq = s.1.masq ∧
      (thread.step codes omp s bq).1.canonical = s.1.canonical := by
  simp only [thread.step]
  split_ifs <;> simp [thread.clear]

theorem thread.foldl_consts {M : Type} [CommMonoid M] (codes : Nat → Nat) (omp : Nat → M)
    (buf : List (Nat × Nat)) (s : thread M × List (Nat × M)) :
    (buf.foldl (thread.step codes omp) s).1.mer_len = s.1.mer_len ∧
      (buf.foldl (thread.step codes omp) s).1.lshift = s.1.lshift ∧
      (buf.foldl (thread.step codes omp) s).1.masq = s.1.masq ∧
      (buf.foldl (thread.step codes omp) s).1.canonical = s.1.canonical := by
  induction buf generalizing s with
  | nil => exact ⟨rfl, rfl, rfl, rfl⟩
  | cons bq rest ih =>
    obtain ⟨a1, a2, a3, a4⟩ := ih (thread.step codes omp s bq)
    obtain ⟨b1, b2, b3, b4⟩ := thread.step_consts codes omp s bq
    simp only [List.foldl_cons]
    exact ⟨a1.trans b1, a2.trans b2, a3.trans b3, a4.trans b4⟩

/-- After a buffer the thread is, for the keys, the thread it was before, cleared. -/
theorem thread.parse_buffer_key_eq {M : Type} [CommMonoid M] (codes : Nat → Nat) (omp : Nat → M)
    (s : thread M × List (Nat × M)) (buf : List (Nat × Nat)) :
    thread.key_eq (thread.parse_buffer codes omp s buf).1 s.1.clear := by
  obtain ⟨a1, a2, a3, a4⟩ := thread.foldl_consts codes omp buf s
  exact ⟨a1, a2, rfl, rfl, a3, rfl, a4⟩

/-- The calls made so far stay in front of the calls a step adds. -/
theorem thread.step_out {M : Type} [CommMonoid M] (codes : Nat → Nat) (omp : Nat → M)
    (t : thread M) (out : List (Nat × M)) (bq : Nat × Nat) :
    thread.step codes omp (t, out) bq =
      ((thread.step codes omp (t, []) bq).1, out ++ (thread.step codes omp (t, []) bq).2) := by
  simp only [thread.step]
  split_ifs <;> simp

theorem thread.foldl_out {M : Type} [CommMonoid M] (codes : Nat → Nat) (omp : Nat → M)
    (buf : List (Nat × Nat)) (t : thread M) (out : List (Nat × M)) :
    buf.foldl (thread.step codes omp) (t, out) =
      ((buf.foldl (thread.step codes omp) (t, [])).1,
        out ++ (buf.foldl (thread.step codes omp) (t, [])).2) := by
  induction buf generalizing t out with
  | nil => simp
  | cons bq rest ih =>
    simp only [List.foldl_cons]
    rw [thread.step_out codes omp t out bq, ih, ih (thread.step codes omp (t, []) bq).1
      (thread.step codes omp (t, []) bq).2, List.append_assoc]

theorem thread.key_eq_clear {M : Type} (t u : thread M) (h : thread.key_eq t u) :
    thread.key_eq t.clear u.clear := by
  obtain ⟨h1, h2, _, _, h5, _, h7⟩ := h
  exact ⟨h1, h2, rfl, rfl, h5, rfl, h7⟩

/-- The keys of the calls made on a list of buffers, starting from any thread that agrees with
the cleared `t0` on what keys depend on. -/
theorem thread.foldl_parse_buffer_keys {M : Type} [CommMonoid M] (codes : Nat → Nat)
    (omp : Nat → M) (t0 : thread M) (bufs : List (List (Nat × Nat))) (t : thread M)
    (out : List (Nat × M)) (h : thread.key_eq t t0.clear) :
    (bufs.foldl (thread.parse_buffer codes omp) (t, out)).2.map Prod.fst =
      out.map Prod.fst ++ (bufs.map fun b => thread.keys codes omp t0 [b]).flatten := by
  induction bufs generalizing t out with
  | nil => simp
  | cons b rest ih =>
    simp only [List.foldl_cons, List.map_cons, List.flatten_cons]
    have hk := thread.parse_buffer_key_eq codes omp (t, out) b
    have hk' : thread.key_eq (thread.parse_buffer codes omp (t, out) b).1 t0.clear :=
      ⟨hk.1.trans h.1, hk.2.1.trans h.2.1, rfl, rfl, hk.2.2.2.2.1.trans h.2.2.2.2.1, rfl,
        hk.2.2.2.2.2.2.trans h.2.2.2.2.2.2⟩
    have e := ih (thread.parse_buffer codes omp (t, out) b).1
      (thread.parse_buffer codes omp (t, out) b).2 hk'
    simp only [Prod.mk.eta] at e
    rw [e, ← List.append_assoc]
    congr 1
    have e1 := (thread.foldl_key_eq codes omp b t t0.clear out ([] ++ out) h (by simp)).2
    rw [thread.foldl_out codes omp b t0.clear ([] ++ out)] at e1
    simp only [thread.parse_buffer, thread.keys, thread.parse, List.foldl_cons, List.foldl_nil]
    rw [e1]
    simp

/-- Fewer steps than `mer_len` from a cleared thread make no call. -/
theorem thread.foldl_short {M : Type} [CommMonoid M] (codes : Nat → Nat) (omp : Nat → M)
    (buf : List (Nat × Nat)) (t : thread M) (out : List (Nat × M))
    (h : t.cmlen + buf.length < t.mer_len) :
    (buf.foldl (thread.step codes omp) (t, out)).2 = out := by
  induction buf generalizing t with
  | nil => rfl
  | cons bq rest ih =>
    simp only [List.foldl_cons, List.length_cons] at h ⊢
    have hm : (thread.step codes omp (t, out) bq).1.mer_len = t.mer_len :=
      (thread.step_consts codes omp (t, out) bq).1
    have hs : (thread.step codes omp (t, out) bq).2 = out ∧
        (thread.step codes omp (t, out) bq).1.cmlen ≤ t.cmlen + 1 := by
      by_cases h1 : codes bq.1 = CODE_RESET
      · simp [thread.step, h1, thread.clear]
      · have h2 : ¬ (t.cmlen + 1 ≥ t.mer_len) := by omega
        simp [thread.step, h1, h2]
    have e : thread.step codes omp (t, out) bq = ((thread.step codes omp (t, out) bq).1, out) :=
      Prod.ext rfl hs.1
    rw [e]
    exact ih _ (by rw [hm]; omega)

theorem take_append_take {α : Type} (n : Nat) (a b : List α) :
    (a ++ b.take n).take n = (a ++ b).take n := by
  rw [List.take_append_eq_append_take, List.take_append_eq_append_take, List.take_take,
    Nat.min_eq_left (Nat.sub_le _ _)]

/-- A step on a code other than RESET appends one value to the circular buffer. -/
theorem thread.step_quals {M : Type} [CommMonoid M] (codes : Nat → Nat) (omp : Nat → M)
    (t : thread M) (out : List (Nat × M)) (bq : Nat × Nat) (h : codes bq.1 ≠ CODE_RESET) :
    (thread.step codes omp (t, out) bq).1.quals =
        t.quals.append (omp (qual_index bq.2 t.quality_start)) ∧
      (thread.step codes omp (t, out) bq).1.quality_start = t.quality_start := by
  simp only [thread.step, if_neg h]
  split_ifs <;> simp

/-- What the circular buffer holds after steps without RESET: the values appended, most recent
first, in front of what it held, cut to its size. -/
theorem thread.foldl_quals {M : Type} [CommMonoid M] (codes : Nat → Nat) (omp : Nat → M)
    (post : List (Nat × Nat)) (t : thread M) (out : List (Nat × M))
    (hq : t.quals.vals.length ≤ t.quals.size)
    (hpost : ∀ p ∈ post, codes p.1 ≠ CODE_RESET) :
    (post.foldl (thread.step codes omp) (t, out)).1.quals.size = t.quals.size ∧
      (post.foldl (thread.step codes omp) (t, out)).1.quals.vals =
        ((post.reverse.map fun p => omp (qual_index p.2 t.quality_start)) ++
          t.quals.vals).take t.quals.size := by
  induction post generalizing t out with
  | nil => simp [List.take_of_length_le hq]
  | cons bq rest ih =>
    obtain ⟨e1, e2⟩ := thread.step_quals codes omp t out bq (hpost bq (List.mem_cons_self _ _))
    have e : thread.step codes omp (t, out) bq =
        ((thread.step codes omp (t, out) bq).1, (thread.step codes omp (t, out) bq).2) := rfl
    have hq' : (thread.step codes omp (t, out) bq).1.quals.vals.length ≤
        (thread.step codes omp (t, out) bq).1.quals.size := by
      rw [e1]
      simp only [circular_buffer.append, List.length_take]
      exact Nat.min_le_left _ _
    obtain ⟨a1, a2⟩ := ih (thread.step codes omp (t, out) bq).1
      (thread.step codes omp (t, out) bq).2 hq' (fun p hp => hpost p (List.mem_cons_of_mem _ hp))
    simp only [List.foldl_cons]
    rw [e]
    refine ⟨by rw [a1, e1]; rfl, ?_⟩
    rw [a2, e1, e2]
    simp only [circular_buffer.append, List.reverse_cons, List.map_append, List.map_cons,
      List.map_nil, List.append_assoc, List.singleton_append]
    exact take_append_take _ _ _

/-- A well-formed thread stays well formed over any list of buffers, and `parse` leaves it
cleared. -/
theorem thread.parse_state {M : Type} [CommMonoid M] (codes : Nat → Nat) (omp : Nat → M)
    (k : Nat) (hk1 : 1 ≤ k) (hk : k ≤ 31) (t0 : thread M) (hwf : thread.wf k t0)
    (bufs : List (List (Nat × Nat)))
    (hcodes : ∀ b ∈ bufs, ∀ p ∈ b, codes p.1 < 4 ∨ codes p.1 = CODE_RESET) :
    thread.wf k (thread.parse codes omp t0 bufs).1 ∧
      (thread.parse codes omp t0 bufs).1.clear = (thread.parse codes omp t0 bufs).1 := by
  induction bufs using List.reverseRecOn with
  | nil =>
    exact ⟨⟨hwf.mer_len, hwf.lshift, hwf.masq, hwf.qsize, hwf.qlen⟩, rfl⟩
  | append_singleton bs b ih =>
    obtain ⟨w, c⟩ := ih (fun b' hb' => hcodes b' (List.mem_append_left _ hb'))
    have hb : ∀ p ∈ b, codes p.1 < 4 ∨ codes p.1 = CODE_RESET :=
      hcodes b (List.mem_append_right _ (List.mem_singleton_self _))
    have hinv := (thread.loop_spec codes omp k hk1 hk (thread.parse codes omp t0 bs).1 w
      (thread.parse codes omp t0 bs).2 b hb).1
    rw [c] at hinv
    have e : thread.parse codes omp t0 (bs ++ [b]) =
        thread.parse_buffer codes omp (thread.parse codes omp t0 bs) b := by
      simp [thread.parse, List.foldl_append]
    rw [e]
    have w' := hinv.wf
    exact ⟨⟨w'.mer_len, w'.lshift, w'.masq, w'.qsize, w'.qlen⟩, rfl⟩

/-! ### Claims about `parse_quake::thread::parse` -/

/-- C1: for every mer length `1 ≤ k ≤ 31` and every buffer of (base byte, quality byte) pairs
whose base codes are each in `{0,1,2,3}` or `CODE_RESET`, `parse` in non-canonical mode submits,
in input order, exactly one key for each position whose last `k` codes are all bases, that key
being the `2k`-bit integer of those bases with the most recent base in the two low bits, and
nothing else. -/
theorem parse_keys_noncanonical (M : Type) [CommMonoid M] (codes : Nat → Nat) (omp : Nat → M)
    (k qs : Nat) (buf : List (Nat × Nat)) (hk1 : 1 ≤ k) (hk : k ≤ 31)
    (hcodes : ∀ p ∈ buf, codes p.1 < 4 ∨ codes p.1 = CODE_RESET) :
    thread.keys codes omp (thread.new M k false qs) [buf]
      = ref_keys k (buf.map fun p => codes p.1) := by
  unfold thread.keys
  rw [thread.parse_single codes omp k hk1 hk _ (thread.new_wf M k hk false qs) buf hcodes]
  exact ref_adds_keys k codes omp qs buf

/-- Witness for C1: the bases `N A C G T` with `k = 2` give the keys `AC, CG, GT` in that order,
and the bases `N A C N G T` with `k = 3` give no key. -/
theorem parse_keys_noncanonical_witness :
    thread.keys example_codes (fun _ => (1 : Nat)) (thread.new Nat 2 false 33)
        [[(78, 73), (65, 73), (67, 73), (71, 73), (84, 73)]] = [1, 6, 11] ∧
      thread.keys example_codes (fun _ => (1 : Nat)) (thread.new Nat 3 false 33)
        [[(78, 73), (65, 73), (67, 73), (78, 73), (71, 73), (84, 73)]] = [] :=
  ⟨(parse_keys_noncanonical Nat example_codes (fun _ => 1) 2 33
      [(78, 73), (65, 73), (67, 73), (71, 73), (84, 73)] (by decide) (by decide)
      (by decide)).trans (by decide),
    (parse_keys_noncanonical Nat example_codes (fun _ => 1) 3 33
      [(78, 73), (65, 73), (67, 73), (78, 73), (71, 73), (84, 73)] (by decide) (by decide)
      (by decide)).trans (by decide)⟩

/-- C2: for every mer length `1 ≤ k ≤ 31`, in canonical mode the key submitted for a window of
`k` consecutive bases is the encoding of the lexicographically smaller of the window and its
reverse complement; and after every prefix of the buffer, whenever `cmlen ≥ k`, `kmer` encodes
the window of the last `k` codes, `rkmer` encodes its reverse complement, and the smaller of the
two integers is the encoding of the lexicographic minimum of the two strings. -/
theorem parse_keys_canonical (M : Type) [CommMonoid M] (codes : Nat → Nat) (omp : Nat → M)
    (k qs : Nat) (buf : List (Nat × Nat)) (hk1 : 1 ≤ k) (hk : k ≤ 31)
    (hcodes : ∀ p ∈ buf, codes p.1 < 4 ∨ codes p.1 = CODE_RESET) :
    thread.keys codes omp (thread.new M k true qs) [buf]
        = ref_keys_canonical k (buf.map fun p => codes p.1) ∧
      ∀ pre suf : List (Nat × Nat), buf = pre ++ suf →
        ∀ t : thread M,
          t = (pre.foldl (thread.step codes omp) ((thread.new M k true qs).clear, [])).1 →
          k ≤ t.cmlen →
            t.kmer = encode (window_at k (pre.map fun p => codes p.1) (pre.length - 1)) ∧
            t.rkmer
              = encode (rev_comp (window_at k (pre.map fun p => codes p.1) (pre.length - 1))) ∧
            (if t.kmer < t.rkmer then t.kmer else t.rkmer)
              = encode (canonical_window
                  (window_at k (pre.map fun p => codes p.1) (pre.length - 1))) := by
  constructor
  · unfold thread.keys
    rw [thread.parse_single codes omp k hk1 hk _ (thread.new_wf M k hk true qs) buf hcodes]
    exact ref_adds_keys_canonical k codes omp qs buf
  · intro pre suf hbuf t ht hfull
    have hpre : ∀ p ∈ pre, codes p.1 < 4 ∨ codes p.1 = CODE_RESET :=
      fun p hp => hcodes p (by rw [hbuf]; exact List.mem_append_left _ hp)
    have hinv := (thread.loop_spec codes omp k hk1 hk _ (thread.new_wf M k hk true qs) []
      pre hpre).1
    rw [← ht] at hinv
    obtain ⟨_, hb, hK, hR⟩ := thread.full_window codes k _ t _ pre hinv hfull
    refine ⟨hK, hR, ?_⟩
    rw [← ref_key_canonical _ hb, hK, hR]
    simp [ref_key]

/-- Witness for C2: the bases `A C G T` with `k = 2` in canonical mode. -/
theorem parse_keys_canonical_witness :
    thread.keys example_codes (fun _ => (1 : Nat)) (thread.new Nat 2 true 33)
        [[(65, 73), (67, 73), (71, 73), (84, 73)]] = [1, 6, 1] :=
  (parse_keys_canonical Nat example_codes (fun _ => 1) 2 33
    [(65, 73), (67, 73), (71, 73), (84, 73)] (by decide) (by decide) (by decide)).1.trans
    (by decide)

/-- C5: for every mer length `1 ≤ k ≤ 31` and every run of bases without RESET, canonical-mode
`parse` submits the same multiset of keys for the run as for its reverse complement; it submits
exactly one key per window, in window order, and each such key is the encoding of the window
itself or of its reverse complement. -/
theorem canonical_symmetry (M : Type) [CommMonoid M] (codes : Nat → Nat) (omp : Nat → M)
    (k qs : Nat) (buf buf' : List (Nat × Nat)) (hk1 : 1 ≤ k) (hk : k ≤ 31)
    (hbases : ∀ p ∈ buf, codes p.1 < 4)
    (hrc : (buf'.map fun p => codes p.1) = rev_comp (buf.map fun p => codes p.1)) :
    Multiset.ofList (thread.keys codes omp (thread.new M k true qs) [buf'])
        = Multiset.ofList (thread.keys codes omp (thread.new M k true qs) [buf]) ∧
      thread.keys codes omp (thread.new M k true qs) [buf]
        = (windows k (buf.map fun p => codes p.1)).map (fun w => encode (canonical_window w)) ∧
      ∀ w ∈ windows k (buf.map fun p => codes p.1),
        encode (canonical_window w) = encode w ∨
          encode (canonical_window w) = encode (rev_comp w) := by
  have hs : ∀ c ∈ buf.map (fun p => codes p.1), c < 4 := List.forall_mem_map.mpr hbases
  have hs' : ∀ c ∈ buf'.map (fun p => codes p.1), c < 4 := by
    rw [hrc]; exact rev_comp_lt _
  have hc : ∀ p ∈ buf, codes p.1 < 4 ∨ codes p.1 = CODE_RESET := fun p hp => Or.inl (hbases p hp)
  have hc' : ∀ p ∈ buf', codes p.1 < 4 ∨ codes p.1 = CODE_RESET :=
    fun p hp => Or.inl (List.forall_mem_map.mp hs' p hp)
  have e1 : thread.keys codes omp (thread.new M k true qs) [buf]
      = (windows k (buf.map fun p => codes p.1)).map (fun w => encode (canonical_window w)) := by
    unfold thread.keys
    rw [thread.parse_single codes omp k hk1 hk _ (thread.new_wf M k hk true qs) buf hc]
    exact (ref_adds_keys_canonical k codes omp qs buf).trans
      (ref_keys_canonical_windows k hk1 _ hs)
  have e2 : thread.keys codes omp (thread.new M k true qs) [buf']
      = ((windows k (buf.map fun p => codes p.1)).map
          (fun w => encode (canonical_window w))).reverse := by
    unfold thread.keys
    rw [thread.parse_single codes omp k hk1 hk _ (thread.new_wf M k hk true qs) buf' hc']
    rw [show (thread.new M k true qs).canonical = true from rfl,
      show (thread.new M k true qs).quality_start = qs from rfl,
      ref_adds_keys_canonical k codes omp qs buf', ref_keys_canonical_windows k hk1 _ hs', hrc,
      windows_rev_comp k hk1, List.map_reverse, List.map_map]
    congr 1
    apply List.map_congr_left
    intro w hw
    exact canonical_rev_comp w (mem_windows_lt k _ hs w hw)
  refine ⟨?_, e1, ?_⟩
  · rw [e2, ← e1]
    exact Multiset.coe_eq_coe.mpr (List.reverse_perm _)
  · intro w _
    unfold canonical_window
    split_ifs
    · exact Or.inr rfl
    · exact Or.inl rfl

/-- Witness for C5: the bases `A C G T` (their own reverse complement) with `k = 2` give the
keys `AC, CG, AC`, that is `AC` twice and `CG` once. -/
theorem canonical_symmetry_witness :
    thread.keys example_codes (fun _ => (1 : Nat)) (thread.new Nat 2 true 33)
        [[(65, 73), (67, 73), (71, 73), (84, 73)]] = [1, 6, 1] :=
  (canonical_symmetry Nat example_codes (fun _ => 1) 2 33
    [(65, 73), (67, 73), (71, 73), (84, 73)] [(65, 73), (67, 73), (71, 73), (84, 73)]
    (by decide) (by decide) (by decide) (by decide)).2.1.trans (by decide)

/-- C9: for every mer length `1 ≤ k ≤ 31` and every buffer of (base, quality) pairs with
`quality_start ≤ q ≤ quality_start + 40`, the weight `parse` submits with each key is the product
of the `k` values `one_minus_proba_codes[q - quality_start]` of exactly the `k` bases of that
key's window, whatever the circular buffer held before the call and whatever was appended before
the window or before the last RESET. Weights are values of a commutative monoid. -/
theorem parse_weights (M : Type) [CommMonoid M] (codes : Nat → Nat) (omp : Nat → M)
    (k : Nat) (t0 : thread M) (buf : List (Nat × Nat)) (hk1 : 1 ≤ k) (hk : k ≤ 31)
    (hwf : thread.wf k t0)
    (hcodes : ∀ p ∈ buf, codes p.1 < 4 ∨ codes p.1 = CODE_RESET)
    (hq : ∀ p ∈ buf, t0.quality_start ≤ p.2 ∧ p.2 ≤ t0.quality_start + 40) :
    (thread.parse codes omp t0 [buf]).2.map Prod.snd
      = ref_weights k omp t0.quality_start (buf.map fun p => (codes p.1, p.2)) := by
  rw [thread.parse_single codes omp k hk1 hk t0 hwf buf hcodes]
  exact ref_adds_weights k _ codes omp _ buf hq

/-- Witness for C9: the bases `A C G T` with qualities `I I I I`, `k = 2` and
`quality_start = '!'` give three weights, each `one_minus_proba_codes[40]` squared (here the
table is taken as `i ↦ i + 1` over the natural numbers, so each weight is `41 * 41`). -/
theorem parse_weights_witness :
    (thread.parse example_codes (fun i => i + 1) (thread.new Nat 2 false 33)
        [[(65, 73), (67, 73), (71, 73), (84, 73)]]).2.map Prod.snd
      = [41 * 41, 41 * 41, 41 * 41] :=
  (parse_weights Nat example_codes (fun i => i + 1) 2 (thread.new Nat 2 false 33)
    [(65, 73), (67, 73), (71, 73), (84, 73)] (by decide) (by decide)
    (thread.new_wf Nat 2 (by decide) false 33) (by decide) (by decide)).trans (by decide)

/-- C14 fails: with `k = 2`, after the base `A` and then the RESET code of `N`, the circular
buffer still holds the value appended for `A` (here `one_minus_proba_codes[40]`, written 41). -/
theorem reset_keeps_quals_counterexample :
    ([(65, 73), (78, 73)].foldl (thread.step example_codes fun i => i + 1)
      ((thread.new Nat 2 false 33).clear, [])).1.quals.vals = [41] := by
  decide

/-- C14 as amended: on a RESET code `parse` sets `kmer`, `rkmer` and `cmlen` to zero, makes no
call, and leaves the quality circular buffer as it is. The values appended before the RESET
leave the buffer only as later values push them out: after as many steps without RESET as the
buffer has places it holds the values appended after the RESET and no other, and fewer steps
than `mer_len` after the RESET make no call, so that with a buffer of `mer_len` places no weight
submitted contains a value appended before the RESET. -/
theorem thread.reset_keeps_quals {M : Type} [CommMonoid M] (codes : Nat → Nat) (omp : Nat → M)
    (t : thread M) (out : List (Nat × M)) (bq : Nat × Nat) (post : List (Nat × Nat))
    (hc : codes bq.1 = CODE_RESET) (hq : t.quals.vals.length ≤ t.quals.size)
    (hpost : ∀ p ∈ post, codes p.1 ≠ CODE_RESET) :
    (thread.step codes omp (t, out) bq).1.quals = t.quals ∧
      (thread.step codes omp (t, out) bq).1.kmer = 0 ∧
      (thread.step codes omp (t, out) bq).1.rkmer = 0 ∧
      (thread.step codes omp (t, out) bq).1.cmlen = 0 ∧
      (thread.step codes omp (t, out) bq).2 = out ∧
      (t.quals.size ≤ post.length →
        (post.foldl (thread.step codes omp) (thread.step codes omp (t, out) bq)).1.quals.vals =
          (post.reverse.map fun p => omp (qual_index p.2 t.quality_start)).take t.quals.size) ∧
      (post.length < t.mer_len →
        (post.foldl (thread.step codes omp) (thread.step codes omp (t, out) bq)).2 = out) := by
  have e : thread.step codes omp (t, out) bq = (t.clear, out) := by
    simp [thread.step, hc]
  rw [e]
  refine ⟨rfl, rfl, rfl, rfl, rfl, ?_, ?_⟩
  · intro hlen
    rw [(thread.foldl_quals codes omp post t.clear out hq hpost).2]
    show ((post.reverse.map fun p => omp (qual_index p.2 t.quality_start)) ++
      t.quals.vals).take t.quals.size = _
    rw [List.take_append_of_le_length (by simpa using hlen)]
  · intro hlen
    exact thread.foldl_short codes omp post t.clear out (by simpa [thread.clear] using hlen)

/-- After `A` and `N` with `k = 2` the buffer holds the value of `A`; two bases later it holds
the values of those two alone. -/
theorem thread.reset_keeps_quals_witness :
    (thread.step example_codes (fun i => i + 1)
        (([(65, 73)].foldl (thread.step example_codes fun i => i + 1)
          ((thread.new Nat 2 false 33).clear, [])).1, []) (78, 73)).1.quals =
      ([(65, 73)].foldl (thread.step example_codes fun i => i + 1)
        ((thread.new Nat 2 false 33).clear, [])).1.quals ∧
    ([(67, 53), (71, 43)].foldl (thread.step example_codes fun i => i + 1)
        (thread.step example_codes (fun i => i + 1)
          (([(65, 73)].foldl (thread.step example_codes fun i => i + 1)
            ((thread.new Nat 2 false 33).clear, [])).1, []) (78, 73))).1.quals.vals =
      [11, 21] :=
  ⟨(thread.reset_keeps_quals example_codes (fun i => i + 1)
      ([(65, 73)].foldl (thread.step example_codes fun i => i + 1)
        ((thread.new Nat 2 false 33).clear, [])).1 [] (78, 73) [] (by decide) (by decide)
      (by decide)).1,
    ((thread.reset_keeps_quals example_codes (fun i => i + 1)
      ([(65, 73)].foldl (thread.step example_codes fun i => i + 1)
        ((thread.new Nat 2 false 33).clear, [])).1 [] (78, 73) [(67, 53), (71, 43)] (by decide)
      (by decide) (by decide)).2.2.2.2.2.1 (by decide)).trans (by decide)⟩

/-- C18: for every mer length `1 ≤ k ≤ 31` and every sequence of codes each in `{0,1,2,3}` or
RESET, after every step of the rolling loop (any buffers parsed before, then any prefix of the
buffer at hand) the thread has `masq = 4^k - 1`, `kmer ≤ masq`, `rkmer ≤ masq` and `cmlen ≤ k`:
no bit at position `2k` or above is ever set in `kmer` or `rkmer`. -/
theorem thread.state_bounds {M : Type} [CommMonoid M] (codes : Nat → Nat) (omp : Nat → M)
    (k qs : Nat) (canonical : Bool) (bufs : List (List (Nat × Nat))) (pre : List (Nat × Nat))
    (hk1 : 1 ≤ k) (hk : k ≤ 31)
    (hbufs : ∀ b ∈ bufs, ∀ p ∈ b, codes p.1 < 4 ∨ codes p.1 = CODE_RESET)
    (hpre : ∀ p ∈ pre, codes p.1 < 4 ∨ codes p.1 = CODE_RESET) :
    (pre.foldl (thread.step codes omp)
        (thread.parse codes omp (thread.new M k canonical qs) bufs)).1.masq = 4 ^ k - 1 ∧
      (pre.foldl (thread.step codes omp)
        (thread.parse codes omp (thread.new M k canonical qs) bufs)).1.kmer ≤
        (pre.foldl (thread.step codes omp)
          (thread.parse codes omp (thread.new M k canonical qs) bufs)).1.masq ∧
      (pre.foldl (thread.step codes omp)
        (thread.parse codes omp (thread.new M k canonical qs) bufs)).1.rkmer ≤
        (pre.foldl (thread.step codes omp)
          (thread.parse codes omp (thread.new M k canonical qs) bufs)).1.masq ∧
      (pre.foldl (thread.step codes omp)
        (thread.parse codes omp (thread.new M k canonical qs) bufs)).1.cmlen ≤ k ∧
      (pre.foldl (thread.step codes omp)
        (thread.parse codes omp (thread.new M k canonical qs) bufs)).1.kmer < 2 ^ (2 * k) ∧
      (pre.foldl (thread.step codes omp)
        (thread.parse codes omp (thread.new M k canonical qs) bufs)).1.rkmer < 2 ^ (2 * k) := by
  obtain ⟨w, c⟩ := thread.parse_state codes omp k hk1 hk _ (thread.new_wf M k hk canonical qs)
    bufs hbufs
  have hinv := (thread.loop_spec codes omp k hk1 hk _ w
    (thread.parse codes omp (thread.new M k canonical qs) bufs).2 pre hpre).1
  rw [c] at hinv
  have h4 : (4 : Nat) ^ k = 2 ^ (2 * k) := by rw [pow_mul]; norm_num
  have hpos : 0 < (4 : Nat) ^ k := by positivity
  have hkm : (pre.foldl (thread.step codes omp)
      (thread.parse codes omp (thread.new M k canonical qs) bufs)).1.kmer < 4 ^ k := by
    rw [hinv.kmer]
    have h1 := encLE_lt ((hist codes pre).take k)
      (fun d hd => hinv.bases d (List.mem_of_mem_take hd))
    have h2 : ((hist codes pre).take k).length ≤ k := by simp
    exact lt_of_lt_of_le h1 (Nat.pow_le_pow_right (by norm_num) h2)
  have hrk : (pre.foldl (thread.step codes omp)
      (thread.parse codes omp (thread.new M k canonical qs) bufs)).1.rkmer < 4 ^ k := by
    rw [hinv.rkmer]
    have h1 := encode_lt (padrc k (hist codes pre)) (padrc_lt k _)
    rwa [padrc_length] at h1
  refine ⟨hinv.wf.masq, ?_, ?_, ?_, by rw [← h4]; exact hkm, by rw [← h4]; exact hrk⟩
  · rw [hinv.wf.masq]; omega
  · rw [hinv.wf.masq]; omega
  · rw [hinv.cmlen]; exact Nat.min_le_right _ _

/-- With `k = 2`, after the buffer `AC` and then the bases `G, T, T` of the next buffer. -/
theorem thread.state_bounds_witness :
    (([(71, 73), (84, 73), (84, 73)].foldl (thread.step example_codes fun _ => (1 : Nat))
        (thread.parse example_codes (fun _ => (1 : Nat)) (thread.new Nat 2 true 33)
          [[(65, 73), (67, 73)]])).1.masq = 4 ^ 2 - 1) ∧
      ([(71, 73), (84, 73), (84, 73)].foldl (thread.step example_codes fun _ => (1 : Nat))
        (thread.parse example_codes (fun _ => (1 : Nat)) (thread.new Nat 2 true 33)
          [[(65, 73), (67, 73)]])).1.cmlen ≤ 2 :=
  ⟨(thread.state_bounds example_codes (fun _ => (1 : Nat)) 2 33 true [[(65, 73), (67, 73)]]
      [(71, 73), (84, 73), (84, 73)] (by decide) (by decide) (by decide) (by decide)).1,
    (thread.state_bounds example_codes (fun _ => (1 : Nat)) 2 33 true [[(65, 73), (67, 73)]]
      [(71, 73), (84, 73), (84, 73)] (by decide) (by decide) (by decide) (by decide)).2.2.2.1⟩

/-- C19: `parse` sets `kmer`, `rkmer` and `cmlen` to zero before the first buffer and after each
buffer, so for every list of buffers, every code table and every thread the keys it submits are
the concatenation, in order, of the keys each buffer yields when parsed alone; and the first
`mer_len - 1` pairs of a buffer yield no key, whatever was parsed before. -/
theorem thread.keys_buffers {M : Type} [CommMonoid M] (codes : Nat → Nat) (omp : Nat → M)
    (t : thread M) (bufs : List (List (Nat × Nat))) :
    thread.keys codes omp t bufs = (bufs.map fun b => thread.keys codes omp t [b]).flatten ∧
      (∀ b : List (Nat × Nat),
        thread.keys codes omp t (bufs ++ [b.take (t.mer_len - 1)]) = thread.keys codes omp t bufs) ∧
      ∀ (k qs : Nat) (canonical : Bool), (thread.new M k canonical qs).mer_len = k := by
  have hk : thread.key_eq t.clear t.clear := ⟨rfl, rfl, rfl, rfl, rfl, rfl, rfl⟩
  have main : ∀ bs : List (List (Nat × Nat)),
      thread.keys codes omp t bs = (bs.map fun b => thread.keys codes omp t [b]).flatten := by
    intro bs
    have h := thread.foldl_parse_buffer_keys codes omp t bs t.clear [] hk
    simpa [thread.keys, thread.parse] using h
  refine ⟨main bufs, ?_, fun _ _ _ => rfl⟩
  intro b
  rw [main (bufs ++ [b.take (t.mer_len - 1)]), main bufs, List.map_append, List.flatten_append]
  have hshort : thread.keys codes omp t [b.take (t.mer_len - 1)] = [] := by
    by_cases hm : t.mer_len = 0
    · simp [thread.keys, thread.parse, thread.parse_buffer, hm]
    · have hlen : (b.take (t.mer_len - 1)).length < t.mer_len := by
        rw [List.length_take]
        have := Nat.min_le_left (t.mer_len - 1) b.length
        omega
      have h := thread.foldl_short codes omp (b.take (t.mer_len - 1)) t.clear []
        (by simpa [thread.clear] using hlen)
      simp [thread.keys, thread.parse, thread.parse_buffer, h]
  simp [hshort]

/-! ## The parsers -/

/-! ### A loop that writes into a bounded buffer -/

theorem run_loop_eof {σ : Type} (eof : σ → Bool) (iter : σ → σ × List Nat) (f cap : Nat) (s : σ)
    (out : List Nat) (h : eof s = true) : run_loop eof iter f cap s out = (s, out) := by
  cases f with
  | zero => rfl
  | succ f => simp [run_loop, h]

theorem run_loop_zero_cap {σ : Type} (eof : σ → Bool) (iter : σ → σ × List Nat) (f : Nat) (s : σ)
    (out : List Nat) : run_loop eof iter f 0 s out = (s, out) := by
  cases f with
  | zero => rfl
  | succ f => simp [run_loop]

theorem run_out_eof {σ : Type} (eof : σ → Bool) (iter : σ → σ × List Nat) (f : Nat) (s : σ)
    (h : eof s = true) : run_out eof iter f s = [] := by
  cases f with
  | zero => rfl
  | succ f => simp [run_out, h]

theorem run_loop_succ {σ : Type} (eof : σ → Bool) (iter : σ → σ × List Nat) (f cap : Nat) (s : σ)
    (out : List Nat) (hcap : 0 < cap) (h : eof s = false) :
    run_loop eof iter (f + 1) cap s out =
      run_loop eof iter f (cap - (iter s).2.length) (iter s).1 (out ++ (iter s).2) := by
  simp [run_loop, hcap, h]

theorem run_out_succ {σ : Type} (eof : σ → Bool) (iter : σ → σ × List Nat) (f : Nat) (s : σ)
    (h : eof s = false) :
    run_out eof iter (f + 1) s = (iter s).2 ++ run_out eof iter f (iter s).1 := by
  simp [run_out, h]

/-- One call never writes more bytes than the capacity of the buffer, whatever the fuel. -/
theorem run_loop_length_le {σ : Type} (eof : σ → Bool) (iter : σ → σ × List Nat)
    (hlen : ∀ s, (iter s).2.length ≤ 1) (f cap : Nat) (s : σ) (out : List Nat) :
    (run_loop eof iter f cap s out).2.length ≤ out.length + cap := by
  induction f generalizing cap s out with
  | zero => simp [run_loop]
  | succ f ih =>
    by_cases h : 0 < cap ∧ eof s = false
    · rw [run_loop_succ eof iter f cap s out h.1 h.2]
      have h1 := ih (cap - (iter s).2.length) (iter s).1 (out ++ (iter s).2)
      have h2 := hlen s
      rw [List.length_append] at h1
      omega
    · simp [run_loop, h]

/-- What the loop computes, given enough fuel: it writes the first `cap` bytes of the unbounded
output and leaves the parser where the rest of that output is still to come; it stops only with
the buffer full or at the end of input. -/
theorem run_loop_spec {σ : Type} {eof : σ → Bool} {iter : σ → σ × List Nat} {size : σ → Nat}
    (ok : loop_ok eof iter size) (f cap : Nat) (s : σ) (out : List Nat)
    (hf : size s + 1 ≤ f) :
    (run_loop eof iter f cap s out).2 = out ++ (run_out eof iter f s).take cap ∧
    size (run_loop eof iter f cap s out).1 ≤ size s ∧
    (∀ f', size (run_loop eof iter f cap s out).1 + 1 ≤ f' →
      run_out eof iter f' (run_loop eof iter f cap s out).1 = (run_out eof iter f s).drop cap) ∧
    (eof (run_loop eof iter f cap s out).1 = true ∨
      (run_loop eof iter f cap s out).2.length = out.length + cap) ∧
    (eof (run_loop eof iter f cap s out).1 = false → 0 < cap →
      size (run_loop eof iter f cap s out).1 < size s) ∧
    (run_out eof iter f s).length ≤ size s := by
  induction f generalizing cap s out with
  | zero => omega
  | succ f ih =>
    by_cases he : eof s = true
    · rw [run_loop_eof eof iter _ _ _ _ he, run_out_eof eof iter _ _ he]
      refine ⟨by simp, le_refl _, ?_, Or.inl he, ?_, by simp⟩
      · intro f' _
        rw [run_out_eof eof iter _ _ he]; simp
      · intro h; rw [he] at h; cases h
    · have he' : eof s = false := by simpa using he
      rw [run_out_succ eof iter f s he']
      have hlen := ok.len s
      rcases ok.dec s he' with ⟨ho, he1, hsz⟩ | hlt
      · -- the iteration met the end of input
        rw [ho, run_out_eof eof iter _ _ he1]
        by_cases hcap : 0 < cap
        · rw [run_loop_succ eof iter f cap s out hcap he', ho,
            run_loop_eof eof iter _ _ _ _ he1]
          refine ⟨by simp, hsz, ?_, Or.inl he1, ?_, by simp⟩
          · intro f' _
            rw [run_out_eof eof iter _ _ he1]; simp
          · intro h; rw [he1] at h; cases h
        · have hc0 : cap = 0 := by omega
          subst hc0
          rw [run_loop_zero_cap]
          refine ⟨by simp, le_refl _, ?_, Or.inr (by simp), ?_, by simp⟩
          · intro f' hf'
            cases f' with
            | zero => omega
            | succ f' =>
              rw [run_out_succ eof iter f' s he', ho, run_out_eof eof iter _ _ he1]; simp
          · intro _ h; omega
      · -- the iteration shortened the input
        have hf1 : size (iter s).1 + 1 ≤ f := by omega
        by_cases hcap : 0 < cap
        · rw [run_loop_succ eof iter f cap s out hcap he']
          obtain ⟨h1, h2, h3, h4, h5, h6⟩ :=
            ih (cap - (iter s).2.length) (iter s).1 (out ++ (iter s).2) hf1
          have hle : (iter s).2.length ≤ cap := by omega
          refine ⟨?_, by omega, ?_, ?_, ?_, ?_⟩
          · rw [h1, List.take_append_eq_append_take, List.take_of_length_le hle,
              List.append_assoc]
          · intro f' hf'
            rw [h3 f' hf', List.drop_append_eq_append_drop, List.drop_of_length_le hle,
              List.nil_append]
          · rcases h4 with h4 | h4
            · exact Or.inl h4
            · right; rw [h4, List.length_append]; omega
          · intro h _
            by_cases hc' : 0 < cap - (iter s).2.length
            · have := h5 h hc'; omega
            · omega
          · rw [List.length_append]; omega
        · have hc0 : cap = 0 := by omega
          subst hc0
          rw [run_loop_zero_cap]
          obtain ⟨_, _, h3, _, _, h6⟩ := ih 0 (iter s).1 [] hf1
          refine ⟨by simp, le_refl _, ?_, Or.inr (by simp), ?_, ?_⟩
          · intro f' hf'
            cases f' with
            | zero => omega
            | succ f' =>
              rw [run_out_succ eof iter f' s he', List.drop_zero]
              have hf'' : size s + 1 ≤ f' + 1 := hf'
              rw [run_loop_zero_cap] at h3
              have e1 := h3 f' (by show size (iter s).1 + 1 ≤ f'; omega)
              rw [List.drop_zero] at e1
              rw [e1]
          · intro _ h; omega
          · rw [List.length_append]; omega

/-! ### Calls built on the loop -/

theorem run_parse_out {σ : Type} {eof : σ → Bool} {iter : σ → σ × List Nat} {size : σ → Nat}
    (ok : loop_ok eof iter size) (s : σ) (cap : Nat) :
    (run_parse eof iter size s cap).out = (run_out eof iter (size s + 1) s).take cap := by
  have h := (run_loop_spec ok (size s + 1) cap s [] (le_refl _)).1
  simpa [run_parse] using h

theorem run_parse_rest {σ : Type} {eof : σ → Bool} {iter : σ → σ × List Nat} {size : σ → Nat}
    (ok : loop_ok eof iter size) (s : σ) (cap : Nat) :
    run_out eof iter (size (run_parse eof iter size s cap).parser + 1)
        (run_parse eof iter size s cap).parser =
      (run_out eof iter (size s + 1) s).drop cap :=
  (run_loop_spec ok (size s + 1) cap s [] (le_refl _)).2.2.1 _ (le_refl _)

theorem run_parse_more {σ : Type} {eof : σ → Bool} {iter : σ → σ × List Nat} {size : σ → Nat}
    (ok : loop_ok eof iter size) (s : σ) (cap : Nat)
    (h : (run_parse eof iter size s cap).more = true) :
    (run_parse eof iter size s cap).out.length = cap ∧
      (0 < cap → size (run_parse eof iter size s cap).parser < size s) := by
  obtain ⟨_, _, _, h4, h5, _⟩ := run_loop_spec ok (size s + 1) cap s [] (le_refl _)
  have he : eof (run_loop eof iter (size s + 1) cap s []).1 = false := by
    simpa [run_parse] using h
  constructor
  · rcases h4 with h4 | h4
    · rw [he] at h4; cases h4
    · simpa [run_parse] using h4
  · intro hc; exact h5 he hc

theorem run_parse_eof {σ : Type} (eof : σ → Bool) (iter : σ → σ × List Nat) (size : σ → Nat)
    (s : σ) (cap : Nat) (h : eof s = true) :
    run_parse eof iter size s cap = { parser := s, out := [], more := false } := by
  simp [run_parse, run_loop_eof eof iter _ _ _ _ h, h]

theorem run_out_length_le {σ : Type} {eof : σ → Bool} {iter : σ → σ × List Nat}
    {size : σ → Nat} (ok : loop_ok eof iter size) (s : σ) :
    (run_out eof iter (size s + 1) s).length ≤ size s :=
  (run_loop_spec ok (size s + 1) 0 s [] (le_refl _)).2.2.2.2.2

theorem run_parse_large {σ : Type} {eof : σ → Bool} {iter : σ → σ × List Nat} {size : σ → Nat}
    (ok : loop_ok eof iter size) (s : σ) (cap : Nat)
    (h : (run_out eof iter (size s + 1) s).length ≤ cap) :
    (run_parse eof iter size s cap).out = run_out eof iter (size s + 1) s := by
  rw [run_parse_out ok, List.take_of_length_le h]

/-- The outputs of successive calls, made until one returns false, add up to the unbounded
output, whatever the capacities. -/
theorem parse_calls_spec {σ : Type} {eof : σ → Bool} {iter : σ → σ × List Nat} {size : σ → Nat}
    (ok : loop_ok eof iter size) (caps : List Nat) (s : σ)
    (h : (parse_calls (run_parse eof iter size) s caps).2 = false) :
    (parse_calls (run_parse eof iter size) s caps).1 = run_out eof iter (size s + 1) s := by
  induction caps generalizing s with
  | nil => simp [parse_calls] at h
  | cons cap caps ih =>
    by_cases hm : (run_parse eof iter size s cap).more = true
    · simp only [parse_calls, hm, if_true] at h ⊢
      rw [ih _ h, run_parse_out ok, run_parse_rest ok, List.take_append_drop]
    · simp only [parse_calls, hm, Bool.false_eq_true, if_false]
      have he : eof (run_parse eof iter size s cap).parser = true := by
        simpa [run_parse] using hm
      have h1 := run_parse_rest ok s cap
      rw [run_out_eof eof iter _ _ he] at h1
      rw [run_parse_out ok]
      have h2 := List.take_append_drop cap (run_out eof iter (size s + 1) s)
      rw [← h1, List.append_nil] at h2
      exact h2

/-- With positive capacities the calls do reach one that returns false: each call that returns
true has read at least one byte. -/
theorem parse_calls_ends {σ : Type} {eof : σ → Bool} {iter : σ → σ × List Nat} {size : σ → Nat}
    (ok : loop_ok eof iter size) (caps : List Nat) (s : σ) (hpos : ∀ c ∈ caps, 0 < c)
    (hlen : size s + 1 ≤ caps.length) :
    (parse_calls (run_parse eof iter size) s caps).2 = false := by
  induction caps generalizing s with
  | nil => simp at hlen
  | cons cap caps ih =>
    by_cases hm : (run_parse eof iter size s cap).more = true
    · simp only [parse_calls, hm, if_true]
      have h1 := (run_parse_more ok s cap hm).2 (hpos cap (List.mem_cons_self _ _))
      apply ih _ (fun c hc => hpos c (List.mem_cons_of_mem _ hc))
      simp only [List.length_cons] at hlen
      omega
    · simp [parse_calls, hm]

/-! ### The two parsers as instances of the loop -/

theorem natCast_ne_EOF (b : Nat) : (b : Int) ≠ EOF := by
  unfold EOF; omega

theorem sbumpc_nil (p : file_parser_state) (h : p.data = []) :
    p.sbumpc = { base := EOF, pbase := p.base, data := [] } := by
  simp [file_parser_state.sbumpc, h]

theorem sbumpc_cons (p : file_parser_state) (b : Nat) (rest : List Nat) (h : p.data = b :: rest) :
    p.sbumpc = { base := (b : Int), pbase := p.base, data := rest } := by
  simp [file_parser_state.sbumpc, h]

theorem sbumpc_length_le (p : file_parser_state) : p.sbumpc.data.length ≤ p.data.length := by
  cases hd : p.data with
  | nil => simp [sbumpc_nil p hd]
  | cons b rest => simp [sbumpc_cons p b rest hd]

theorem skip_line_loop_length_le (f : Nat) (p : file_parser_state) :
    (file_parser_state.skip_line_loop f p).data.length ≤ p.data.length := by
  induction f generalizing p with
  | zero => simp [file_parser_state.skip_line_loop]
  | succ f ih =>
    unfold file_parser_state.skip_line_loop
    split
    · exact le_trans (ih _) (sbumpc_length_le p)
    · exact le_refl _

theorem skip_line_length_le (p : file_parser_state) :
    p.skip_line.data.length ≤ p.data.length :=
  skip_line_loop_length_le _ p

theorem skip_qual_loop_length_le (f : Nat) (s : fastq_sequence_parser_state) :
    (fastq_sequence_parser_skip_qual_loop f s).fp.data.length ≤ s.fp.data.length := by
  induction f generalizing s with
  | zero => simp [fastq_sequence_parser_skip_qual_loop]
  | succ f ih =>
    unfold fastq_sequence_parser_skip_qual_loop
    split
    · exact le_trans (ih _) (sbumpc_length_le s.fp)
    · exact le_refl _

theorem skip_qual_length_le (s : fastq_sequence_parser_state) :
    (fastq_sequence_parser_skip_qual s).fp.data.length ≤ s.fp.data.length :=
  skip_qual_loop_length_le _ s

theorem fasta_loop_eq (f cap : Nat) (p : file_parser_state) (out : List Nat) :
    fasta_sequence_parser_loop f cap p out = run_loop fasta_eof fasta_iter f cap p out := by
  induction f generalizing cap p out with
  | zero => rfl
  | succ f ih =>
    unfold fasta_sequence_parser_loop run_loop
    by_cases h : 0 < cap ∧ p.base ≠ EOF
    · have h' : 0 < cap ∧ fasta_eof p = false := ⟨h.1, by simpa [fasta_eof] using h.2⟩
      rw [if_pos h, if_pos h']
      simp only [ih, fasta_iter]
      split_ifs <;> simp
    · have h' : ¬ (0 < cap ∧ fasta_eof p = false) := by simpa [fasta_eof] using h
      rw [if_neg h, if_neg h']

theorem fasta_parse_eq (p : file_parser_state) (cap : Nat) :
    fasta_sequence_parser_parse p cap = run_parse fasta_eof fasta_iter fasta_size p cap := by
  simp [fasta_sequence_parser_parse, run_parse, fasta_loop_eq, fasta_size, fasta_eof]

theorem fasta_ok : loop_ok fasta_eof fasta_iter fasta_size := by
  constructor
  · intro p
    simp only [fasta_iter]
    split_ifs <;> simp
  · intro p _
    cases hd : p.data with
    | nil =>
      left
      simp [fasta_iter, sbumpc_nil p hd, fasta_eof, fasta_size]
    | cons b rest =>
      right
      have hb := natCast_ne_EOF b
      have hs := skip_line_length_le { base := (b : Int), pbase := p.base, data := rest }
      simp only [fasta_iter, sbumpc_cons p b rest hd, fasta_size, hd, List.length_cons]
      split_ifs <;> simp_all
      omega

theorem fastq_loop_eq (f cap : Nat) (s : fastq_sequence_parser_state) (out : List Nat) :
    fastq_sequence_parser_loop f cap s out = run_loop fastq_eof fastq_iter f cap s out := by
  induction f generalizing cap s out with
  | zero => rfl
  | succ f ih =>
    unfold fastq_sequence_parser_loop run_loop
    by_cases h : 0 < cap ∧ s.fp.base ≠ EOF
    · have h' : 0 < cap ∧ fastq_eof s = false := ⟨h.1, by simpa [fastq_eof] using h.2⟩
      rw [if_pos h, if_pos h']
      simp only [ih, fastq_iter]
      split_ifs <;> simp
    · have h' : ¬ (0 < cap ∧ fastq_eof s = false) := by simpa [fastq_eof] using h
      rw [if_neg h, if_neg h']

theorem fastq_parse_eq (s : fastq_sequence_parser_state) (cap : Nat) :
    fastq_sequence_parser_parse s cap = run_parse fastq_eof fastq_iter fastq_size s cap := by
  simp [fastq_sequence_parser_parse, run_parse, fastq_loop_eq, fastq_size, fastq_eof]

theorem fastq_ok : loop_ok fastq_eof fastq_iter fastq_size := by
  constructor
  · intro s
    simp only [fastq_iter]
    split_ifs <;> simp
  · intro s _
    cases hd : s.fp.data with
    | nil =>
      left
      simp [fastq_iter, sbumpc_nil s.fp hd, fastq_eof, fastq_size]
    | cons b rest =>
      right
      have hb := natCast_ne_EOF b
      have hs := skip_line_length_le { base := (b : Int), pbase := s.fp.base, data := rest }
      have hq := skip_qual_length_le
        { fp := file_parser_state.skip_line { base := (b : Int), pbase := s.fp.base, data := rest }
          seq_len := s.seq_len }
      simp only [fastq_iter, sbumpc_cons s.fp b rest hd, fastq_size, hd, List.length_cons]
      split_ifs <;> simp_all <;> omega

/-! ### The FASTA parser against the reference -/

theorem run_out_fuel {σ : Type} {eof : σ → Bool} {iter : σ → σ × List Nat} {size : σ → Nat}
    (ok : loop_ok eof iter size) (f f' : Nat) (s : σ) (hf : size s + 1 ≤ f)
    (hf' : size s + 1 ≤ f') : run_out eof iter f s = run_out eof iter f' s := by
  have h := (run_loop_spec ok f 0 s [] hf).2.2.1 f' (by rw [run_loop_zero_cap]; exact hf')
  rw [run_loop_zero_cap, List.drop_zero] at h
  exact h.symm

theorem run_out_unfold {σ : Type} {eof : σ → Bool} {iter : σ → σ × List Nat} {size : σ → Nat}
    (ok : loop_ok eof iter size) (s : σ) (h : eof s = false) :
    run_out eof iter (size s + 1) s =
      (iter s).2 ++ run_out eof iter (size (iter s).1 + 1) (iter s).1 := by
  rw [run_out_succ eof iter _ s h]
  rcases ok.dec s h with ⟨_, he, _⟩ | hlt
  · rw [run_out_eof eof iter _ _ he, run_out_eof eof iter _ _ he]
  · rw [run_out_fuel ok (size s) (size (iter s).1 + 1) _ (by omega) (le_refl _)]

theorem skip_line_loop_stop (f : Nat) (p : file_parser_state) (h : p.base = EOF ∨ p.base = 10) :
    file_parser_state.skip_line_loop f p = p := by
  cases f with
  | zero => rfl
  | succ f =>
    unfold file_parser_state.skip_line_loop
    rw [if_neg]
    rintro ⟨h1, h2⟩
    rcases h with h | h
    · exact h1 h
    · exact h2 h

theorem skip_line_loop_auto (f : Nat) (q : file_parser_state) (hf : q.data.length + 1 ≤ f)
    (h1 : q.base ≠ EOF) (h2 : q.base ≠ 10) :
    ((file_parser_state.skip_line_loop f q).base = EOF ∧
        fasta_auto fasta_mode.in_header q.data = []) ∨
      ((file_parser_state.skip_line_loop f q).base = 10 ∧
        fasta_auto fasta_mode.in_header q.data =
          fasta_auto fasta_mode.line_start (file_parser_state.skip_line_loop f q).data) := by
  induction f generalizing q with
  | zero => omega
  | succ f ih =>
    unfold file_parser_state.skip_line_loop
    rw [if_pos ⟨h1, h2⟩]
    cases hd : q.data with
    | nil =>
      left
      rw [sbumpc_nil q hd, skip_line_loop_stop _ _ (Or.inl rfl)]
      exact ⟨rfl, rfl⟩
    | cons b rest =>
      rw [sbumpc_cons q b rest hd]
      by_cases hb : b = 10
      · right
        subst hb
        rw [skip_line_loop_stop _ _ (Or.inr rfl)]
        simp [fasta_auto]
      · have hb' : ((b : Nat) : Int) ≠ 10 := by omega
        have := ih { base := (b : Int), pbase := q.base, data := rest }
          (by rw [hd] at hf; simp at hf ⊢; omega) (natCast_ne_EOF b) hb'
        simpa [fasta_auto, hb] using this

theorem fasta_run_out_auto (f : Nat) (p : file_parser_state) (hf : p.data.length + 1 ≤ f)
    (h : p.base ≠ EOF) :
    run_out fasta_eof fasta_iter f p =
      fasta_auto (if p.base = 10 then fasta_mode.line_start else fasta_mode.mid_line) p.data := by
  induction f generalizing p with
  | zero => omega
  | succ f ih =>
    have he : fasta_eof p = false := by simpa [fasta_eof] using h
    rw [run_out_succ _ _ _ _ he]
    cases hd : p.data with
    | nil =>
      have : fasta_eof { base := EOF, pbase := p.base, data := [] } = true := by simp [fasta_eof]
      simp [fasta_iter, sbumpc_nil p hd, run_out_eof _ _ _ _ this, fasta_auto]
    | cons b rest =>
      have hb := natCast_ne_EOF b
      have hf' : rest.length + 1 ≤ f := by rw [hd] at hf; simp at hf; omega
      have ih1 := ih { base := (b : Int), pbase := p.base, data := rest } hf' hb
      have ht : ((b : Nat) : Int).toNat = b := Int.toNat_ofNat b
      simp only [fasta_iter, sbumpc_cons p b rest hd, if_neg hb, ht]
      simp only [] at ih1
      by_cases h62 : b = 62
      · have hc62 : ((b : Nat) : Int) = 62 := by omega
        have hc10 : ((b : Nat) : Int) ≠ 10 := by omega
        rw [if_pos hc62]
        rw [if_neg hc10] at ih1
        by_cases hp : p.base = 10
        · rw [if_pos hp, if_pos hp]
          have hR : fasta_auto fasta_mode.line_start (b :: rest) =
              78 :: fasta_auto fasta_mode.in_header rest := by simp [fasta_auto, h62]
          rw [hR]
          rcases skip_line_loop_auto (rest.length + 1)
            { base := (b : Int), pbase := p.base, data := rest } (le_refl _) hb hc10
            with ⟨e1, e2⟩ | ⟨e1, e2⟩
          · have e3 : fasta_eof (file_parser_state.skip_line
                { base := (b : Int), pbase := p.base, data := rest }) = true := by
              simpa [fasta_eof, file_parser_state.skip_line] using e1
            rw [run_out_eof _ _ _ _ e3]
            simp only [] at e2
            rw [e2]; rfl
          · have e4 : (file_parser_state.skip_line
                { base := (b : Int), pbase := p.base, data := rest }).base = 10 := e1
            have e3 := ih (file_parser_state.skip_line
                { base := (b : Int), pbase := p.base, data := rest })
              (le_trans (Nat.succ_le_succ (skip_line_length_le _)) hf')
              (by rw [e4]; unfold EOF; omega)
            rw [e4] at e3
            simp only [if_true] at e3
            simp only [] at e2
            rw [e3, e2]; rfl
        · rw [if_neg hp, if_neg hp, ih1]
          simp [fasta_auto, h62]
      · have hc62 : ((b : Nat) : Int) ≠ 62 := by omega
        rw [if_neg hc62]
        by_cases h10 : b = 10
        · have hc10 : ((b : Nat) : Int) = 10 := by omega
          rw [if_pos hc10, ih1, if_pos hc10]
          by_cases hp : p.base = 10 <;> simp [hp, fasta_auto, h10]
        · have hc10 : ((b : Nat) : Int) ≠ 10 := by omega
          rw [if_neg hc10, ih1, if_neg hc10]
          by_cases hp : p.base = 10 <;> simp [hp, fasta_auto, h10, h62]

theorem splitOn_cons_nat (b : Nat) (rest : List Nat) :
    (b :: rest).splitOn 10 =
      if b = 10 then [] :: rest.splitOn 10 else (rest.splitOn 10).modifyHead (List.cons b) := by
  simp only [List.splitOn, List.splitOnP_cons]
  by_cases h : b = 10 <;> simp [h]

theorem fasta_auto_lines (data : List Nat) :
    ∃ h t, data.splitOn 10 = h :: t ∧
      fasta_auto fasta_mode.line_start data = fasta_line h ++ (t.map fasta_line).flatten ∧
      fasta_auto fasta_mode.mid_line data = h ++ (t.map fasta_line).flatten ∧
      fasta_auto fasta_mode.in_header data = (t.map fasta_line).flatten := by
  induction data with
  | nil => exact ⟨[], [], by simp, by simp [fasta_auto, fasta_line], by simp [fasta_auto],
      by simp [fasta_auto]⟩
  | cons b rest ih =>
    obtain ⟨h, t, e0, e1, e2, e3⟩ := ih
    rw [splitOn_cons_nat, e0]
    by_cases hb : b = 10
    · subst hb
      refine ⟨[], h :: t, by simp, ?_, ?_, ?_⟩
      · simp [fasta_auto, e1, fasta_line]
      · simp [fasta_auto, e1]
      · simp [fasta_auto, e1]
    · refine ⟨b :: h, t, by simp [hb], ?_, ?_, ?_⟩
      · by_cases h62 : b = 62
        · simp [fasta_auto, hb, h62, e3, fasta_line]
        · simp [fasta_auto, hb, h62, e2, fasta_line]
      · simp [fasta_auto, hb, e2]
      · simp [fasta_auto, hb, e3]

theorem fasta_out_new (data : List Nat) :
    fasta_out (file_parser_state.new data) = fasta_ref data := by
  have h1 := fasta_run_out_auto (data.length + 1) (file_parser_state.new data) (le_refl _)
    (by simp [file_parser_state.new, EOF])
  obtain ⟨h, t, e0, e1, _, _⟩ := fasta_auto_lines data
  simp only [file_parser_state.new, if_true] at h1
  simp only [fasta_out, fasta_size, file_parser_state.new, h1, e1, fasta_ref, e0, List.map_cons,
    List.flatten_cons, fasta_line]
  rfl

/-! ### The FASTQ parser on records -/

theorem skip_line_loop_succ (f : Nat) (p : file_parser_state) (h1 : p.base ≠ EOF)
    (h2 : p.base ≠ 10) :
    file_parser_state.skip_line_loop (f + 1) p = file_parser_state.skip_line_loop f p.sbumpc := by
  rw [file_parser_state.skip_line_loop, if_pos ⟨h1, h2⟩]

theorem skip_line_loop_header (hdr : List Nat) (f : Nat) (c pb : Int) (rest : List Nat)
    (h1 : c ≠ EOF) (h2 : c ≠ 10) (hh : 10 ∉ hdr) (hf : hdr.length + 1 ≤ f) :
    ∃ pb', file_parser_state.skip_line_loop f
        { base := c, pbase := pb, data := hdr ++ 10 :: rest } =
      { base := 10, pbase := pb', data := rest } := by
  induction hdr generalizing f c pb with
  | nil =>
    cases f with
    | zero => omega
    | succ f =>
      refine ⟨c, ?_⟩
      rw [skip_line_loop_succ _ _ h1 h2, sbumpc_cons _ 10 rest rfl,
        skip_line_loop_stop _ _ (Or.inr (by simp))]
      simp
  | cons b t ih =>
    cases f with
    | zero => omega
    | succ f =>
      rw [skip_line_loop_succ _ _ h1 h2, sbumpc_cons _ b (t ++ 10 :: rest) rfl]
      have hb : b ≠ 10 := fun e => hh (by simp [e])
      exact ih f (b : Int) c (natCast_ne_EOF b) (by omega) (fun e => hh (by simp [e]))
        (by simp at hf; omega)

theorem skip_line_header (hdr : List Nat) (c pb : Int) (rest : List Nat)
    (h1 : c ≠ EOF) (h2 : c ≠ 10) (hh : 10 ∉ hdr) :
    ∃ pb', file_parser_state.skip_line { base := c, pbase := pb, data := hdr ++ 10 :: rest } =
      { base := 10, pbase := pb', data := rest } :=
  skip_line_loop_header hdr _ c pb rest h1 h2 hh (by simp)

theorem skip_qual_loop_stop (f : Nat) (s : fastq_sequence_parser_state)
    (h : s.fp.base = EOF ∨ s.seq_len = 0) : fastq_sequence_parser_skip_qual_loop f s = s := by
  cases f with
  | zero => rfl
  | succ f =>
    rw [fastq_sequence_parser_skip_qual_loop, if_neg]
    rintro ⟨h1, h2⟩
    rcases h with h | h
    · exact h1 h
    · omega

theorem skip_qual_loop_succ (f : Nat) (c pb : Int) (d : List Nat) (n : Nat) (h1 : c ≠ EOF)
    (h2 : 0 < n) :
    fastq_sequence_parser_skip_qual_loop (f + 1)
        { fp := { base := c, pbase := pb, data := d }, seq_len := n } =
      fastq_sequence_parser_skip_qual_loop f
        { fp := file_parser_state.sbumpc { base := c, pbase := pb, data := d },
          seq_len := if c ≠ 10 then n - 1 else n } := by
  rw [fastq_sequence_parser_skip_qual_loop, if_pos ⟨h1, h2⟩]

/-- The quality loop counts `n` bytes other than newlines, the byte `base()` included when it
is not a newline, and stops having read one byte more. -/
theorem skip_qual_loop_count (pre : List Nat) (f : Nat) (c pb : Int) (q x : Nat)
    (rest : List Nat) (n : Nat) (h1 : c ≠ EOF) (hq : q ≠ 10)
    (hn : (pre.filter fun b => decide (b ≠ 10)).length + 1 + (if c = 10 then 0 else 1) = n)
    (hf : pre.length + 2 ≤ f) :
    fastq_sequence_parser_skip_qual_loop f
        { fp := { base := c, pbase := pb, data := pre ++ q :: x :: rest }, seq_len := n } =
      { fp := { base := (x : Int), pbase := (q : Int), data := rest }, seq_len := 0 } := by
  induction pre generalizing f c pb n with
  | nil =>
    match f, hf with
    | f + 2, _ =>
      have hn0 : 0 < n := by rw [← hn]; omega
      have hn1 : (if c ≠ 10 then n - 1 else n) = 1 := by
        by_cases hc : c = 10
        · simp [hc] at hn ⊢; omega
        · simp [hc] at hn ⊢; omega
      have hq' : ((q : Nat) : Int) ≠ 10 := by omega
      rw [skip_qual_loop_succ _ _ _ _ _ h1 hn0, hn1, List.nil_append,
        sbumpc_cons _ q (x :: rest) rfl,
        skip_qual_loop_succ _ _ _ _ _ (natCast_ne_EOF q) Nat.one_pos, if_pos hq',
        sbumpc_cons _ x rest rfl, skip_qual_loop_stop _ _ (Or.inr rfl)]
  | cons b t ih =>
    cases f with
    | zero => omega
    | succ f =>
      have hn0 : 0 < n := by rw [← hn]; omega
      rw [skip_qual_loop_succ _ _ _ _ _ h1 hn0, List.cons_append,
        sbumpc_cons _ b (t ++ q :: x :: rest) rfl]
      refine ih f (b : Int) c _ (natCast_ne_EOF b) ?_ (by simp at hf; omega)
      · by_cases hb : b = 10
        · have hb' : ((b : Nat) : Int) = 10 := by omega
          by_cases hc : c = 10 <;> simp [hb, hb', hc] at hn ⊢ <;> omega
        · have hb' : ((b : Nat) : Int) ≠ 10 := by omega
          by_cases hc : c = 10 <;> simp [hb, hb', hc] at hn ⊢ <;> omega

theorem skip_qual_count (pre : List Nat) (pb : Int) (q x : Nat) (rest : List Nat) (n : Nat)
    (hq : q ≠ 10) (hn : (pre.filter fun b => decide (b ≠ 10)).length + 1 = n) :
    fastq_sequence_parser_skip_qual ⟨⟨10, pb, pre ++ q :: x :: rest⟩, n⟩ =
      ⟨⟨(x : Int), (q : Int), rest⟩, 0⟩ :=
  skip_qual_loop_count pre _ 10 pb q x rest n (by simp [EOF]) hq (by simpa using hn)
    (by simp)

theorem skip_qual_zero (p : file_parser_state) :
    fastq_sequence_parser_skip_qual ⟨p, 0⟩ = ⟨p, 0⟩ :=
  skip_qual_loop_stop _ _ (Or.inr rfl)

theorem sbumpc_mk_cons (c pb : Int) (b : Nat) (rest : List Nat) :
    file_parser_state.sbumpc ⟨c, pb, b :: rest⟩ = ⟨(b : Int), c, rest⟩ := rfl

theorem sbumpc_mk_nil (c pb : Int) : file_parser_state.sbumpc ⟨c, pb, []⟩ = ⟨EOF, c, []⟩ := rfl

theorem fastq_out_eof (s : fastq_sequence_parser_state) (h : s.fp.base = EOF) :
    fastq_out s = [] :=
  run_out_eof _ _ _ _ (by simp [fastq_eof, h])

theorem fastq_out_unfold (s : fastq_sequence_parser_state) (h : s.fp.base ≠ EOF) :
    fastq_out s = (fastq_iter s).2 ++ fastq_out (fastq_iter s).1 :=
  run_out_unfold fastq_ok s (by simp [fastq_eof, h])

theorem fastq_iter_pbase (c pb pb' : Int) (d : List Nat) (n : Nat) :
    fastq_iter ⟨⟨c, pb, d⟩, n⟩ = fastq_iter ⟨⟨c, pb', d⟩, n⟩ := by
  cases d <;> simp [fastq_iter, file_parser_state.sbumpc]

theorem fastq_out_pbase (c pb pb' : Int) (d : List Nat) (n : Nat) :
    fastq_out ⟨⟨c, pb, d⟩, n⟩ = fastq_out ⟨⟨c, pb', d⟩, n⟩ := by
  by_cases h : c = EOF
  · rw [fastq_out_eof _ h, fastq_out_eof _ h]
  · rw [fastq_out_unfold ⟨⟨c, pb, d⟩, n⟩ h, fastq_out_unfold ⟨⟨c, pb', d⟩, n⟩ h,
      fastq_iter_pbase c pb pb']

theorem fastq_out_nil (c pb : Int) (n : Nat) : fastq_out ⟨⟨c, pb, []⟩, n⟩ = [] := by
  by_cases h : c = EOF
  · exact fastq_out_eof _ h
  · rw [fastq_out_unfold _ h]
    simp only [fastq_iter, sbumpc_mk_nil, if_true, List.nil_append]
    exact fastq_out_eof _ rfl

/-- An `@` at the start of a line: the line is skipped, `N` is written, `seq_len` is zero. -/
theorem fastq_out_at (pb : Int) (n : Nat) (hdr rest : List Nat) (hh : 10 ∉ hdr) :
    fastq_out ⟨⟨10, pb, 64 :: (hdr ++ 10 :: rest)⟩, n⟩ = 78 :: fastq_out ⟨⟨10, 10, rest⟩, 0⟩ := by
  rw [fastq_out_unfold _ (by simp [EOF])]
  obtain ⟨pb', e⟩ := skip_line_header hdr ((64 : Nat) : Int) 10 rest (natCast_ne_EOF 64)
    (by norm_num) hh
  simp only [fastq_iter, sbumpc_mk_cons]
  rw [if_neg (natCast_ne_EOF 64), if_pos (by norm_num), if_pos trivial]
  simp only [e, List.singleton_append]
  rw [fastq_out_pbase 10 pb' 10]

/-- The bytes of a sequence line are copied and counted. -/
theorem fastq_out_seq (seq : List Nat) (c pb : Int) (n : Nat) (rest : List Nat) (hc : c ≠ EOF)
    (hs : ∀ b ∈ seq, b ≠ 10 ∧ b ≠ 64 ∧ b ≠ 43) :
    fastq_out ⟨⟨c, pb, seq ++ 10 :: rest⟩, n⟩ =
      seq ++ fastq_out ⟨⟨10, 10, rest⟩, n + seq.length⟩ := by
  induction seq generalizing c pb n with
  | nil =>
    rw [fastq_out_unfold _ hc]
    simp only [fastq_iter, List.nil_append, sbumpc_mk_cons]
    rw [if_neg (natCast_ne_EOF 10), if_neg (by norm_num), if_neg (by norm_num),
      if_pos (by norm_num)]
    simp only [Nat.cast_ofNat, List.nil_append, List.length_nil, Nat.add_zero]
    exact fastq_out_pbase 10 c 10 rest n
  | cons b t ih =>
    obtain ⟨h10, h64, h43⟩ := hs b (List.mem_cons_self _ _)
    rw [fastq_out_unfold _ hc]
    simp only [fastq_iter, List.cons_append, sbumpc_mk_cons]
    rw [if_neg (natCast_ne_EOF b), if_neg (by omega), if_neg (by omega), if_neg (by omega)]
    simp only [Int.toNat_ofNat, List.singleton_append]
    rw [ih (b : Int) c (n + 1) (natCast_ne_EOF b) (fun d hd => hs d (List.mem_cons_of_mem _ hd))]
    simp only [List.length_cons]
    rw [Nat.add_right_comm, Nat.add_assoc]

/-- A `+` at the start of a line: the line is skipped, then the quality loop runs. -/
theorem fastq_iter_plus (pb : Int) (n : Nat) (hdr2 rest : List Nat) (hh : 10 ∉ hdr2) :
    ∃ pb', fastq_iter ⟨⟨10, pb, 43 :: (hdr2 ++ 10 :: rest)⟩, n⟩ =
      (fastq_sequence_parser_skip_qual ⟨⟨10, pb', rest⟩, n⟩, []) := by
  obtain ⟨pb', e⟩ := skip_line_header hdr2 ((43 : Nat) : Int) 10 rest (natCast_ne_EOF 43)
    (by norm_num) hh
  refine ⟨pb', ?_⟩
  simp only [fastq_iter, sbumpc_mk_cons]
  rw [if_neg (natCast_ne_EOF 43), if_neg (by norm_num), if_pos (by norm_num), if_pos trivial]
  simp only [e]

theorem fastq_out_quality_count (pb : Int) (n : Nat) (hdr2 pre : List Nat) (q x : Nat)
    (rest : List Nat) (hh : 10 ∉ hdr2) (hq : q ≠ 10)
    (hn : (pre.filter fun b => decide (b ≠ 10)).length + 1 = n) :
    fastq_out ⟨⟨10, pb, 43 :: (hdr2 ++ 10 :: (pre ++ q :: x :: rest))⟩, n⟩ =
      fastq_out ⟨⟨(x : Int), (q : Int), rest⟩, 0⟩ := by
  obtain ⟨pb', e⟩ := fastq_iter_plus pb n hdr2 (pre ++ q :: x :: rest) hh
  rw [fastq_out_unfold _ (by simp [EOF]), e, skip_qual_count pre pb' q x rest n hq hn]
  rfl

theorem fastq_out_quality (pb : Int) (n : Nat) (hdr2 qual rest : List Nat) (hh : 10 ∉ hdr2)
    (hq : 10 ∉ qual) (hn : qual.length = n) :
    fastq_out ⟨⟨10, pb, 43 :: (hdr2 ++ 10 :: (qual ++ 10 :: rest))⟩, n⟩ =
      fastq_out ⟨⟨10, 10, rest⟩, 0⟩ := by
  rcases List.eq_nil_or_concat qual with h0 | ⟨pre, q, h1⟩
  · subst h0
    obtain ⟨pb', e⟩ := fastq_iter_plus pb n hdr2 ([] ++ 10 :: rest) hh
    have hn0 : n = 0 := by simpa using hn.symm
    subst hn0
    rw [fastq_out_unfold _ (by simp [EOF]), e, skip_qual_zero]
    have := fastq_out_seq [] 10 pb' 0 rest (by simp [EOF]) (by simp)
    simpa using this
  · subst h1
    have hq10 : q ≠ 10 := fun e => hq (by simp [e])
    have hpre : (pre.filter fun b => decide (b ≠ 10)) = pre := by
      rw [List.filter_eq_self]
      intro a ha
      have : a ≠ 10 := fun e => hq (by simp [← e, ha])
      simpa using this
    have := fastq_out_quality_count pb n hdr2 pre q 10 rest hh hq10
      (by rw [hpre, ← hn]; simp)
    rw [List.concat_eq_append, List.append_assoc, List.singleton_append, this, Nat.cast_ofNat]
    exact fastq_out_pbase 10 q 10 rest 0

/-- One well-formed record: `N` and the sequence are written, nothing else. -/
theorem fastq_out_record (r : fastq_record) (hwf : r.well_formed) (pb : Int) (n : Nat)
    (rest : List Nat) :
    fastq_out ⟨⟨10, pb, r.bytes ++ rest⟩, n⟩ =
      78 :: r.sequence ++ fastq_out ⟨⟨10, 10, rest⟩, 0⟩ := by
  obtain ⟨h1, h2, h3, h4, h5⟩ := hwf
  have hb : r.bytes ++ rest = 64 :: (r.header ++ 10 :: (r.sequence ++ 10 ::
      (43 :: (r.header2 ++ 10 :: (r.quality ++ 10 :: rest))))) := by
    simp [fastq_record.bytes]
  rw [hb, fastq_out_at pb n _ _ h1, fastq_out_seq r.sequence 10 10 0 _ (by simp [EOF]) h2,
    fastq_out_quality 10 _ r.header2 r.quality rest h3 h4 (by rw [h5]; simp)]
  rfl

theorem fastq_out_records (rs : List fastq_record) (hwf : ∀ r ∈ rs, r.well_formed) (pb : Int)
    (n : Nat) :
    fastq_out ⟨⟨10, pb, (rs.map fastq_record.bytes).flatten⟩, n⟩ = fastq_ref rs := by
  induction rs generalizing pb n with
  | nil => simpa [fastq_ref] using fastq_out_nil 10 pb n
  | cons r rs ih =>
    simp only [List.map_cons, List.flatten_cons, fastq_ref]
    rw [fastq_out_record r (hwf r (List.mem_cons_self _ _)) pb n,
      ih (fun r' hr' => hwf r' (List.mem_cons_of_mem _ hr')) 10 0]
    rfl

/-- After any iteration of either loop, `base() == EOF` only with the whole input read. -/
theorem sbumpc_eof_nil (p : file_parser_state) (h : p.sbumpc.base = EOF) : p.sbumpc.data = [] := by
  cases hd : p.data with
  | nil => simp [sbumpc_nil p hd]
  | cons b rest =>
    rw [sbumpc_cons p b rest hd] at h
    exact absurd h (natCast_ne_EOF b)

theorem skip_line_loop_eof_nil (f : Nat) (p : file_parser_state)
    (hp : p.base = EOF → p.data = [])
    (h : (file_parser_state.skip_line_loop f p).base = EOF) :
    (file_parser_state.skip_line_loop f p).data = [] := by
  induction f generalizing p with
  | zero => exact hp h
  | succ f ih =>
    by_cases hc : p.base ≠ EOF ∧ p.base ≠ 10
    · rw [skip_line_loop_succ _ _ hc.1 hc.2] at h ⊢
      exact ih _ (sbumpc_eof_nil p) h
    · rw [file_parser_state.skip_line_loop, if_neg hc] at h ⊢
      exact hp h

theorem skip_qual_loop_eof_nil (f : Nat) (s : fastq_sequence_parser_state)
    (hp : s.fp.base = EOF → s.fp.data = [])
    (h : (fastq_sequence_parser_skip_qual_loop f s).fp.base = EOF) :
    (fastq_sequence_parser_skip_qual_loop f s).fp.data = [] := by
  induction f generalizing s with
  | zero => exact hp h
  | succ f ih =>
    by_cases hc : s.fp.base ≠ EOF ∧ s.seq_len > 0
    · rw [fastq_sequence_parser_skip_qual_loop, if_pos hc] at h ⊢
      exact ih _ (sbumpc_eof_nil s.fp) h
    · rw [fastq_sequence_parser_skip_qual_loop, if_neg hc] at h ⊢
      exact hp h

theorem fasta_iter_eof_nil (p : file_parser_state) (h : (fasta_iter p).1.base = EOF) :
    (fasta_iter p).1.data = [] := by
  have h1 := sbumpc_eof_nil p
  have h2 := skip_line_loop_eof_nil (p.sbumpc.data.length + 1) p.sbumpc h1
  simp only [fasta_iter] at h ⊢
  split_ifs at h ⊢ <;> first | exact h1 h | exact h2 h

theorem fastq_iter_eof_nil (s : fastq_sequence_parser_state)
    (h : (fastq_iter s).1.fp.base = EOF) : (fastq_iter s).1.fp.data = [] := by
  have h1 := sbumpc_eof_nil s.fp
  have h2 := skip_line_loop_eof_nil (s.fp.sbumpc.data.length + 1) s.fp.sbumpc h1
  have h3 := skip_qual_loop_eof_nil (s.fp.sbumpc.skip_line.data.length + 1)
    ⟨s.fp.sbumpc.skip_line, s.seq_len⟩ h2
  simp only [fastq_iter] at h ⊢
  split_ifs at h ⊢ <;> first | exact h1 h | exact h2 h | exact h3 h

theorem run_loop_inv {σ : Type} (eof : σ → Bool) (iter : σ → σ × List Nat) (P : σ → Prop)
    (hiter : ∀ s, P (iter s).1) (f cap : Nat) (s : σ) (out : List Nat) (hs : P s) :
    P (run_loop eof iter f cap s out).1 := by
  induction f generalizing cap s out with
  | zero => exact hs
  | succ f ih =>
    by_cases h : 0 < cap ∧ eof s = false
    · rw [run_loop_succ eof iter f cap s out h.1 h.2]
      exact ih _ _ _ (hiter s)
    · simp only [run_loop, if_neg h]
      exact hs

/-! ### The quality loop at the end of input -/

/-- The quality loop on data with fewer bytes other than newlines than are left to count: all the
data is read, the end of input is met, and `seq_len` keeps what was not counted. -/
theorem skip_qual_loop_short (d : List Nat) (f : Nat) (c pb : Int) (n : Nat) (h1 : c ≠ EOF)
    (hn : (d.filter fun b => decide (b ≠ 10)).length + (if c = 10 then 0 else 1) < n)
    (hf : d.length + 1 ≤ f) :
    ∃ pb', fastq_sequence_parser_skip_qual_loop f
        { fp := { base := c, pbase := pb, data := d }, seq_len := n } =
      { fp := { base := EOF, pbase := pb', data := [] },
        seq_len := n - ((d.filter fun b => decide (b ≠ 10)).length +
          (if c = 10 then 0 else 1)) } := by
  induction d generalizing f c pb n with
  | nil =>
    cases f with
    | zero => simp at hf
    | succ f =>
      have hn0 : 0 < n := by omega
      refine ⟨c, ?_⟩
      rw [skip_qual_loop_succ _ _ _ _ _ h1 hn0, sbumpc_mk_nil,
        skip_qual_loop_stop _ _ (Or.inl rfl)]
      by_cases hc : c = 10 <;> simp [hc]
  | cons b t ih =>
    cases f with
    | zero => simp at hf
    | succ f =>
      have hn0 : 0 < n := by omega
      rw [skip_qual_loop_succ _ _ _ _ _ h1 hn0, sbumpc_mk_cons]
      have hcount : ((b :: t).filter fun b => decide (b ≠ 10)).length =
          (t.filter fun b => decide (b ≠ 10)).length +
            (if ((b : Nat) : Int) = 10 then 0 else 1) := by
        by_cases hb : b = 10
        · have hb' : ((b : Nat) : Int) = 10 := by omega
          simp [hb]
        · have hb' : ((b : Nat) : Int) ≠ 10 := by omega
          simp [hb, hb']
      rw [hcount] at hn ⊢
      obtain ⟨pb', e⟩ := ih f (b : Int) c (if c ≠ 10 then n - 1 else n) (natCast_ne_EOF b)
        (by by_cases hc : c = 10 <;> simp [hc] at hn ⊢ <;> omega)
        (by simp at hf; omega)
      refine ⟨pb', ?_⟩
      rw [e]
      congr 1
      by_cases hc : c = 10
      · simp only [hc, ne_eq, not_true_eq_false, if_false, if_true]
        omega
      · simp only [hc, ne_eq, not_false_eq_true, if_true, if_false]
        omega

/-- The quality loop when the last byte it has to count is the last byte of the input: the
byte read after it is the end of input, and `seq_len` is zero. -/
theorem skip_qual_loop_count_end (pre : List Nat) (f : Nat) (c pb : Int) (q : Nat) (n : Nat)
    (h1 : c ≠ EOF) (hq : q ≠ 10)
    (hn : (pre.filter fun b => decide (b ≠ 10)).length + 1 + (if c = 10 then 0 else 1) = n)
    (hf : pre.length + 2 ≤ f) :
    fastq_sequence_parser_skip_qual_loop f
        { fp := { base := c, pbase := pb, data := pre ++ [q] }, seq_len := n } =
      { fp := { base := EOF, pbase := (q : Int), data := [] }, seq_len := 0 } := by
  induction pre generalizing f c pb n with
  | nil =>
    match f, hf with
    | f + 2, _ =>
      have hn0 : 0 < n := by rw [← hn]; omega
      have hn1 : (if c ≠ 10 then n - 1 else n) = 1 := by
        by_cases hc : c = 10
        · simp [hc] at hn ⊢; omega
        · simp [hc] at hn ⊢; omega
      have hq' : ((q : Nat) : Int) ≠ 10 := by omega
      rw [skip_qual_loop_succ _ _ _ _ _ h1 hn0, hn1, List.nil_append,
        sbumpc_mk_cons,
        skip_qual_loop_succ _ _ _ _ _ (natCast_ne_EOF q) Nat.one_pos, if_pos hq',
        sbumpc_mk_nil, skip_qual_loop_stop _ _ (Or.inr rfl)]
  | cons b t ih =>
    cases f with
    | zero => omega
    | succ f =>
      have hn0 : 0 < n := by rw [← hn]; omega
      rw [skip_qual_loop_succ _ _ _ _ _ h1 hn0, List.cons_append, sbumpc_mk_cons]
      refine ih f (b : Int) c _ (natCast_ne_EOF b) ?_ (by simp at hf; omega)
      · by_cases hb : b = 10
        · have hb' : ((b : Nat) : Int) = 10 := by omega
          by_cases hc : c = 10 <;> simp [hb, hb', hc] at hn ⊢ <;> omega
        · have hb' : ((b : Nat) : Int) ≠ 10 := by omega
          by_cases hc : c = 10 <;> simp [hb, hb', hc] at hn ⊢ <;> omega

theorem skip_qual_short (d : List Nat) (pb : Int) (n : Nat)
    (hn : (d.filter fun b => decide (b ≠ 10)).length < n) :
    ∃ pb', fastq_sequence_parser_skip_qual ⟨⟨10, pb, d⟩, n⟩ =
      ⟨⟨EOF, pb', []⟩, n - (d.filter fun b => decide (b ≠ 10)).length⟩ := by
  obtain ⟨pb', e⟩ := skip_qual_loop_short d (d.length + 1) 10 pb n (by simp [EOF])
    (by simpa using hn) (le_refl _)
  exact ⟨pb', by simpa using e⟩

theorem skip_qual_count_end (pre : List Nat) (pb : Int) (q : Nat) (n : Nat) (hq : q ≠ 10)
    (hn : (pre.filter fun b => decide (b ≠ 10)).length + 1 = n) :
    fastq_sequence_parser_skip_qual ⟨⟨10, pb, pre ++ [q]⟩, n⟩ = ⟨⟨EOF, (q : Int), []⟩, 0⟩ :=
  skip_qual_loop_count_end pre _ 10 pb q n (by simp [EOF]) hq (by simpa using hn) (by simp)

/-- A record from its `@` on, whatever follows its `+` line: `N` and the sequence are written,
and the quality loop starts on what follows the `+` line with `seq_len` the length of the
sequence. -/
theorem fastq_out_record_head (pb : Int) (n0 : Nat) (hdr seq hdr2 d : List Nat) (h1 : 10 ∉ hdr)
    (h2 : ∀ b ∈ seq, b ≠ 10 ∧ b ≠ 64 ∧ b ≠ 43) (h3 : 10 ∉ hdr2) :
    ∃ pb', fastq_out ⟨⟨10, pb, 64 :: (hdr ++ 10 :: (seq ++ 10 :: 43 :: (hdr2 ++ 10 :: d)))⟩, n0⟩ =
      78 :: seq ++ fastq_out (fastq_sequence_parser_skip_qual ⟨⟨10, pb', d⟩, seq.length⟩) := by
  obtain ⟨pb', e⟩ := fastq_iter_plus 10 (0 + seq.length) hdr2 d h3
  refine ⟨pb', ?_⟩
  rw [fastq_out_at pb n0 hdr _ h1,
    fastq_out_seq seq 10 10 0 (43 :: (hdr2 ++ 10 :: d)) (by simp [EOF]) h2,
    fastq_out_unfold _ (by simp [EOF]), e, Nat.zero_add]
  rfl

/-- A call whose buffer is larger than all that is left to write returns false. -/
theorem run_parse_ends {σ : Type} {eof : σ → Bool} {iter : σ → σ × List Nat} {size : σ → Nat}
    (ok : loop_ok eof iter size) (s : σ) (cap : Nat)
    (h : (run_out eof iter (size s + 1) s).length < cap) :
    (run_parse eof iter size s cap).more = false := by
  by_contra hm
  have hm' : (run_parse eof iter size s cap).more = true := by simpa using hm
  have hl := (run_parse_more ok s cap hm').1
  rw [run_parse_out ok, List.length_take] at hl
  omega

/-- Data either has fewer than `n` bytes other than newlines, or splits at the `n`-th of them. -/
theorem quality_split (d : List Nat) (n : Nat) (hn : 0 < n) :
    (d.filter fun b => decide (b ≠ 10)).length < n ∨
      ∃ (pre : List Nat) (q : Nat) (tl : List Nat), d = pre ++ q :: tl ∧ q ≠ 10 ∧
        (pre.filter fun b => decide (b ≠ 10)).length + 1 = n := by
  induction d generalizing n with
  | nil => exact Or.inl (by simpa using hn)
  | cons b t ih =>
    by_cases hb : b = 10
    · rcases ih n hn with h | ⟨pre, q, tl, h, hq, hc⟩
      · exact Or.inl (by simpa [hb] using h)
      · exact Or.inr ⟨b :: pre, q, tl, by rw [h]; rfl, hq, by simpa [hb] using hc⟩
    · by_cases h1 : n = 1
      · exact Or.inr ⟨[], b, t, rfl, hb, by simp [h1]⟩
      · rcases ih (n - 1) (by omega) with h | ⟨pre, q, tl, h, hq, hc⟩
        · refine Or.inl ?_
          rw [List.filter_cons_of_pos (by simpa using hb), List.length_cons]
          omega
        · refine Or.inr ⟨b :: pre, q, tl, by rw [h]; rfl, hq, ?_⟩
          rw [List.filter_cons_of_pos (by simpa using hb), List.length_cons]
          omega

/-! ### The claims about the parsers -/

/-- C3: read from a line boundary into a buffer large enough for the whole result,
`fasta_sequence_parser::parse` writes exactly the input with every line that begins with `>`
replaced by the single byte `N` and every newline byte removed; every other byte, a `>` that is
not at the start of a line included, is copied unchanged and in order. -/
theorem fasta_parse_ref (data : List Nat) (cap : Nat) (hcap : (fasta_ref data).length ≤ cap) :
    (fasta_sequence_parser_parse (file_parser_state.new data) cap).out = fasta_ref data := by
  rw [fasta_parse_eq, ← fasta_out_new]
  exact run_parse_large fasta_ok _ cap (by rw [← fasta_out, fasta_out_new]; exact hcap)

/-- The input `>s\nACGT\n` yields `NACGT`; in `>s\nA>C\n` the second `>` is copied. -/
theorem fasta_parse_ref_witness :
    ((fasta_ref [62, 115, 10, 65, 67, 71, 84, 10]).length ≤ 5 ∧
      (fasta_sequence_parser_parse (file_parser_state.new [62, 115, 10, 65, 67, 71, 84, 10]) 5).out
        = [78, 65, 67, 71, 84]) ∧
    (fasta_sequence_parser_parse (file_parser_state.new [62, 115, 10, 65, 62, 67, 10]) 4).out
      = [78, 65, 62, 67] :=
  ⟨⟨by decide, fasta_parse_ref [62, 115, 10, 65, 67, 71, 84, 10] 5 (by decide)⟩,
    fasta_parse_ref [62, 115, 10, 65, 62, 67, 10] 4 (by decide)⟩

/-- C4: for a well-formed FASTQ input read from a line boundary, a concatenation of records
`@` header newline sequence newline `+` header2 newline quality newline, and a buffer large
enough, `fastq_sequence_parser::parse` writes exactly, for each record in order, the byte `N`
followed by the sequence bytes of the record; no header byte and no quality byte is written,
whatever the quality bytes are. -/
theorem fastq_parse_well_formed (rs : List fastq_record) (cap : Nat)
    (hwf : ∀ r ∈ rs, r.well_formed) (hcap : (fastq_ref rs).length ≤ cap) :
    (fastq_sequence_parser_parse
      (fastq_sequence_parser_state.new (rs.map fastq_record.bytes).flatten) cap).out =
      fastq_ref rs := by
  have h := fastq_out_records rs hwf 10 0
  rw [fastq_parse_eq]
  have h2 := run_parse_large fastq_ok
    (fastq_sequence_parser_state.new (rs.map fastq_record.bytes).flatten) cap
    (by rw [← fastq_out]; simp only [fastq_sequence_parser_state.new, file_parser_state.new]
        rw [h]; exact hcap)
  rw [h2, ← fastq_out]
  exact h

/-- The input `@r\nACGT\n+\nIIII\n` yields `NACGT`; so does `@r\nACGT\n+\n@+II\n`, whose quality
line begins with `@`. -/
theorem fastq_parse_well_formed_witness :
    (fastq_sequence_parser_parse (fastq_sequence_parser_state.new
        [64, 114, 10, 65, 67, 71, 84, 10, 43, 10, 73, 73, 73, 73, 10]) 5).out
      = [78, 65, 67, 71, 84] ∧
    (fastq_sequence_parser_parse (fastq_sequence_parser_state.new
        [64, 114, 10, 65, 67, 71, 84, 10, 43, 10, 64, 43, 73, 73, 10]) 5).out
      = [78, 65, 67, 71, 84] :=
  ⟨fastq_parse_well_formed [⟨[114], [65, 67, 71, 84], [], [73, 73, 73, 73]⟩] 5
      (by simp [fastq_record.well_formed]) (by decide),
    fastq_parse_well_formed [⟨[114], [65, 67, 71, 84], [], [64, 43, 73, 73]⟩] 5
      (by simp [fastq_record.well_formed]) (by decide)⟩

/-- C6: `new_parser(path)` returns a FASTA parser when the peeked byte is `>`, a FASTQ parser
when it is `@`, and for every other peeked byte it fails with `FileParserError` and a message
that contains the path; it returns a parser for no other byte. -/
theorem new_parser_spec (path : String) (fd peek : Nat) (err_no : String) :
    (peek = 62 → new_parser_for_path path fd peek err_no = .ok (sequence_parser_kind.fasta fd)) ∧
    (peek = 64 → new_parser_for_path path fd peek err_no = .ok (sequence_parser_kind.fastq fd)) ∧
    (peek ≠ 62 → peek ≠ 64 → ∃ msg,
      new_parser_for_path path fd peek err_no = .error (parser_error.FileParserError msg) ∧
        path.data <:+: msg.data) ∧
    (∀ k, new_parser_for_path path fd peek err_no = .ok k → peek = 62 ∨ peek = 64) := by
  refine ⟨fun h => by simp [new_parser_for_path, h], fun h => by simp [new_parser_for_path, h], ?_, ?_⟩
  · intro h1 h2
    refine ⟨_, by simp only [new_parser_for_path, if_neg h1, if_neg h2]; rfl, ?_⟩
    exact ⟨("Invalid input file '").data, ("'" ++ err_no).data, by simp [String.data_append]⟩
  · intro k hk
    by_cases h1 : peek = 62
    · exact Or.inl h1
    · by_cases h2 : peek = 64
      · exact Or.inr h2
      · simp [new_parser_for_path, h1, h2] at hk

/-- A file that begins with `A` is refused, and the message names the path. -/
theorem new_parser_spec_witness :
    ∃ msg, new_parser_for_path "reads.txt" 3 65 "" = .error (parser_error.FileParserError msg) ∧
      "reads.txt".data <:+: msg.data :=
  (new_parser_spec "reads.txt" 3 65 "").2.2.1 (by decide) (by decide)

/-- C7 fails: on a record whose quality line has two bytes for a sequence of four, followed by a
second record, `fastq_sequence_parser::parse` returns normally (its result has no error to
report) and the output `NACGTGG` holds the sequence of the second record, whose header line was
read as quality values. -/
theorem fastq_short_quality_counterexample :
    fastq_sequence_parser_parse (fastq_sequence_parser_state.new
        [64, 114, 10, 65, 67, 71, 84, 10, 43, 10, 73, 73, 10,
          64, 115, 10, 71, 71, 10, 43, 10, 73, 73, 10]) 16 =
      { parser := ⟨⟨EOF, 10, []⟩, 0⟩, out := [78, 65, 67, 71, 84, 71, 71], more := false } := by
  decide

/-- C7 as amended: for a record read from a line boundary, whatever the state of the parser
and whatever follows the record, `parse` reports no error, also when the quality line is shorter
than the sequence line. After the `+` line the quality loop counts the bytes other than newlines
of all the data `d` that follows, the quality line first and then the lines after it, until it
has counted as many as the sequence has or the input ends. If the input ends before that many
are counted, or right after the last of them (`d = pre ++ [q]`), the calls write `N` and the
sequence and nothing more, and a call whose buffer has room for more returns false. If a byte
`x` follows the last counted byte `q`, it is read too and `parse` goes on from there with
`seq_len = 0`: the calls write `N`, the sequence, and what `parse` writes from that state for
the rest of the input. In each case a call with a buffer of capacity `cap` writes the first
`cap` of these bytes; and for a sequence that is not empty one of the three cases holds. -/
theorem fastq_parse_short_quality (S : fastq_sequence_parser_state) (pb : Int) (n0 : Nat)
    (hdr seq hdr2 d : List Nat)
    (hS : S = ⟨⟨10, pb, 64 :: (hdr ++ 10 :: (seq ++ 10 :: 43 :: (hdr2 ++ 10 :: d)))⟩, n0⟩)
    (h1 : 10 ∉ hdr) (h2 : ∀ b ∈ seq, b ≠ 10 ∧ b ≠ 64 ∧ b ≠ 43) (h3 : 10 ∉ hdr2) :
    ((d.filter fun b => decide (b ≠ 10)).length < seq.length →
      ∀ cap : Nat, (fastq_sequence_parser_parse S cap).out = (78 :: seq).take cap ∧
        (seq.length + 1 < cap → (fastq_sequence_parser_parse S cap).more = false)) ∧
    (∀ (pre : List Nat) (q : Nat), d = pre ++ [q] → q ≠ 10 →
      (pre.filter fun b => decide (b ≠ 10)).length + 1 = seq.length →
      ∀ cap : Nat, (fastq_sequence_parser_parse S cap).out = (78 :: seq).take cap ∧
        (seq.length + 1 < cap → (fastq_sequence_parser_parse S cap).more = false)) ∧
    (∀ (pre : List Nat) (q x : Nat) (rest : List Nat), d = pre ++ q :: x :: rest → q ≠ 10 →
      (pre.filter fun b => decide (b ≠ 10)).length + 1 = seq.length →
      ∀ cap N : Nat, rest.length ≤ N →
        (fastq_sequence_parser_parse S cap).out =
          (78 :: seq ++
            (fastq_sequence_parser_parse ⟨⟨(x : Int), (q : Int), rest⟩, 0⟩ N).out).take cap) ∧
    (0 < seq.length →
      (d.filter fun b => decide (b ≠ 10)).length < seq.length ∨
      (∃ (pre : List Nat) (q : Nat), d = pre ++ [q] ∧ q ≠ 10 ∧
        (pre.filter fun b => decide (b ≠ 10)).length + 1 = seq.length) ∨
      (∃ (pre : List Nat) (q x : Nat) (rest : List Nat), d = pre ++ q :: x :: rest ∧ q ≠ 10 ∧
        (pre.filter fun b => decide (b ≠ 10)).length + 1 = seq.length)) := by
  obtain ⟨pb', e⟩ := fastq_out_record_head pb n0 hdr seq hdr2 d h1 h2 h3
  rw [← hS] at e
  have hout : ∀ cap : Nat, (fastq_sequence_parser_parse S cap).out = (fastq_out S).take cap := by
    intro cap
    rw [fastq_parse_eq, run_parse_out fastq_ok]
    rfl
  have hend : fastq_out S = 78 :: seq →
      ∀ cap : Nat, (fastq_sequence_parser_parse S cap).out = (78 :: seq).take cap ∧
        (seq.length + 1 < cap → (fastq_sequence_parser_parse S cap).more = false) := by
    intro e' cap
    refine ⟨by rw [hout, e'], fun hcap => ?_⟩
    rw [fastq_parse_eq]
    refine run_parse_ends fastq_ok S cap ?_
    have hl : (fastq_out S).length = seq.length + 1 := by rw [e']; rfl
    rw [fastq_out] at hl
    omega
  refine ⟨?_, ?_, ?_, ?_⟩
  · intro hlt
    obtain ⟨pb'', e2⟩ := skip_qual_short d pb' seq.length hlt
    rw [e2, fastq_out_eof ⟨⟨EOF, pb'', []⟩, _⟩ rfl, List.append_nil] at e
    exact hend e
  · intro pre q hd hq hn
    rw [hd, skip_qual_count_end pre pb' q seq.length hq hn,
      fastq_out_eof ⟨⟨EOF, (q : Int), []⟩, 0⟩ rfl, List.append_nil] at e
    exact hend e
  · intro pre q x rest hd hq hn cap N hN
    rw [hd, skip_qual_count pre pb' q x rest seq.length hq hn] at e
    have hR := run_out_length_le fastq_ok ⟨⟨(x : Int), (q : Int), rest⟩, 0⟩
    rw [hout, e, fastq_parse_eq ⟨⟨(x : Int), (q : Int), rest⟩, 0⟩ N,
      run_parse_large fastq_ok _ N (le_trans hR hN)]
    rfl
  · intro hpos
    rcases quality_split d seq.length hpos with h | ⟨pre, q, tl, hd, hq, hn⟩
    · exact Or.inl h
    · cases tl with
      | nil => exact Or.inr (Or.inl ⟨pre, q, hd, hq, hn⟩)
      | cons x rest => exact Or.inr (Or.inr ⟨pre, q, x, rest, hd, hq, hn⟩)

/-- On `@r\nACGT\n+\nII\n`, where the input ends with two bytes still to count: the output is
`NACGT` and `parse` returns false. On the input of the counterexample: the two quality bytes,
then `@` and `s` of the next line are counted, the newline after them is read, and `parse`
goes on with `GG`. -/
theorem fastq_parse_short_quality_witness :
    ((fastq_sequence_parser_parse (fastq_sequence_parser_state.new
        [64, 114, 10, 65, 67, 71, 84, 10, 43, 10, 73, 73, 10]) 16).out =
        [78, 65, 67, 71, 84] ∧
      (fastq_sequence_parser_parse (fastq_sequence_parser_state.new
        [64, 114, 10, 65, 67, 71, 84, 10, 43, 10, 73, 73, 10]) 16).more = false) ∧
    (fastq_sequence_parser_parse (fastq_sequence_parser_state.new
        [64, 114, 10, 65, 67, 71, 84, 10, 43, 10, 73, 73, 10,
          64, 115, 10, 71, 71, 10, 43, 10, 73, 73, 10]) 16).out =
      (78 :: [65, 67, 71, 84] ++
        (fastq_sequence_parser_parse ⟨⟨10, 115, [71, 71, 10, 43, 10, 73, 73, 10]⟩, 0⟩ 8).out).take
          16 :=
  ⟨⟨((fastq_parse_short_quality
        (fastq_sequence_parser_state.new [64, 114, 10, 65, 67, 71, 84, 10, 43, 10, 73, 73, 10])
        10 0 [114] [65, 67, 71, 84] [] [73, 73, 10] rfl (by decide) (by decide) (by decide)).1
        (by decide) 16).1,
      ((fastq_parse_short_quality
        (fastq_sequence_parser_state.new [64, 114, 10, 65, 67, 71, 84, 10, 43, 10, 73, 73, 10])
        10 0 [114] [65, 67, 71, 84] [] [73, 73, 10] rfl (by decide) (by decide) (by decide)).1
        (by decide) 16).2 (by decide)⟩,
    (fastq_parse_short_quality
      (fastq_sequence_parser_state.new [64, 114, 10, 65, 67, 71, 84, 10, 43, 10, 73, 73, 10,
        64, 115, 10, 71, 71, 10, 43, 10, 73, 73, 10])
      10 0 [114] [65, 67, 71, 84] [] [73, 73, 10, 64, 115, 10, 71, 71, 10, 43, 10, 73, 73, 10]
      rfl (by decide) (by decide) (by decide)).2.2.1
      [73, 73, 10, 64] 115 10 [71, 71, 10, 43, 10, 73, 73, 10] rfl (by decide) (by decide)
      16 8 (by decide)⟩

/-- C15: for both parsers, every parser state and every capacity `cap = *end - start`, one call
`parse(start, end)` writes at most `cap` bytes: the bytes written are `out`, stored from `start`
on, so they lie in `[start, old *end)` and the new `*end = start + out.length` is between `start`
and the old `*end`, also when a header or a quality block is skipped during the call. -/
theorem parse_within_buffer (p : file_parser_state) (s : fastq_sequence_parser_state)
    (cap : Nat) :
    (fasta_sequence_parser_parse p cap).out.length ≤ cap ∧
      (fastq_sequence_parser_parse s cap).out.length ≤ cap := by
  constructor
  · have h := run_loop_length_le fasta_eof fasta_iter fasta_ok.len (p.data.length + 1) cap p []
    simpa [fasta_sequence_parser_parse, fasta_loop_eq] using h
  · have h := run_loop_length_le fastq_eof fastq_iter fastq_ok.len (s.fp.data.length + 1) cap s []
    simpa [fastq_sequence_parser_parse, fastq_loop_eq] using h

/-- C16: for both parsers and every input, the outputs of successive `parse` calls, made until
one returns false, add up to the output of a single call with a buffer large enough for the whole
result, whatever the capacities of the buffers are, so the sum is the same for every choice of
capacities. The whole result is never longer than the input, so a buffer as large as the input is
large enough; and with positive capacities the calls do end: one more call than the input has
bytes is always enough. -/
theorem parse_calls_any_capacities (p : file_parser_state) (s : fastq_sequence_parser_state)
    (caps caps' : List Nat) (N : Nat) :
    (((parse_calls fasta_sequence_parser_parse p caps).2 = false →
        (parse_calls fasta_sequence_parser_parse p caps).1.length ≤ N →
        (parse_calls fasta_sequence_parser_parse p caps).1 =
          (fasta_sequence_parser_parse p N).out) ∧
      ((parse_calls fasta_sequence_parser_parse p caps).2 = false →
        (parse_calls fasta_sequence_parser_parse p caps').2 = false →
        (parse_calls fasta_sequence_parser_parse p caps).1 =
          (parse_calls fasta_sequence_parser_parse p caps').1) ∧
      ((parse_calls fasta_sequence_parser_parse p caps).2 = false →
        (parse_calls fasta_sequence_parser_parse p caps).1.length ≤ p.data.length) ∧
      ((∀ c ∈ caps, 0 < c) → p.data.length + 1 ≤ caps.length →
        (parse_calls fasta_sequence_parser_parse p caps).2 = false)) ∧
    (((parse_calls fastq_sequence_parser_parse s caps).2 = false →
        (parse_calls fastq_sequence_parser_parse s caps).1.length ≤ N →
        (parse_calls fastq_sequence_parser_parse s caps).1 =
          (fastq_sequence_parser_parse s N).out) ∧
      ((parse_calls fastq_sequence_parser_parse s caps).2 = false →
        (parse_calls fastq_sequence_parser_parse s caps').2 = false →
        (parse_calls fastq_sequence_parser_parse s caps).1 =
          (parse_calls fastq_sequence_parser_parse s caps').1) ∧
      ((parse_calls fastq_sequence_parser_parse s caps).2 = false →
        (parse_calls fastq_sequence_parser_parse s caps).1.length ≤ s.fp.data.length) ∧
      ((∀ c ∈ caps, 0 < c) → s.fp.data.length + 1 ≤ caps.length →
        (parse_calls fastq_sequence_parser_parse s caps).2 = false)) := by
  have ea : fasta_sequence_parser_parse = run_parse fasta_eof fasta_iter fasta_size := by
    funext p cap; exact fasta_parse_eq p cap
  have eq : fastq_sequence_parser_parse = run_parse fastq_eof fastq_iter fastq_size := by
    funext s cap; exact fastq_parse_eq s cap
  rw [ea, eq]
  refine ⟨⟨?_, ?_, ?_, ?_⟩, ?_, ?_, ?_, ?_⟩
  · intro h hN
    rw [parse_calls_spec fasta_ok caps p h] at hN ⊢
    rw [run_parse_large fasta_ok p N hN]
  · intro h h'
    rw [parse_calls_spec fasta_ok caps p h, parse_calls_spec fasta_ok caps' p h']
  · intro h
    rw [parse_calls_spec fasta_ok caps p h]
    exact run_out_length_le fasta_ok p
  · intro hpos hlen
    exact parse_calls_ends fasta_ok caps p hpos hlen
  · intro h hN
    rw [parse_calls_spec fastq_ok caps s h] at hN ⊢
    rw [run_parse_large fastq_ok s N hN]
  · intro h h'
    rw [parse_calls_spec fastq_ok caps s h, parse_calls_spec fastq_ok caps' s h']
  · intro h
    rw [parse_calls_spec fastq_ok caps s h]
    exact run_out_length_le fastq_ok s
  · intro hpos hlen
    exact parse_calls_ends fastq_ok caps s hpos hlen

/-- The input `>aaaaaaaaa\nAC\n` read into buffers of capacities 2 and 2: the calls end and write
`NAC`, which is what a single call with a buffer of capacity 3 writes. The input
`@r\nACGT\n+\nIIII\n` read into buffers of capacities 1, 1, 1, 1, 1, 7: the calls end and write
`NACGT`, as a single call with a buffer of capacity 5 does. -/
theorem parse_calls_any_capacities_witness :
    parse_calls fasta_sequence_parser_parse
        (file_parser_state.new [62, 97, 97, 97, 97, 97, 97, 97, 97, 97, 10, 65, 67, 10])
        [2, 2] =
      ((fasta_sequence_parser_parse
        (file_parser_state.new [62, 97, 97, 97, 97, 97, 97, 97, 97, 97, 10, 65, 67, 10]) 3).out,
        false) ∧
    parse_calls fastq_sequence_parser_parse
        (fastq_sequence_parser_state.new
          [64, 114, 10, 65, 67, 71, 84, 10, 43, 10, 73, 73, 73, 73, 10]) [1, 1, 1, 1, 1, 7] =
      ((fastq_sequence_parser_parse (fastq_sequence_parser_state.new
          [64, 114, 10, 65, 67, 71, 84, 10, 43, 10, 73, 73, 73, 73, 10]) 5).out, false) :=
  ⟨Prod.ext
      ((parse_calls_any_capacities
        (file_parser_state.new [62, 97, 97, 97, 97, 97, 97, 97, 97, 97, 10, 65, 67, 10])
        (fastq_sequence_parser_state.new []) [2, 2] [] 3).1.1 (by decide) (by decide))
      (by decide),
    Prod.ext
      ((parse_calls_any_capacities (file_parser_state.new [])
        (fastq_sequence_parser_state.new
          [64, 114, 10, 65, 67, 71, 84, 10, 43, 10, 73, 73, 73, 73, 10])
        [1, 1, 1, 1, 1, 7] [] 5).2.1 (by decide) (by decide))
      (by decide)⟩

/-- C17: for both parsers and every parser state, `parse` returns false exactly when `base()`
is `EOF` on return, that is when the end of input has been read, in this call or before it
(and then, for a parser that had not read past its input, no input is left); when it returns
true the call has filled the buffer; and a call made after the end of input has been read
writes nothing, changes nothing and returns false. -/
theorem parse_return_value (p : file_parser_state) (s : fastq_sequence_parser_state)
    (cap : Nat) :
    (((fasta_sequence_parser_parse p cap).more = false ↔
        (fasta_sequence_parser_parse p cap).parser.base = EOF) ∧
      ((fasta_sequence_parser_parse p cap).more = true →
        (fasta_sequence_parser_parse p cap).out.length = cap) ∧
      (p.base = EOF → fasta_sequence_parser_parse p cap = ⟨p, [], false⟩) ∧
      ((p.base = EOF → p.data = []) → (fasta_sequence_parser_parse p cap).more = false →
        (fasta_sequence_parser_parse p cap).parser.data = [])) ∧
    (((fastq_sequence_parser_parse s cap).more = false ↔
        (fastq_sequence_parser_parse s cap).parser.fp.base = EOF) ∧
      ((fastq_sequence_parser_parse s cap).more = true →
        (fastq_sequence_parser_parse s cap).out.length = cap) ∧
      (s.fp.base = EOF → fastq_sequence_parser_parse s cap = ⟨s, [], false⟩) ∧
      ((s.fp.base = EOF → s.fp.data = []) → (fastq_sequence_parser_parse s cap).more = false →
        (fastq_sequence_parser_parse s cap).parser.fp.data = [])) := by
  refine ⟨⟨?_, ?_, ?_, ?_⟩, ⟨?_, ?_, ?_, ?_⟩⟩
  · simp [fasta_sequence_parser_parse]
  · intro h
    rw [fasta_parse_eq] at h ⊢
    exact (run_parse_more fasta_ok p cap h).1
  · intro h
    rw [fasta_parse_eq]
    exact run_parse_eof _ _ _ p cap (by simp [fasta_eof, h])
  · intro hp h
    have hb : (fasta_sequence_parser_parse p cap).parser.base = EOF := by
      simpa [fasta_sequence_parser_parse] using h
    have hi := run_loop_inv fasta_eof fasta_iter (fun q => q.base = EOF → q.data = [])
      fasta_iter_eof_nil (p.data.length + 1) cap p [] hp
    simp only [fasta_sequence_parser_parse, fasta_loop_eq] at hb ⊢
    exact hi hb
  · simp [fastq_sequence_parser_parse]
  · intro h
    rw [fastq_parse_eq] at h ⊢
    exact (run_parse_more fastq_ok s cap h).1
  · intro h
    rw [fastq_parse_eq]
    exact run_parse_eof _ _ _ s cap (by simp [fastq_eof, h])
  · intro hp h
    have hb : (fastq_sequence_parser_parse s cap).parser.fp.base = EOF := by
      simpa [fastq_sequence_parser_parse] using h
    have hi := run_loop_inv fastq_eof fastq_iter (fun q => q.fp.base = EOF → q.fp.data = [])
      fastq_iter_eof_nil (s.fp.data.length + 1) cap s [] hp
    simp only [fastq_sequence_parser_parse, fastq_loop_eq] at hb ⊢
    exact hi hb

/-- On the input `AC` a call with capacity 2 returns true with the buffer full, the next call
returns false having written nothing, and so does every call after it. -/
theorem parse_return_value_witness :
    (fasta_sequence_parser_parse (file_parser_state.new [65, 67]) 2).out.length = 2 ∧
    fasta_sequence_parser_parse ⟨EOF, 67, []⟩ 2 = ⟨⟨EOF, 67, []⟩, [], false⟩ ∧
    (fastq_sequence_parser_parse ⟨⟨67, 65, []⟩, 2⟩ 2).parser.fp.data = [] :=
  ⟨(parse_return_value (file_parser_state.new [65, 67]) (fastq_sequence_parser_state.new []) 2).1.2.1
      (by decide),
    (parse_return_value ⟨EOF, 67, []⟩ (fastq_sequence_parser_state.new []) 2).1.2.2.1 rfl,
    (parse_return_value (file_parser_state.new []) ⟨⟨67, 65, []⟩, 2⟩ 2).2.2.2.2 (by decide)
      (by decide)⟩

/-! ## The rectangular binary matrix -/

theorem init_columns_spec (c k : Nat) (hk : k ≤ c) :
    ((List.range k).foldl (fun cols i => cols.set (c - 1 - i) (1 <<< i))
        (List.replicate c 0)).length = c ∧
      ∀ j, ((List.range k).foldl (fun cols i => cols.set (c - 1 - i) (1 <<< i))
          (List.replicate c 0)).getD j 0 =
        if j < c ∧ c - 1 - j < k then 1 <<< (c - 1 - j) else 0 := by
  induction k with
  | zero =>
    refine ⟨by simp, fun j => ?_⟩
    simp only [List.range_zero, List.foldl_nil, Nat.not_lt_zero, and_false, if_false]
    by_cases hj : j < c
    · simp [List.getD_eq_getElem?_getD, List.getElem?_replicate, hj]
    · simp [List.getD_eq_getElem?_getD, List.getElem?_replicate, hj]
  | succ k ih =>
    obtain ⟨hl, hg⟩ := ih (by omega)
    rw [List.range_succ, List.foldl_append]
    simp only [List.foldl_cons, List.foldl_nil]
    refine ⟨by rw [List.length_set]; exact hl, fun j => ?_⟩
    have hgj := hg j
    rw [List.getD_eq_getElem?_getD] at hgj ⊢
    rw [List.getElem?_set]
    by_cases hjk : c - 1 - k = j
    · have h1 : c - 1 - k < c := by omega
      rw [if_pos hjk, hl, if_pos h1, if_pos ⟨by omega, by omega⟩]
      have : c - 1 - j = k := by omega
      rw [this]; rfl
    · rw [if_neg hjk, hgj]
      by_cases hj : j < c
      · by_cases h2 : c - 1 - j < k
        · rw [if_pos ⟨hj, h2⟩, if_pos ⟨hj, by omega⟩]
        · rw [if_neg (fun h => h2 h.2), if_neg (fun h => by omega)]
      · rw [if_neg (fun h => hj h.1), if_neg (fun h => hj h.1)]

theorem init_low_identity_get (m : RectangularBinaryMatrix) (hr : m.r ≤ m.c) (j : Nat) :
    m.init_low_identity.get j =
      if j < m.c ∧ m.c - 1 - j < m.r then 1 <<< (m.c - 1 - j) else 0 :=
  (init_columns_spec m.c m.r hr).2 j

theorem foldl_if_filter (P : Nat → Bool) (g : Nat → Nat) (l : List Nat) (a : Nat) :
    l.foldl (fun res j => if P j then res ^^^ g j else res) a =
      ((l.filter P).map g).foldl (fun a b => a ^^^ b) a := by
  induction l generalizing a with
  | nil => rfl
  | cons x t ih =>
    by_cases hx : P x = true
    · simp [List.filter_cons, hx, ih]
    · simp [List.filter_cons, hx, ih]

theorem xor_list_perm (l₁ l₂ : List Nat) (h : l₁.Perm l₂) : xor_list l₁ = xor_list l₂ := by
  unfold xor_list
  apply List.Perm.foldl_eq' h
  intro x _ y _ z
  rw [Nat.xor_assoc, Nat.xor_comm x y, ← Nat.xor_assoc]

theorem range_flip (c : Nat) : (List.range c).map (fun j => c - 1 - j) = (List.range c).reverse := by
  have h := List.reverse_range' 0 c
  rw [← List.range_eq_range'] at h
  rw [h]
  simp

/-- Selecting the columns `c - 1 - j` for the `j` that satisfy `P` is selecting the columns `i`
that satisfy `Q`, when `Q (c - 1 - j) = P j`. -/
theorem xor_list_flip (P Q : Nat → Bool) (g : Nat → Nat) (c : Nat)
    (hPQ : ∀ j, j < c → Q (c - 1 - j) = P j) :
    xor_list (((List.range c).filter P).map fun j => g (c - 1 - j)) =
      xor_list (((List.range c).filter Q).map g) := by
  have e1 : (((List.range c).filter P).map fun j => g (c - 1 - j)) =
      (((List.range c).filter P).map fun j => c - 1 - j).map g := by
    rw [List.map_map]; rfl
  have e2 : (List.range c).filter P = (List.range c).filter (Q ∘ fun j => c - 1 - j) := by
    apply List.filter_congr
    intro j hj
    rw [Function.comp_apply, hPQ j (List.mem_range.mp hj)]
  have e3 : ((List.range c).filter P).map (fun j => c - 1 - j) =
      (List.range c).reverse.filter Q := by
    rw [e2, ← List.filter_map, range_flip]
  rw [e1, e3]
  apply xor_list_perm
  exact ((List.reverse_perm _).filter Q).map g

theorem times_loop_eq (m : RectangularBinaryMatrix) (v : List Nat) :
    m.times_loop v =
      xor_list (((List.range m.c).filter (vector_bit v)).map fun j => m.get (m.c - 1 - j)) :=
  foldl_if_filter (vector_bit v) (fun j => m.get (m.c - 1 - j)) (List.range m.c) 0

theorem vector_bit_word (v : List Nat) (w : Nat) (hv : ∀ x ∈ v, x = w) (j : Nat)
    (hj : j < 64 * v.length) : vector_bit v j = w.testBit (j % 64) := by
  have hlt : j / 64 < v.length := by omega
  have : v.getD (j / 64) 0 = w := by
    rw [List.getD_eq_getElem _ _ hlt]
    exact hv _ (List.getElem_mem _)
  rw [vector_bit, this]

theorem testBit_aa (i : Nat) (hi : i < 64) :
    Nat.testBit 0xaaaaaaaaaaaaaaaa i = decide (i % 2 = 1) := by
  revert i
  decide

/-! ### Products with a block of columns -/

theorem xor_xor_cancel (a b m : Nat) : (a ^^^ m) ^^^ (b ^^^ m) = a ^^^ b := by
  apply Nat.eq_of_testBit_eq
  intro i
  simp only [Nat.testBit_xor]
  generalize a.testBit i = x
  generalize b.testBit i = y
  generalize m.testBit i = z
  cases x <;> cases y <;> cases z <;> rfl

theorem xor_right_comm (a b m : Nat) : a ^^^ b ^^^ m = a ^^^ m ^^^ b := by
  rw [Nat.xor_assoc, Nat.xor_comm b m, ← Nat.xor_assoc]

theorem xor_left_comm (a b m : Nat) : a ^^^ (b ^^^ m) = b ^^^ (a ^^^ m) := by
  rw [← Nat.xor_assoc, Nat.xor_comm a b, Nat.xor_assoc]

theorem apply_cols_zero (cols : List Nat) : apply_cols cols 0 = 0 := by
  induction cols with
  | nil => rfl
  | cons w rest ih => simp [apply_cols, ih]

theorem apply_cols_xor (cols : List Nat) (a b : Nat) :
    apply_cols cols (a ^^^ b) = apply_cols cols a ^^^ apply_cols cols b := by
  induction cols generalizing a b with
  | nil => simp [apply_cols]
  | cons w rest ih =>
    simp only [apply_cols, Nat.xor_div_two, ih, Nat.testBit_xor]
    by_cases ha : Nat.testBit a 0 = true <;> by_cases hb : Nat.testBit b 0 = true
    · simp only [ha, hb, bne_self_eq_false, Bool.false_eq_true, if_false, if_true, Nat.zero_xor]
      rw [Nat.xor_assoc, xor_left_comm (apply_cols rest (a / 2)), ← Nat.xor_assoc,
        Nat.xor_self, Nat.zero_xor]
    · have hb' : Nat.testBit b 0 = false := by simpa using hb
      simp only [ha, hb', Bool.bne_false, if_true, Bool.false_eq_true, if_false, Nat.zero_xor,
        Nat.xor_assoc]
    · have ha' : Nat.testBit a 0 = false := by simpa using ha
      simp only [ha', hb, Bool.false_bne, if_true, Bool.false_eq_true, if_false, Nat.zero_xor]
      rw [xor_left_comm]
    · have ha' : Nat.testBit a 0 = false := by simpa using ha
      have hb' : Nat.testBit b 0 = false := by simpa using hb
      simp only [ha', hb', bne_self_eq_false, Bool.false_eq_true, if_false, Nat.zero_xor]

theorem apply_cols_append_singleton (cols : List Nat) (w x : Nat) :
    apply_cols (cols ++ [w]) x =
      apply_cols cols x ^^^ (if x.testBit cols.length then w else 0) := by
  induction cols generalizing x with
  | nil => simp [apply_cols]
  | cons v rest ih =>
    rw [List.cons_append, apply_cols, apply_cols, ih, List.length_cons, Nat.testBit_succ,
      Nat.xor_assoc]

theorem mod_two_pow_succ_xor (x k : Nat) :
    x % 2 ^ (k + 1) = x % 2 ^ k ^^^ (if x.testBit k then 2 ^ k else 0) := by
  apply Nat.eq_of_testBit_eq
  intro i
  rw [Nat.testBit_xor, Nat.testBit_mod_two_pow, Nat.testBit_mod_two_pow]
  by_cases hx : x.testBit k = true
  · rw [if_pos hx, Nat.testBit_two_pow]
    by_cases hik : k = i
    · subst hik; simp [hx]
    · have : ¬ (i = k) := fun e => hik e.symm
      by_cases hlt : i < k
      · simp [hik, hlt, Nat.lt_succ_of_lt hlt]
      · have : ¬ i < k + 1 := by omega
        simp [hik, hlt, this]
  · rw [if_neg hx]
    by_cases hik : i = k
    · subst hik; simp [hx]
    · by_cases hlt : i < k
      · simp [hlt, Nat.lt_succ_of_lt hlt]
      · have : ¬ i < k + 1 := by omega
        simp [hlt, this]

theorem apply_cols_identity (k x : Nat) :
    apply_cols ((List.range k).map fun j => 2 ^ j) x = x % 2 ^ k := by
  induction k with
  | zero => simp [apply_cols, Nat.mod_one]
  | succ k ih =>
    rw [List.range_succ, List.map_append, List.map_singleton, apply_cols_append_singleton, ih,
      List.length_map, List.length_range, mod_two_pow_succ_xor]

theorem apply_cols_map (E : Nat → Nat) (hE0 : E 0 = 0)
    (hE : ∀ a b, E (a ^^^ b) = E a ^^^ E b) (cols : List Nat) (x : Nat) :
    apply_cols (cols.map E) x = E (apply_cols cols x) := by
  induction cols generalizing x with
  | nil => simp [apply_cols, hE0]
  | cons w rest ih =>
    simp only [List.map_cons, apply_cols, ih, hE]
    by_cases h : x.testBit 0 = true
    · simp [h]
    · simp [h, hE0]

theorem apply_cols_take (cols : List Nat) (k x : Nat) (hx : x < 2 ^ k) :
    apply_cols cols x = apply_cols (cols.take k) x := by
  induction cols generalizing k x with
  | nil => simp
  | cons w rest ih =>
    cases k with
    | zero =>
      have : x = 0 := by simpa using hx
      subst this
      simp [apply_cols_zero]
    | succ k =>
      simp only [List.take_succ_cons, apply_cols]
      rw [ih k (x / 2) (by rw [pow_succ] at hx; omega)]

theorem apply_cols_two_pow (cols : List Nat) (k : Nat) (hk : k < cols.length) :
    apply_cols cols (2 ^ k) = cols.getD k 0 := by
  induction cols generalizing k with
  | nil => simp at hk
  | cons w rest ih =>
    cases k with
    | zero => simp [apply_cols, apply_cols_zero]
    | succ k =>
      have h2 : 2 ^ (k + 1) / 2 = 2 ^ k := by rw [pow_succ]; omega
      have h0 : (2 ^ (k + 1)).testBit 0 = false := Nat.testBit_two_pow_of_ne (by omega)
      simp only [apply_cols, h0, h2, Bool.false_eq_true, if_false, Nat.zero_xor]
      rw [ih k (by simpa using hk)]
      simp

theorem apply_cols_lt (r : Nat) (cols : List Nat) (hc : ∀ w ∈ cols, w < 2 ^ r) (x : Nat) :
    apply_cols cols x < 2 ^ r := by
  induction cols generalizing x with
  | nil => simp [apply_cols]
  | cons w rest ih =>
    simp only [apply_cols]
    apply Nat.xor_lt_two_pow
    · split
      · exact hc w (List.mem_cons_self _ _)
      · positivity
    · exact ih (fun v hv => hc v (List.mem_cons_of_mem _ hv)) _

/-! ### Row operations -/

theorem row_op_zero (p mask : Nat) : row_op p mask 0 = 0 := by
  simp [row_op]

theorem row_op_xor (p mask a b : Nat) :
    row_op p mask (a ^^^ b) = row_op p mask a ^^^ row_op p mask b := by
  simp only [row_op, Nat.testBit_xor]
  by_cases ha : Nat.testBit a p = true <;> by_cases hb : Nat.testBit b p = true
  · simp only [ha, hb, bne_self_eq_false, Bool.false_eq_true, if_false, if_true]
    rw [xor_xor_cancel]
  · have hb' : Nat.testBit b p = false := by simpa using hb
    simp only [ha, hb', Bool.bne_false, if_true, Bool.false_eq_true, if_false]
    rw [xor_right_comm]
  · have ha' : Nat.testBit a p = false := by simpa using ha
    simp only [ha', hb, Bool.false_bne, if_true, Bool.false_eq_true, if_false]
    rw [Nat.xor_assoc]
  · have ha' : Nat.testBit a p = false := by simpa using ha
    have hb' : Nat.testBit b p = false := by simpa using hb
    simp only [ha', hb', bne_self_eq_false, Bool.false_eq_true, if_false]

theorem row_op_invol (p mask w : Nat) (hm : mask.testBit p = false) :
    row_op p mask (row_op p mask w) = w := by
  by_cases hw : w.testBit p = true
  · have h1 : row_op p mask w = w ^^^ mask := by simp [row_op, hw]
    have h2 : (w ^^^ mask).testBit p = true := by simp [hw, hm]
    rw [h1]
    simp only [row_op, h2, if_true]
    rw [Nat.xor_assoc, Nat.xor_self, Nat.xor_zero]
  · have h1 : row_op p mask w = w := by simp [row_op, hw]
    rw [h1, h1]

theorem row_op_lt (r p mask w : Nat) (hm : mask < 2 ^ r) (hw : w < 2 ^ r) :
    row_op p mask w < 2 ^ r := by
  simp only [row_op]
  split
  · exact Nat.xor_lt_two_pow hw hm
  · exact hw

theorem row_op_fix (p mask w : Nat) (hw : w.testBit p = false) : row_op p mask w = w := by
  simp [row_op, hw]

theorem run_ops_append (ops ops' : List (Nat × Nat)) (w : Nat) :
    run_ops (ops ++ ops') w = run_ops ops' (run_ops ops w) := by
  simp [run_ops, List.foldl_append]

theorem run_ops_zero (ops : List (Nat × Nat)) : run_ops ops 0 = 0 := by
  induction ops with
  | nil => rfl
  | cons op rest ih =>
    simp only [run_ops, List.foldl_cons, row_op_zero] at ih ⊢
    exact ih

theorem run_ops_xor (ops : List (Nat × Nat)) (a b : Nat) :
    run_ops ops (a ^^^ b) = run_ops ops a ^^^ run_ops ops b := by
  induction ops generalizing a b with
  | nil => rfl
  | cons op rest ih =>
    simp only [run_ops, List.foldl_cons, row_op_xor] at ih ⊢
    exact ih _ _

theorem run_ops_inj (r : Nat) (ops : List (Nat × Nat)) (hok : ops_ok r ops) (a b : Nat)
    (h : run_ops ops a = run_ops ops b) : a = b := by
  induction ops generalizing a b with
  | nil => exact h
  | cons op rest ih =>
    simp only [run_ops, List.foldl_cons] at h ih
    have h1 := ih (fun o ho => hok o (List.mem_cons_of_mem _ ho)) _ _ h
    have hm := (hok op (List.mem_cons_self _ _)).1
    rw [← row_op_invol op.1 op.2 a hm, h1, row_op_invol op.1 op.2 b hm]

theorem run_ops_lt (r : Nat) (ops : List (Nat × Nat)) (hok : ops_ok r ops) (w : Nat)
    (hw : w < 2 ^ r) : run_ops ops w < 2 ^ r := by
  induction ops generalizing w with
  | nil => exact hw
  | cons op rest ih =>
    simp only [run_ops, List.foldl_cons] at ih ⊢
    exact ih (fun o ho => hok o (List.mem_cons_of_mem _ ho)) _
      (row_op_lt r _ _ _ (hok op (List.mem_cons_self _ _)).2 hw)

/-! ### The elimination -/

theorem find_range'_some (c k n i : Nat)
    (h : (List.range' k n).find? (fun j => c.testBit j) = some i) :
    k ≤ i ∧ i < k + n ∧ c.testBit i = true ∧ ∀ j, k ≤ j → j < i → c.testBit j = false := by
  induction n generalizing k with
  | zero => simp at h
  | succ n ih =>
    rw [List.range'_succ, List.find?_cons] at h
    by_cases hk : c.testBit k = true
    · simp only [hk] at h
      have : k = i := by simpa using h
      subst this
      exact ⟨le_refl _, by omega, hk, fun j h1 h2 => by omega⟩
    · have hk' : c.testBit k = false := by simpa using hk
      simp only [hk'] at h
      obtain ⟨h1, h2, h3, h4⟩ := ih (k + 1) h
      refine ⟨by omega, by omega, h3, fun j hj1 hj2 => ?_⟩
      by_cases hjk : j = k
      · subst hjk; exact hk'
      · exact h4 j (by omega) hj2

theorem pivot_some (r k c i : Nat) (hk : k ≤ r) (h : pivot r k c = some i) :
    k ≤ i ∧ i < r ∧ c.testBit i = true ∧ ∀ j, k ≤ j → j < i → c.testBit j = false := by
  obtain ⟨h1, h2, h3, h4⟩ := find_range'_some c k (r - k) i h
  exact ⟨h1, by omega, h3, h4⟩

theorem pivot_none (r k c : Nat) (h : pivot r k c = none) (j : Nat) (h1 : k ≤ j) (h2 : j < r) :
    c.testBit j = false := by
  have h' := List.find?_eq_none.mp h j (by rw [List.mem_range']; exact ⟨j - k, by omega, by omega⟩)
  simpa using h'

theorem clear_bit_testBit (k c : Nat) : (clear_bit k c).testBit k = false := by
  by_cases h : c.testBit k = true
  · simp [clear_bit, h, Nat.testBit_two_pow_self]
  · have h' : c.testBit k = false := by simpa using h
    simp [clear_bit, h']

theorem clear_bit_lt (r k c : Nat) (hk : k < r) (hc : c < 2 ^ r) : clear_bit k c < 2 ^ r := by
  simp only [clear_bit]
  split
  · exact Nat.xor_lt_two_pow hc (Nat.pow_lt_pow_right (by norm_num) hk)
  · exact hc

/-- Stage `k` brings column `k` to `2^k` and leaves the columns before it as they are. -/
theorem stage_ops_spec (r k i c : Nat) (hk : k < r) (hc : c < 2 ^ r) (hki : k ≤ i)
    (hi : c.testBit i = true) (hlow : ∀ j, k ≤ j → j < i → c.testBit j = false) :
    ops_ok r (stage_ops k i c) ∧ run_ops (stage_ops k i c) c = 2 ^ k ∧
      ∀ j, j < k → run_ops (stage_ops k i c) (2 ^ j) = 2 ^ j := by
  by_cases hik : i = k
  · subst hik
    have e : stage_ops i i c = [(i, clear_bit i c)] := by simp [stage_ops]
    rw [e]
    refine ⟨?_, ?_, ?_⟩
    · intro op hop
      have : op = (i, clear_bit i c) := by simpa using hop
      subst this
      exact ⟨clear_bit_testBit i c, clear_bit_lt r i c hk hc⟩
    · simp only [run_ops, List.foldl_cons, List.foldl_nil, row_op, hi, if_true, clear_bit]
      rw [← Nat.xor_assoc, Nat.xor_self, Nat.zero_xor]
    · intro j hj
      simp only [run_ops, List.foldl_cons, List.foldl_nil]
      exact row_op_fix _ _ _ (Nat.testBit_two_pow_of_ne (by omega))
  · have hck : c.testBit k = false := hlow k (le_refl _) (by omega)
    have e : stage_ops k i c = [(i, 2 ^ k), (k, c)] := by
      simp [stage_ops, hik, clear_bit, hck]
    rw [e]
    refine ⟨?_, ?_, ?_⟩
    · intro op hop
      simp only [List.mem_cons, List.mem_singleton, List.not_mem_nil, or_false] at hop
      rcases hop with rfl | rfl
      · exact ⟨Nat.testBit_two_pow_of_ne (by omega), Nat.pow_lt_pow_right (by norm_num) hk⟩
      · exact ⟨hck, hc⟩
    · have h1 : row_op i (2 ^ k) c = c ^^^ 2 ^ k := by simp [row_op, hi]
      have h2 : (c ^^^ 2 ^ k).testBit k = true := by
        simp [hck, Nat.testBit_two_pow_self]
      simp only [run_ops, List.foldl_cons, List.foldl_nil, h1]
      simp only [row_op, h2, if_true]
      rw [Nat.xor_comm c (2 ^ k), Nat.xor_assoc, Nat.xor_self, Nat.xor_zero]
    · intro j hj
      simp only [run_ops, List.foldl_cons, List.foldl_nil]
      rw [row_op_fix i _ _ (Nat.testBit_two_pow_of_ne (by omega)),
        row_op_fix k _ _ (Nat.testBit_two_pow_of_ne (by omega))]

theorem ops_ok_append (r : Nat) (a b : List (Nat × Nat)) (ha : ops_ok r a) (hb : ops_ok r b) :
    ops_ok r (a ++ b) := by
  intro op hop
  rcases List.mem_append.mp hop with h | h
  · exact ha op h
  · exact hb op h

/-- A column without pivot is the combination of the columns before it that the row operations
show: the block sends two different vectors to the same place. -/
theorem eliminate_stuck (R : List Nat) (r k : Nat) (ops : List (Nat × Nat)) (hlen : R.length = r)
    (hR : ∀ w ∈ R, w < 2 ^ r) (hk : k < r) (hok : ops_ok r ops)
    (hinv : ∀ j, j < k → run_ops ops (R.getD j 0) = 2 ^ j)
    (hp : pivot r k (run_ops ops (R.getD k 0)) = none) :
    run_ops ops (R.getD k 0) < 2 ^ k ∧
      apply_cols R (2 ^ k) = apply_cols R (run_ops ops (R.getD k 0)) := by
  have hRk : R.getD k 0 < 2 ^ r := by
    rw [List.getD_eq_getElem _ _ (by omega)]
    exact hR _ (List.getElem_mem _)
  have hcr : run_ops ops (R.getD k 0) < 2 ^ r := run_ops_lt r ops hok _ hRk
  have hck : run_ops ops (R.getD k 0) < 2 ^ k := by
    apply Nat.lt_pow_two_of_testBit
    intro i hi
    by_cases hir : i < r
    · exact pivot_none r k _ hp i hi hir
    · exact Nat.testBit_lt_two_pow
        (lt_of_lt_of_le hcr (Nat.pow_le_pow_right (by norm_num) (by omega)))
  refine ⟨hck, ?_⟩
  apply run_ops_inj r ops hok
  have htake : (R.map (run_ops ops)).take k = (List.range k).map fun j => 2 ^ j := by
    apply List.ext_getElem
    · simp; omega
    · intro j h1 h2
      simp only [List.length_take, List.length_map] at h1
      have hj : j < k := by omega
      have hjr : j < R.length := by omega
      simp only [List.getElem_take, List.getElem_map, List.getElem_range]
      rw [← hinv j hj, List.getD_eq_getElem _ _ hjr]
  rw [← apply_cols_map (run_ops ops) (run_ops_zero ops) (run_ops_xor ops),
    ← apply_cols_map (run_ops ops) (run_ops_zero ops) (run_ops_xor ops),
    apply_cols_two_pow _ k (by simp; omega),
    apply_cols_take _ k _ hck, htake, apply_cols_identity, Nat.mod_eq_of_lt hck]
  simp [List.getD_eq_getElem?_getD, List.getElem?_map]
  rw [List.getElem?_eq_getElem (by omega)]
  simp

theorem eliminate_spec (R : List Nat) (r : Nat) (hlen : R.length = r)
    (hR : ∀ w ∈ R, w < 2 ^ r) (n k : Nat) (ops : List (Nat × Nat)) (hkn : k + n = r)
    (hok : ops_ok r ops) (hinv : ∀ j, j < k → run_ops ops (R.getD j 0) = 2 ^ j) :
    (∀ ops', eliminate R r (List.range' k n) ops = some ops' →
      ops_ok r ops' ∧ ∀ j, j < r → run_ops ops' (R.getD j 0) = 2 ^ j) ∧
    (eliminate R r (List.range' k n) ops = none →
      ∃ x y, x < 2 ^ r ∧ y < 2 ^ r ∧ x ≠ y ∧ apply_cols R x = apply_cols R y) := by
  induction n generalizing k ops with
  | zero =>
    constructor
    · intro ops' h
      simp only [List.range'_zero, eliminate, Option.some.injEq] at h
      subst h
      exact ⟨hok, fun j hj => hinv j (by omega)⟩
    · intro h
      simp [eliminate] at h
  | succ n ih =>
    have hk : k < r := by omega
    have hRk : R.getD k 0 < 2 ^ r := by
      rw [List.getD_eq_getElem _ _ (by omega)]
      exact hR _ (List.getElem_mem _)
    have hc := run_ops_lt r ops hok _ hRk
    rw [List.range'_succ]
    cases hp : pivot r k (run_ops ops (R.getD k 0)) with
    | none =>
      constructor
      · intro ops' h
        simp only [eliminate, hp] at h
        cases h
      · intro _
        obtain ⟨h1, h2⟩ := eliminate_stuck R r k ops hlen hR hk hok hinv hp
        exact ⟨2 ^ k, run_ops ops (R.getD k 0), Nat.pow_lt_pow_right (by norm_num) hk, hc,
          by omega, h2⟩
    | some i =>
      obtain ⟨p1, p2, p3, p4⟩ := pivot_some r k _ i (by omega) hp
      obtain ⟨s1, s2, s3⟩ := stage_ops_spec r k i _ hk hc p1 p3 p4
      have hok' := ops_ok_append r ops _ hok s1
      have hinv' : ∀ j, j < k + 1 →
          run_ops (ops ++ stage_ops k i (run_ops ops (R.getD k 0))) (R.getD j 0) = 2 ^ j := by
        intro j hj
        rw [run_ops_append]
        by_cases hjk : j = k
        · subst hjk; exact s2
        · rw [hinv j (by omega)]
          exact s3 j (by omega)
      have := ih (k + 1) _ (by omega) hok' hinv'
      simp only [eliminate, hp]
      exact this

/-! ### Rank and inverse -/

theorem span_card_le (R : List Nat) : span_card R ≤ 2 ^ R.length := by
  unfold span_card
  exact le_trans Finset.card_image_le (by simp)

theorem span_card_pos (R : List Nat) : 0 < span_card R := by
  unfold span_card
  rw [Finset.card_pos]
  exact ⟨apply_cols R 0, Finset.mem_image.mpr ⟨0, by simp, rfl⟩⟩

theorem span_card_lt (R : List Nat) (x y : Nat) (hx : x < 2 ^ R.length)
    (hy : y < 2 ^ R.length) (hne : x ≠ y) (he : apply_cols R x = apply_cols R y) :
    span_card R < 2 ^ R.length := by
  have hle := span_card_le R
  have hne' : span_card R ≠ 2 ^ R.length := by
    unfold span_card
    intro h
    have h' : ((Finset.range (2 ^ R.length)).image (apply_cols R)).card =
        (Finset.range (2 ^ R.length)).card := by rw [h]; simp
    have hinj := Finset.card_image_iff.mp h'
    exact hne (hinj (by simpa using hx) (by simpa using hy) he)
  omega

theorem right_block_length (m : RectangularBinaryMatrix) (hv : m.valid) :
    m.right_block.length = m.r := by
  obtain ⟨_, _, h3, h4, _⟩ := hv
  simp only [RectangularBinaryMatrix.right_block, List.length_reverse, List.length_drop, h4]
  omega

theorem right_block_lt (m : RectangularBinaryMatrix) (hv : m.valid) :
    ∀ w ∈ m.right_block, w < 2 ^ m.r := by
  intro w hw
  simp only [RectangularBinaryMatrix.right_block, List.mem_reverse] at hw
  exact hv.2.2.2.2 w (List.mem_of_mem_drop hw)

theorem pseudo_rank_le (m : RectangularBinaryMatrix) (hv : m.valid) : m.pseudo_rank ≤ m.c := by
  have h1 := Nat.findGreatest_le (P := fun k => 2 ^ k ≤ span_card m.right_block)
    m.right_block.length
  rw [right_block_length m hv] at h1
  have h3 := hv.2.2.1
  unfold RectangularBinaryMatrix.pseudo_rank
  rw [right_block_length m hv]
  omega

theorem pseudo_rank_full (m : RectangularBinaryMatrix) (hv : m.valid)
    (hrank : m.pseudo_rank = m.c) : 2 ^ m.r ≤ span_card m.right_block := by
  have hlen := right_block_length m hv
  have h3 := hv.2.2.1
  have h1 := hv.1
  unfold RectangularBinaryMatrix.pseudo_rank at hrank
  rw [hlen] at hrank
  have hfg : Nat.findGreatest (fun k => 2 ^ k ≤ span_card m.right_block) m.r = m.r := by omega
  exact (Nat.findGreatest_eq_iff.mp hfg).2.1 (by omega)

/-- With full pseudo-rank the elimination goes through, and its result is a left inverse of the
right block. -/
theorem gauss_jordan_spec (m : RectangularBinaryMatrix) (hv : m.valid)
    (hrank : m.pseudo_rank = m.c) :
    ∃ X, gauss_jordan m.right_block m.r = some X ∧ X.length = m.r ∧ (∀ w ∈ X, w < 2 ^ m.r) ∧
      m.right_block.map (apply_cols X) = (List.range m.r).map fun j => 2 ^ j := by
  have hlen := right_block_length m hv
  have hR := right_block_lt m hv
  obtain ⟨hs, hn⟩ := eliminate_spec m.right_block m.r hlen hR m.r 0 [] (by omega)
    (fun op hop => by simp at hop) (fun j hj => by omega)
  rw [← List.range_eq_range'] at hs hn
  cases he : eliminate m.right_block m.r (List.range m.r) [] with
  | none =>
    obtain ⟨x, y, hx, hy, hne, hxy⟩ := hn he
    have hlt := span_card_lt m.right_block x y (by rw [hlen]; exact hx) (by rw [hlen]; exact hy)
      hne hxy
    rw [hlen] at hlt
    have h2 := pseudo_rank_full m hv hrank
    omega
  | some ops =>
    obtain ⟨hok, hcols⟩ := hs ops he
    have hX : ∀ y, y < 2 ^ m.r →
        apply_cols ((List.range m.r).map fun j => run_ops ops (2 ^ j)) y = run_ops ops y := by
      intro y hy
      have e : ((List.range m.r).map fun j => run_ops ops (2 ^ j)) =
          ((List.range m.r).map fun j => 2 ^ j).map (run_ops ops) := by
        rw [List.map_map]; rfl
      rw [e, apply_cols_map (run_ops ops) (run_ops_zero ops) (run_ops_xor ops),
        apply_cols_identity, Nat.mod_eq_of_lt hy]
    refine ⟨(List.range m.r).map fun j => run_ops ops (2 ^ j), by simp [gauss_jordan, he],
      by simp, ?_, ?_⟩
    · intro w hw
      obtain ⟨j, hj, rfl⟩ := List.mem_map.mp hw
      exact run_ops_lt m.r ops hok _
        (Nat.pow_lt_pow_right (by norm_num) (List.mem_range.mp hj))
    · apply List.ext_getElem
      · simp [hlen]
      · intro j h1 h2
        have hj : j < m.r := by simpa using h2
        have hjl : j < m.right_block.length := by omega
        simp only [List.getElem_map, List.getElem_range]
        rw [hX _ (hR _ (List.getElem_mem _)), ← hcols j hj,
          List.getD_eq_getElem _ _ hjl]

theorem zipWith_map_self (X : List Nat) (L : List Nat) :
    List.zipWith (fun x y => x ^^^ apply_cols X y) (L.map (apply_cols X)) L =
      List.replicate L.length 0 := by
  induction L with
  | nil => rfl
  | cons a t ih =>
    simp only [List.map_cons, List.zipWith_cons_cons, ih, Nat.xor_self, List.length_cons,
      List.replicate_succ]

/-- The columns `0, …, 0, 2^(r-1), …, 2, 1` pass the check of the low identity form. -/
theorem is_low_identity_columns (r c : Nat) (hr : r ≤ c) :
    RectangularBinaryMatrix.is_low_identity
      ⟨r, c, List.replicate (c - r) 0 ++ ((List.range r).map fun j => 2 ^ j).reverse⟩ = true := by
  simp only [RectangularBinaryMatrix.is_low_identity, List.all_eq_true, List.mem_range,
    decide_eq_true_eq, RectangularBinaryMatrix.get]
  intro j hj
  rw [List.getD_eq_getElem?_getD]
  by_cases h : j < c - r
  · rw [List.getElem?_append_left (by simpa using h), if_neg (by omega)]
    simp [List.getElem?_replicate, h]
  · rw [List.getElem?_append_right (by simp; omega), if_pos (by omega)]
    simp only [List.length_replicate]
    rw [List.getElem?_reverse (by simp; omega)]
    simp only [List.length_map, List.length_range]
    rw [List.getElem?_map, List.getElem?_range (by omega)]
    simp only [Option.map_some', Option.getD_some, Nat.one_shiftLeft]
    congr 1
    omega

/-- The model of `pseudo_multiplication` on the unit test `Identity`, in small: the low identity
times a matrix is that matrix. -/
theorem pseudo_multiplication_identity_example :
    RectangularBinaryMatrix.pseudo_multiplication
        (RectangularBinaryMatrix.init_low_identity ⟨3, 5, [0, 0, 0, 0, 0]⟩)
        ⟨3, 5, [1, 2, 7, 3, 5]⟩ =
      .ok ⟨3, 5, [1, 2, 7, 3, 5]⟩ := by
  rfl

/-- The model of `pseudo_multiplication` on the unit test `Parity`, in small: with every column
equal to `b`, the square has the left columns equal to `b` and the right columns zero when `b`
has an even number of bits, and the other way round when it has an odd number. -/
theorem pseudo_multiplication_parity_example :
    RectangularBinaryMatrix.pseudo_multiplication ⟨3, 5, [3, 3, 3, 3, 3]⟩
        ⟨3, 5, [3, 3, 3, 3, 3]⟩ = .ok ⟨3, 5, [3, 3, 0, 0, 0]⟩ ∧
      RectangularBinaryMatrix.pseudo_multiplication ⟨3, 5, [7, 7, 7, 7, 7]⟩
        ⟨3, 5, [7, 7, 7, 7, 7]⟩ = .ok ⟨3, 5, [0, 0, 7, 7, 7]⟩ := by
  constructor <;> rfl

/-- C11: constructing `RectangularBinaryMatrix(r, c)` fails with an out-of-range error when
`r = 0`, `c = 0`, `r > 64` or `c < r`, and for every other `(r, c)` it yields the zero matrix
whose `r()` is `r` and whose `c()` is `c`. -/
theorem RectangularBinaryMatrix.new_spec (r c : Nat) :
    (r = 0 ∨ c = 0 ∨ r > 64 ∨ c < r →
      RectangularBinaryMatrix.new r c = .error matrix_error.out_of_range) ∧
    (¬ (r = 0 ∨ c = 0 ∨ r > 64 ∨ c < r) →
      ∃ m, RectangularBinaryMatrix.new r c = .ok m ∧ m.r = r ∧ m.c = c ∧
        m.is_zero = true ∧ m.columns.length = c ∧ m.valid) := by
  constructor
  · intro h
    simp only [RectangularBinaryMatrix.new, if_pos h]
  · intro h
    refine ⟨⟨r, c, List.replicate c 0⟩, by simp only [RectangularBinaryMatrix.new, if_neg h],
      rfl, rfl, ?_, by simp, ?_⟩
    · simp [RectangularBinaryMatrix.is_zero]
    · refine ⟨show 1 ≤ r by omega, show r ≤ 64 by omega, show r ≤ c by omega, by simp, ?_⟩
      intro w hw
      rw [List.eq_of_mem_replicate hw]
      positivity

/-- The sizes of the unit test `InitSizes`: `(5, 60)` gives a zero `5 × 60` matrix, and
`(100, 100)`, `(0, 100)`, `(10, 0)` and `(10, 6)` are rejected. -/
theorem RectangularBinaryMatrix.new_spec_witness :
    (∃ m, RectangularBinaryMatrix.new 5 60 = .ok m ∧ m.r = 5 ∧ m.c = 60 ∧
        m.is_zero = true ∧ m.columns.length = 60 ∧ m.valid) ∧
      RectangularBinaryMatrix.new 100 100 = .error matrix_error.out_of_range ∧
      RectangularBinaryMatrix.new 0 100 = .error matrix_error.out_of_range ∧
      RectangularBinaryMatrix.new 10 0 = .error matrix_error.out_of_range ∧
      RectangularBinaryMatrix.new 10 6 = .error matrix_error.out_of_range :=
  ⟨(RectangularBinaryMatrix.new_spec 5 60).2 (by decide),
    (RectangularBinaryMatrix.new_spec 100 100).1 (by decide),
    (RectangularBinaryMatrix.new_spec 0 100).1 (by decide),
    (RectangularBinaryMatrix.new_spec 10 0).1 (by decide),
    (RectangularBinaryMatrix.new_spec 10 6).1 (by decide)⟩

/-- C12: for every valid `r × c` matrix, after `init_low_identity()` column `c - 1` equals 1,
column `c - 1 - i` equals column `c - i` shifted left by one bit for `0 < i < r` (so it is
`1 << i`), the columns `0 .. c - r - 1` are zero and `is_low_identity()` returns true; and
`is_low_identity()` returns false on the zero matrix. -/
theorem RectangularBinaryMatrix.init_low_identity_spec (m : RectangularBinaryMatrix)
    (hv : m.valid) :
    m.init_low_identity.get (m.c - 1) = 1 ∧
      (∀ i, 0 < i → i < m.r →
        m.init_low_identity.get (m.c - 1 - i) =
            (m.init_low_identity.get (m.c - i) <<< 1) % 2 ^ 64 ∧
          m.init_low_identity.get (m.c - 1 - i) = 1 <<< i) ∧
      (∀ j, j < m.c - m.r → m.init_low_identity.get j = 0) ∧
      m.init_low_identity.is_low_identity = true ∧
      m.init_low_identity.r = m.r ∧ m.init_low_identity.c = m.c ∧
      (∀ z, RectangularBinaryMatrix.new m.r m.c = .ok z → z.is_low_identity = false) := by
  obtain ⟨h1, h64, hrc, _, _⟩ := hv
  have hget := init_low_identity_get m hrc
  refine ⟨?_, ?_, ?_, ?_, rfl, rfl, ?_⟩
  · rw [hget, if_pos ⟨by omega, by omega⟩]
    have : m.c - 1 - (m.c - 1) = 0 := by omega
    rw [this]; rfl
  · intro i hi hir
    have e1 : m.init_low_identity.get (m.c - 1 - i) = 1 <<< i := by
      rw [hget, if_pos ⟨by omega, by omega⟩]
      have : m.c - 1 - (m.c - 1 - i) = i := by omega
      rw [this]
    have e2 : m.init_low_identity.get (m.c - i) = 1 <<< (i - 1) := by
      rw [hget, if_pos ⟨by omega, by omega⟩]
      have : m.c - 1 - (m.c - i) = i - 1 := by omega
      rw [this]
    refine ⟨?_, e1⟩
    rw [e1, e2, Nat.shiftLeft_eq, Nat.shiftLeft_eq, Nat.shiftLeft_eq, one_mul, one_mul, ← pow_succ]
    have hi1 : i - 1 + 1 = i := by omega
    rw [hi1]
    exact (Nat.mod_eq_of_lt (Nat.pow_lt_pow_right (by norm_num) (by omega))).symm
  · intro j hj
    rw [hget, if_neg (fun h => by omega)]
  · simp only [RectangularBinaryMatrix.is_low_identity, List.all_eq_true, List.mem_range,
      decide_eq_true_eq]
    intro j hj
    have hc : m.init_low_identity.c = m.c := rfl
    have hr : m.init_low_identity.r = m.r := rfl
    rw [hc, hr, hget j]
    by_cases h2 : m.c - 1 - j < m.r
    · rw [if_pos ⟨hj, h2⟩, if_pos h2]
    · rw [if_neg (fun h => h2 h.2), if_neg h2]
  · intro z hz
    have hnot : ¬ (m.r = 0 ∨ m.c = 0 ∨ m.r > 64 ∨ m.c < m.r) := by omega
    simp only [RectangularBinaryMatrix.new, if_neg hnot, Except.ok.injEq] at hz
    subst hz
    rw [Bool.eq_false_iff]
    intro hall
    simp only [RectangularBinaryMatrix.is_low_identity, List.all_eq_true, List.mem_range,
      decide_eq_true_eq] at hall
    have h := hall (m.c - 1) (by omega)
    have h0 : m.c - 1 - (m.c - 1) = 0 := by omega
    rw [h0, if_pos (by omega)] at h
    simp only [RectangularBinaryMatrix.get, List.getD_eq_getElem?_getD,
      List.getElem?_replicate] at h
    rw [if_pos (by omega)] at h
    simp at h

/-- A `2 × 3` matrix with arbitrary columns: after `init_low_identity()` the columns are
`0, 2, 1`. -/
theorem RectangularBinaryMatrix.init_low_identity_spec_witness :
    (RectangularBinaryMatrix.init_low_identity ⟨2, 3, [3, 1, 2]⟩).get 2 = 1 ∧
      (RectangularBinaryMatrix.init_low_identity ⟨2, 3, [3, 1, 2]⟩).is_low_identity = true :=
  ⟨(RectangularBinaryMatrix.init_low_identity_spec ⟨2, 3, [3, 1, 2]⟩
      (by simp [RectangularBinaryMatrix.valid])).1,
    (RectangularBinaryMatrix.init_low_identity_spec ⟨2, 3, [3, 1, 2]⟩
      (by simp [RectangularBinaryMatrix.valid])).2.2.2.1⟩

/-- C13: for every matrix `m` and every bit vector `v` given as 64-bit words, `times_loop(v)` is
the XOR of the columns `m[c - 1 - j]` over the bit positions `j < c` set in `v`, bit `j` taken
from word `j / 64`, low bit first. For `v` all ones it is the XOR of all columns; for every word
of `v` equal to `0xaaaaaaaaaaaaaaaa` it is the XOR of the odd-indexed columns when `c` is odd and
of the even-indexed columns when `c` is even. -/
theorem RectangularBinaryMatrix.times_loop_spec (m : RectangularBinaryMatrix) (v : List Nat) :
    m.times_loop v =
        xor_list (((List.range m.c).filter fun j => (v.getD (j / 64) 0).testBit (j % 64)).map
          fun j => m.get (m.c - 1 - j)) ∧
      ((∀ w ∈ v, w = 2 ^ 64 - 1) → m.c ≤ 64 * v.length →
        m.times_loop v = xor_list ((List.range m.c).map m.get)) ∧
      ((∀ w ∈ v, w = 0xaaaaaaaaaaaaaaaa) → m.c ≤ 64 * v.length →
        (m.c % 2 = 1 → m.times_loop v =
          xor_list (((List.range m.c).filter fun i => decide (i % 2 = 1)).map m.get)) ∧
        (m.c % 2 = 0 → m.times_loop v =
          xor_list (((List.range m.c).filter fun i => decide (i % 2 = 0)).map m.get))) := by
  refine ⟨times_loop_eq m v, ?_, ?_⟩
  · intro hv hc
    rw [times_loop_eq, xor_list_flip (vector_bit v) (fun _ => true) m.get m.c]
    · simp
    · intro j hj
      rw [vector_bit_word v _ hv j (by omega), Nat.testBit_two_pow_sub_one]
      have : j % 64 < 64 := Nat.mod_lt _ (by norm_num)
      simp [this]
  · intro hv hc
    have hbit : ∀ j, j < m.c → vector_bit v j = decide (j % 2 = 1) := by
      intro j hj
      rw [vector_bit_word v _ hv j (by omega), testBit_aa _ (Nat.mod_lt _ (by norm_num))]
      have : j % 64 % 2 = j % 2 := by omega
      rw [this]
    constructor
    · intro hodd
      rw [times_loop_eq]
      apply xor_list_flip
      intro j hj
      rw [hbit j hj]
      have : (m.c - 1 - j) % 2 = j % 2 := by omega
      rw [this]
    · intro heven
      rw [times_loop_eq]
      apply xor_list_flip
      intro j hj
      rw [hbit j hj]
      by_cases h1 : j % 2 = 1
      · have : (m.c - 1 - j) % 2 = 0 := by omega
        simp [h1, this]
      · have : (m.c - 1 - j) % 2 = 1 := by omega
        simp [h1, this]

/-- A `2 × 3` matrix with columns `1, 2, 3` and a `2 × 4` matrix with columns `1, 2, 3, 1`:
for `v` all ones the XOR of all columns, for `0xaaaaaaaaaaaaaaaa` column 1 alone when `c = 3`
and the XOR of columns 0 and 2 when `c = 4`. -/
theorem RectangularBinaryMatrix.times_loop_spec_witness :
    RectangularBinaryMatrix.times_loop ⟨2, 3, [1, 2, 3]⟩ [2 ^ 64 - 1] = 0 ∧
      RectangularBinaryMatrix.times_loop ⟨2, 3, [1, 2, 3]⟩ [0xaaaaaaaaaaaaaaaa] = 2 ∧
      RectangularBinaryMatrix.times_loop ⟨2, 4, [1, 2, 3, 1]⟩ [0xaaaaaaaaaaaaaaaa] = 2 :=
  ⟨((RectangularBinaryMatrix.times_loop_spec ⟨2, 3, [1, 2, 3]⟩ [2 ^ 64 - 1]).2.1 (by decide)
      (by decide)).trans (by decide),
    (((RectangularBinaryMatrix.times_loop_spec ⟨2, 3, [1, 2, 3]⟩ [0xaaaaaaaaaaaaaaaa]).2.2
      (by decide) (by decide)).1 (by decide)).trans (by decide),
    (((RectangularBinaryMatrix.times_loop_spec ⟨2, 4, [1, 2, 3, 1]⟩ [0xaaaaaaaaaaaaaaaa]).2.2
      (by decide) (by decide)).2 (by decide)).trans (by decide)⟩

/-- C10: for every `RectangularBinaryMatrix` `m` of valid dimensions `r × c`: if
`m.pseudo_rank()` equals `c` then `m.pseudo_inverse()` returns a matrix `inv` such that
`inv.pseudo_multiplication(m)` is the low identity; if `m.pseudo_rank()` is not `c` then
`m.pseudo_inverse()` fails with a domain error. Both are functions of the matrix that build
their result apart from it, so neither changes `m`. -/
theorem RectangularBinaryMatrix.pseudo_inverse_spec (m : RectangularBinaryMatrix)
    (hv : m.valid) :
    (m.pseudo_rank = m.c →
      ∃ inv p, m.pseudo_inverse = .ok inv ∧ inv.valid ∧ inv.r = m.r ∧ inv.c = m.c ∧
        inv.pseudo_multiplication m = .ok p ∧ p.r = m.r ∧ p.c = m.c ∧
        p.is_low_identity = true) ∧
    (m.pseudo_rank ≠ m.c → m.pseudo_inverse = .error matrix_error.domain_error) ∧
    m.pseudo_rank ≤ m.c := by
  have hle := pseudo_rank_le m hv
  obtain ⟨h1, h64, hrc, hlen, hbits⟩ := hv
  have hv' : m.valid := ⟨h1, h64, hrc, hlen, hbits⟩
  refine ⟨?_, ?_, hle⟩
  · intro hrank
    obtain ⟨X, hgj, hXlen, hXlt, hXR⟩ := gauss_jordan_spec m hv' hrank
    have hleft : m.left_block.length = m.c - m.r := by
      simp only [RectangularBinaryMatrix.left_block, List.length_take, hlen]
      omega
    have hAlen : (m.left_block.map (apply_cols X)).length = m.c - m.r := by
      rw [List.length_map, hleft]
    have hinv : m.pseudo_inverse =
        .ok ⟨m.r, m.c, m.left_block.map (apply_cols X) ++ X.reverse⟩ := by
      simp only [RectangularBinaryMatrix.pseudo_inverse, hgj]
      rw [if_neg (by omega)]
    have hrb : RectangularBinaryMatrix.right_block
        ⟨m.r, m.c, m.left_block.map (apply_cols X) ++ X.reverse⟩ = X := by
      show (List.drop (m.c - m.r) (m.left_block.map (apply_cols X) ++ X.reverse)).reverse = _
      rw [List.drop_left' hAlen, List.reverse_reverse]
    have hlb : RectangularBinaryMatrix.left_block
        ⟨m.r, m.c, m.left_block.map (apply_cols X) ++ X.reverse⟩ =
        m.left_block.map (apply_cols X) := by
      show List.take (m.c - m.r) (m.left_block.map (apply_cols X) ++ X.reverse) = _
      rw [List.take_left' hAlen]
    have hdrop : m.columns.drop (m.c - m.r) = m.right_block.reverse := by
      simp only [RectangularBinaryMatrix.right_block, List.reverse_reverse]
    refine ⟨_, ⟨m.r, m.c, List.replicate (m.c - m.r) 0 ++
      ((List.range m.r).map fun j => 2 ^ j).reverse⟩, hinv, ?_, rfl, rfl, ?_, rfl, rfl,
      is_low_identity_columns m.r m.c hrc⟩
    · refine ⟨h1, h64, hrc, ?_, ?_⟩
      · simp only [List.length_append, hAlen, List.length_reverse, hXlen]
        omega
      · intro w hw
        rcases List.mem_append.mp hw with h | h
        · obtain ⟨y, _, rfl⟩ := List.mem_map.mp h
          exact apply_cols_lt m.r X hXlt y
        · exact hXlt w (List.mem_reverse.mp h)
    · simp only [RectangularBinaryMatrix.pseudo_multiplication, hrb, hlb, ne_eq,
        not_true_eq_false, or_self, if_false]
      rw [zipWith_map_self, hleft, hdrop, List.map_reverse, hXR]
  · intro hne
    simp only [RectangularBinaryMatrix.pseudo_inverse]
    rw [if_pos (by omega)]

/-- The `2 × 3` matrix with columns `1, 2, 3` has pseudo-rank 3 and an inverse; the `3 × 5`
matrix with columns `1, 2, 6, 3, 5`, whose last column is the sum of the two before it, has
pseudo-rank 4 and none. -/
theorem RectangularBinaryMatrix.pseudo_inverse_spec_witness :
    (∃ inv p, RectangularBinaryMatrix.pseudo_inverse ⟨2, 3, [1, 2, 3]⟩ = .ok inv ∧ inv.valid ∧
        inv.r = 2 ∧ inv.c = 3 ∧
        inv.pseudo_multiplication ⟨2, 3, [1, 2, 3]⟩ = .ok p ∧ p.r = 2 ∧ p.c = 3 ∧
        p.is_low_identity = true) ∧
      RectangularBinaryMatrix.pseudo_inverse ⟨3, 5, [1, 2, 6, 3, 5]⟩ =
        .error matrix_error.domain_error :=
  ⟨(RectangularBinaryMatrix.pseudo_inverse_spec ⟨2, 3, [1, 2, 3]⟩
      (by simp [RectangularBinaryMatrix.valid])).1 (by decide),
    (RectangularBinaryMatrix.pseudo_inverse_spec ⟨3, 5, [1, 2, 6, 3, 5]⟩
      (by simp [RectangularBinaryMatrix.valid])).2.1 (by decide)⟩

end Jellyfish
